import Mathlib

/-!
Verification of the `memo` staged note-triage pipeline.

The development shallowly embeds the Python modules `memo/utils.py`,
`memo/stage.py`, `memo/storage.py`, `memo/proposal.py`, `memo/commit_flow.py`,
`memo/classify.py` and `memo/summarize.py`.

Modelling conventions:
* The observable file system is a finite map from root-relative path strings
  to file text (`FS`).  Directory creation (`ensure_dir`) does not change this
  map; the presence of the git repository is modelled as the pseudo-entry
  `".git"`.
* Every primitive durable operation of the commit flow (an atomic file write,
  a ledger append, a staged-file move, a git subprocess call) either completes
  or raises without effect, matching the scoped-temp-file/atomic-rename
  discipline of `utils.atomic_write_text` and the atomicity of `os.replace`
  and `shutil.move`.  An injected I/O failure is a schedule `failAt : Option
  Nat` naming the index of the primitive operation that raises.
* JSON documents are modelled by `JVal`; floats are modelled by their shortest
  decimal representation (`jnum m e` denotes `m / 10^e`), which is exactly the
  text `repr`/`json.dumps` exchanges for the non-scientific range the program
  produces.
* Machine integers do not occur; all arithmetic is exact (`Nat`, `Int`, `ℚ`).
-/

namespace Memo

/-! ## Python string primitives -/

/-- Whitespace in Python's sense (`str.strip`, `str.isspace`, regex `\s`):
the ASCII whitespace control characters together with the Unicode space
separators Python recognizes. -/
def pyIsSpace (c : Char) : Bool :=
  c.toNat = 32 || c.toNat = 9 || c.toNat = 10 || c.toNat = 13 ||
  c.toNat = 11 || c.toNat = 12 ||
  (28 ≤ c.toNat && c.toNat ≤ 31) || c.toNat = 133 || c.toNat = 160 ||
  c.toNat = 5760 || (8192 ≤ c.toNat && c.toNat ≤ 8202) ||
  c.toNat = 8232 || c.toNat = 8233 || c.toNat = 8239 || c.toNat = 8287 ||
  c.toNat = 12288

/-- Strip Python-style whitespace from both ends of a character list. -/
def stripChars (l : List Char) : List Char :=
  ((l.dropWhile pyIsSpace).reverse.dropWhile pyIsSpace).reverse

/-- Python `str.strip()`. -/
def pyStrip (s : String) : String :=
  String.mk (stripChars s.data)

/-- Line-break characters recognised by Python `str.splitlines`. -/
def pyIsLineBreak (c : Char) : Bool :=
  c.toNat = 10 || c.toNat = 13 || c.toNat = 11 || c.toNat = 12 ||
  c.toNat = 28 || c.toNat = 29 || c.toNat = 30 || c.toNat = 133 ||
  c.toNat = 8232 || c.toNat = 8233

/-- Worker for `pySplitlines`; `\r\n` counts as a single break. -/
def splitLinesAux : List Char → List Char → List (List Char)
  | [], acc => match acc with | [] => [] | _ => [acc.reverse]
  | '\r' :: '\n' :: rest, acc => acc.reverse :: splitLinesAux rest []
  | c :: rest, acc =>
    if pyIsLineBreak c then acc.reverse :: splitLinesAux rest []
    else splitLinesAux rest (c :: acc)

/-- Python `str.splitlines()` (no trailing empty line for a final break). -/
def pySplitlines (s : String) : List String :=
  (splitLinesAux s.data []).map String.mk

/-! ## The file-system model -/

/-- The observable file system: a finite association of root-relative path
strings to file text.  `set` replaces any previous entry for the path. -/
abbrev FS := List (String × String)

/-- Content of the file at `p`, if present. -/
def FS.get (fs : FS) (p : String) : Option String :=
  match fs with
  | [] => none
  | (q, c) :: rest => if q = p then some c else FS.get rest p

/-- Delete the file at `p` (`Path.unlink`), a no-op when absent. -/
def FS.del (fs : FS) (p : String) : FS :=
  match fs with
  | [] => []
  | (q, c) :: rest => if q = p then FS.del rest p else (q, c) :: FS.del rest p

/-- Write `c` to `p`, replacing any existing file (atomic whole-file write). -/
def FS.set (fs : FS) (p c : String) : FS :=
  FS.del fs p ++ [(p, c)]

theorem FS.get_append (l₁ l₂ : FS) (q : String) :
    FS.get (l₁ ++ l₂) q =
      match FS.get l₁ q with
      | some c => some c
      | none => FS.get l₂ q := by
  induction l₁ with
  | nil => simp [FS.get]
  | cons e rest ih =>
    obtain ⟨a, c⟩ := e
    by_cases haq : a = q <;> simp [FS.get, haq, ih]

theorem FS.get_del (fs : FS) (p q : String) :
    FS.get (FS.del fs p) q = if q = p then none else FS.get fs q := by
  induction fs with
  | nil => simp [FS.del, FS.get]
  | cons e rest ih =>
    obtain ⟨a, c⟩ := e
    by_cases hap : a = p <;> by_cases haq : a = q <;>
      simp_all [FS.del, FS.get]

theorem FS.get_set_self (fs : FS) (p c : String) :
    FS.get (FS.set fs p c) p = some c := by
  rw [FS.set, FS.get_append, FS.get_del]
  simp [FS.get]

theorem FS.get_set_ne (fs : FS) (p c q : String) (h : q ≠ p) :
    FS.get (FS.set fs p c) q = FS.get fs q := by
  rw [FS.set, FS.get_append, FS.get_del]
  simp only [if_neg h]
  cases hfs : FS.get fs q <;> simp [FS.get, h, Ne.symm h]

/-! ## JSON documents

`JVal` models the JSON values the program serializes with `json.dumps(...,
ensure_ascii=True)` and reads back with `json.loads`.  A float is modelled by
its shortest decimal form: `jnum m e` denotes `m / 10 ^ e` with `e ≥ 1` and,
when `e > 1`, `10 ∤ m` — exactly the digits `repr` prints for a float in the
plain-decimal range (the program only produces three-decimal fractions in
`[0, 1]`, far from the scientific-notation thresholds). -/

inductive JVal where
  | jnull : JVal
  | jbool : Bool → JVal
  | jint : Int → JVal
  | jnum : Int → Nat → JVal
  | jstr : String → JVal
  | jarr : List JVal → JVal
  | jobj : List (String × JVal) → JVal

open JVal

/-- Left brace, kept out of string literals. -/
def lbrace : Char := Char.ofNat 123

/-- Right brace, kept out of string literals. -/
def rbrace : Char := Char.ofNat 125

/-- Decimal digit character for `n < 10`. -/
def digitChar (n : Nat) : Char := Char.ofNat (48 + n)

/-- Worker for `natChars`; the fuel dominates the number, hence the digit
count, keeping the recursion structural. -/
def natCharsAux : Nat → Nat → List Char
  | 0, _ => []
  | f + 1, n =>
    if n < 10 then [digitChar n]
    else natCharsAux f (n / 10) ++ [digitChar (n % 10)]

/-- Decimal digits of a natural number, most significant first. -/
def natChars (n : Nat) : List Char := natCharsAux (n + 1) n

theorem natCharsAux_fuel : ∀ f g n, n < f → n < g →
    natCharsAux f n = natCharsAux g n := by
  intro f
  induction f with
  | zero => intro g n h; omega
  | succ f ih =>
    intro g n hf hg
    cases g with
    | zero => omega
    | succ g =>
      by_cases h10 : n < 10
      · simp [natCharsAux, h10]
      · have hn : 0 < n := by omega
        have hlt : n / 10 < n := Nat.div_lt_self hn (by decide)
        have hdf : n / 10 < f := by omega
        have hdg : n / 10 < g := by omega
        simp only [natCharsAux, if_neg h10]
        rw [ih g (n / 10) hdf hdg]

/-- Unfolding rule for `natChars` in its natural recursive form. -/
theorem natChars_eq (n : Nat) : natChars n =
    if n < 10 then [digitChar n]
    else natChars (n / 10) ++ [digitChar (n % 10)] := by
  by_cases h10 : n < 10
  · simp [natChars, natCharsAux, h10]
  · have hn : 0 < n := by omega
    have hd : n / 10 < n := Nat.div_lt_self hn (by decide)
    have h1 : natChars n = natCharsAux n (n / 10) ++ [digitChar (n % 10)] := by
      simp [natChars, natCharsAux, h10]
    have h2 : natCharsAux n (n / 10) = natCharsAux (n / 10 + 1) (n / 10) :=
      natCharsAux_fuel n (n / 10 + 1) (n / 10) (by omega) (by omega)
    rw [h1, h2, if_neg h10]
    rfl

/-- Python `str` of an `int`. -/
def intChars (n : Int) : List Char :=
  if n < 0 then '-' :: natChars n.natAbs else natChars n.natAbs

/-- Python `repr` of the float `m / 10 ^ e` in plain decimal form: integer
part, `'.'`, then exactly `e` fraction digits. -/
def numChars (m : Int) (e : Nat) : List Char :=
  let a := m.natAbs
  let frs := natChars (a % 10 ^ e)
  let pad := List.replicate (e - frs.length) '0'
  (if m < 0 then ['-'] else []) ++ natChars (a / 10 ^ e) ++ '.' :: (pad ++ frs)

/-- Lowercase hexadecimal digit character for `n < 16`. -/
def hexDigitChar (n : Nat) : Char :=
  if n < 10 then Char.ofNat (48 + n) else Char.ofNat (87 + n)

/-- Four lowercase hex digits of `n < 0x10000`, as in `\uXXXX` escapes. -/
def hex4 (n : Nat) : List Char :=
  [hexDigitChar (n / 4096 % 16), hexDigitChar (n / 256 % 16),
   hexDigitChar (n / 16 % 16), hexDigitChar (n % 16)]

/-- Escape of one character under `json.dumps(..., ensure_ascii=True)`:
shortcuts for quote, backslash and the common controls, raw printable ASCII,
`\uXXXX` otherwise, with surrogate pairs above the BMP. -/
def escapeChar (c : Char) : List Char :=
  let n := c.toNat
  if c = '"' then ['\\', '"']
  else if c = '\\' then ['\\', '\\']
  else if n = 8 then ['\\', 'b']
  else if n = 9 then ['\\', 't']
  else if n = 10 then ['\\', 'n']
  else if n = 12 then ['\\', 'f']
  else if n = 13 then ['\\', 'r']
  else if 32 ≤ n ∧ n ≤ 126 then [c]
  else if n < 65536 then '\\' :: 'u' :: hex4 n
  else ('\\' :: 'u' :: hex4 (55296 + (n - 65536) / 1024)) ++
       ('\\' :: 'u' :: hex4 (56320 + (n - 65536) % 1024))

/-- Serialized JSON string literal: quote, escaped characters, quote. -/
def strChars (s : String) : List Char :=
  '"' :: ((s.data.map escapeChar).flatten ++ ['"'])

mutual

/-- Characters of `json.dumps(v, ensure_ascii=True)` with the default
separators `", "` and `": "`. -/
def JVal.dumpChars : JVal → List Char
  | jnull => ['n', 'u', 'l', 'l']
  | jbool true => ['t', 'r', 'u', 'e']
  | jbool false => ['f', 'a', 'l', 's', 'e']
  | jint n => intChars n
  | jnum m e => numChars m e
  | jstr s => strChars s
  | jarr xs => '[' :: (dumpElemsChars xs ++ [']'])
  | jobj kvs => lbrace :: (dumpMembersChars kvs ++ [rbrace])

/-- Array elements joined by `", "`. -/
def dumpElemsChars : List JVal → List Char
  | [] => []
  | [x] => x.dumpChars
  | x :: y :: rest => x.dumpChars ++ ',' :: ' ' :: dumpElemsChars (y :: rest)

/-- Object members `"key": value` joined by `", "`. -/
def dumpMembersChars : List (String × JVal) → List Char
  | [] => []
  | [(k, v)] => strChars k ++ ':' :: ' ' :: v.dumpChars
  | (k, v) :: m :: rest =>
    strChars k ++ ':' :: ' ' :: v.dumpChars ++ ',' :: ' ' :: dumpMembersChars (m :: rest)

end

/-- Serialized form of a JSON document, as a `String`. -/
def JVal.dumps (v : JVal) : String := String.mk v.dumpChars

mutual

/-- Well-formed JSON documents: floats canonical (at least one fraction digit,
no trailing zero fraction digit beyond the first), object keys distinct.
These hold of every document Python produces: float `repr` is the shortest
round-tripping decimal and `dict` keys are unique. -/
def JVal.wf : JVal → Bool
  | jnull => true
  | jbool _ => true
  | jint _ => true
  | jnum m e => 1 ≤ e && (e = 1 || ¬ (m % 10 = 0))
  | jstr _ => true
  | jarr xs => wfElems xs
  | jobj kvs => wfMembers kvs && (kvs.map Prod.fst).Nodup

/-- All array elements well-formed. -/
def wfElems : List JVal → Bool
  | [] => true
  | x :: rest => x.wf && wfElems rest

/-- All object member values well-formed. -/
def wfMembers : List (String × JVal) → Bool
  | [] => true
  | (_, v) :: rest => v.wf && wfMembers rest

end

mutual

/-- Fuel bound for the recursive-descent reader: one unit per value plus one
per container element. -/
def JVal.jsize : JVal → Nat
  | jnull => 1
  | jbool _ => 1
  | jint _ => 1
  | jnum _ _ => 1
  | jstr _ => 1
  | jarr xs => 1 + jsizeElems xs
  | jobj kvs => 1 + jsizeMembers kvs

/-- Summed fuel of array elements. -/
def jsizeElems : List JVal → Nat
  | [] => 0
  | x :: rest => 1 + x.jsize + jsizeElems rest

/-- Summed fuel of object members. -/
def jsizeMembers : List (String × JVal) → Nat
  | [] => 0
  | (_, v) :: rest => 1 + v.jsize + jsizeMembers rest

end

/-! ### The JSON reader (`json.loads`)

A recursive-descent reader of the grammar `json.loads` accepts, over exact
decimal numbers.  Deviations from CPython, none of them reachable from text
this program writes: lone surrogate escapes are rejected (Lean strings cannot
hold them), duplicate object keys are kept in order (lookups below take the
last one, as a Python `dict` does), and out-of-range exponents do not round
to infinity. -/

/-- JSON whitespace skipped by the `json.loads` scanner. -/
def isJsonWs (c : Char) : Bool :=
  c = ' ' || c = '\t' || c = '\n' || c = '\r'

/-- Drop leading JSON whitespace. -/
def skipWs (l : List Char) : List Char := l.dropWhile isJsonWs

/-- ASCII decimal digit test. -/
def isDigit (c : Char) : Bool := 48 ≤ c.toNat && c.toNat ≤ 57

/-- Value of a hexadecimal digit character. -/
def hexVal (c : Char) : Option Nat :=
  if 48 ≤ c.toNat ∧ c.toNat ≤ 57 then some (c.toNat - 48)
  else if 97 ≤ c.toNat ∧ c.toNat ≤ 102 then some (c.toNat - 87)
  else if 65 ≤ c.toNat ∧ c.toNat ≤ 70 then some (c.toNat - 55)
  else none

/-- Value of four hex digits, as in the `json` scanner. -/
def hexQuad (x y z w : Nat) : Nat := ((x * 16 + y) * 16 + z) * 16 + w

/-- Low-surrogate continuation of a `\\uXXXX` escape pair. -/
def pLowSurrogate : Nat → List Char → Option (Char × List Char)
  | n, s1 :: s2 :: a2 :: b2 :: c2 :: d2 :: rest4 =>
    if s1 = '\\' ∧ s2 = 'u' then
      match hexVal a2, hexVal b2, hexVal c2, hexVal d2 with
      | some x2, some y2, some z2, some w2 =>
        let n2 := hexQuad x2 y2 z2 w2
        if 56320 ≤ n2 ∧ n2 ≤ 57343 then
          some (Char.ofNat (65536 + (n - 55296) * 1024 + (n2 - 56320)), rest4)
        else none
      | _, _, _, _ => none
    else none
  | _, _ => none

/-- Four hex digits of a `\\uXXXX` escape, surrogate pairs combined.  Lone
surrogates are rejected (a Lean `Char` cannot hold them); the program never
emits them. -/
def pUnicodeEscape : List Char → Option (Char × List Char)
  | a :: b :: c3 :: d :: rest3 =>
    match hexVal a, hexVal b, hexVal c3, hexVal d with
    | some x, some y, some z, some w =>
      let n := hexQuad x y z w
      if 55296 ≤ n ∧ n ≤ 56319 then pLowSurrogate n rest3
      else if 56320 ≤ n ∧ n ≤ 57343 then none
      else some (Char.ofNat n, rest3)
    | _, _, _, _ => none
  | _ => none

/-- One backslash escape (the backslash already consumed). -/
def pEscape : List Char → Option (Char × List Char)
  | [] => none
  | e :: rest2 =>
    if e = '"' then some ('"', rest2)
    else if e = '\\' then some ('\\', rest2)
    else if e = '/' then some ('/', rest2)
    else if e = 'b' then some (Char.ofNat 8, rest2)
    else if e = 'f' then some (Char.ofNat 12, rest2)
    else if e = 'n' then some ('\n', rest2)
    else if e = 'r' then some ('\r', rest2)
    else if e = 't' then some ('\t', rest2)
    else if e = 'u' then pUnicodeEscape rest2
    else none

/-- String-literal body reader: consumes up to the closing quote.  The fuel
only keeps the recursion structural; every step consumes at least one input
character, so fuel at least the input length never runs out. -/
def pStrAux : Nat → List Char → List Char → Option (String × List Char)
  | 0, _, _ => none
  | fuel + 1, acc, l =>
    match l with
    | [] => none
    | c :: rest =>
      if c = '"' then some (String.mk acc.reverse, rest)
      else if c = '\\' then
        match pEscape rest with
        | some (ch, rest2) => pStrAux fuel (ch :: acc) rest2
        | none => none
      else if c.toNat < 32 then none
      else pStrAux fuel (c :: acc) rest

/-- Maximal digit run: accumulated value, count consumed, rest. -/
def pDigitsAux : List Char → Nat → Nat → Nat × Nat × List Char
  | c :: rest, acc, cnt =>
    if isDigit c then pDigitsAux rest (acc * 10 + (c.toNat - 48)) (cnt + 1)
    else (acc, cnt, c :: rest)
  | [], acc, cnt => (acc, cnt, [])

/-- Integer part of a JSON number: `0` or a nonzero-led digit run. -/
def pIntPart : List Char → Option (Nat × List Char)
  | [] => none
  | c :: rest =>
    if c = '0' then some (0, rest)
    else if isDigit c then
      match pDigitsAux rest (c.toNat - 48) 1 with
      | (v, _, r) => some (v, r)
    else none

/-- Fraction part: a dot followed by at least one digit. -/
def pFrac : List Char → Option (Nat × Nat × List Char)
  | c :: c2 :: rest =>
    if c = '.' ∧ isDigit c2 then
      match pDigitsAux rest (c2.toNat - 48) 1 with
      | (v, n, r) => some (v, n, r)
    else none
  | _ => none

/-- Exponent digits with optional sign. -/
def pExpDigits : List Char → Option (Int × List Char)
  | '+' :: c :: rest =>
    if isDigit c then
      match pDigitsAux rest (c.toNat - 48) 1 with
      | (v, _, r) => some ((v : Int), r)
    else none
  | '-' :: c :: rest =>
    if isDigit c then
      match pDigitsAux rest (c.toNat - 48) 1 with
      | (v, _, r) => some (-(v : Int), r)
    else none
  | c :: rest =>
    if isDigit c then
      match pDigitsAux rest (c.toNat - 48) 1 with
      | (v, _, r) => some ((v : Int), r)
    else none
  | [] => none

/-- Strip trailing zero fraction digits down to one, the canonical form of
a float's shortest decimal. -/
def canonNumAux : Int → Nat → Int × Nat
  | m, 0 => (m, 0)
  | m, 1 => (m, 1)
  | m, e + 2 => if m % 10 = 0 then canonNumAux (m / 10) (e + 1) else (m, e + 2)

/-- Assemble the float value `±(ip.frac) × 10^ex` in canonical decimal form. -/
def mkFloat (sign : Bool) (ip fv fn : Nat) (ex : Int) : JVal :=
  let m0 : Int := (if sign then -1 else 1) * ((ip : Int) * 10 ^ fn + (fv : Int))
  let scale : Int := ex - (fn : Int)
  if 0 ≤ scale then jnum (m0 * 10 ^ (scale.toNat + 1)) 1
  else
    match canonNumAux m0 (-scale).toNat with
    | (m, e) => jnum m e

/-- JSON number reader, following the scanner's number regex: an optional
fraction or exponent group that fails to match is simply not consumed. -/
def pNum (l : List Char) : Option (JVal × List Char) :=
  let sl : Bool × List Char :=
    match l with
    | c :: r => if c = '-' then (true, r) else (false, c :: r)
    | [] => (false, [])
  match pIntPart sl.2 with
  | none => none
  | some (ip, r1) =>
    let frOpt := pFrac r1
    match frOpt.getD (0, 0, r1) with
    | (fv, fn, r2) =>
      let exOpt : Option (Int × List Char) :=
        match r2 with
        | c :: r3 => if c = 'e' ∨ c = 'E' then pExpDigits r3 else none
        | [] => none
      match frOpt, exOpt with
      | none, none => some (jint (if sl.1 then -(ip : Int) else (ip : Int)), r1)
      | _, _ =>
        let ex := (exOpt.map Prod.fst).getD 0
        let rest := (exOpt.map Prod.snd).getD r2
        some (mkFloat sl.1 ip fv fn ex, rest)

mutual

/-- One JSON value at the head of the input (leading whitespace already
skipped); fueled to bound the mutual recursion. -/
def pVal : Nat → List Char → Option (JVal × List Char)
  | 0, _ => none
  | fuel + 1, l =>
    match l with
    | [] => none
    | c :: rest =>
      if c = '"' then
        match pStrAux (rest.length + 1) [] rest with
        | some (s, r) => some (jstr s, r)
        | none => none
      else if c = '[' then
        match skipWs rest with
        | [] => none
        | c2 :: r2 =>
          if c2 = ']' then some (jarr [], r2)
          else
            match pElems fuel (c2 :: r2) with
            | some (xs, r3) => some (jarr xs, r3)
            | none => none
      else if c = lbrace then
        match skipWs rest with
        | c2 :: r2 =>
          if c2 = rbrace then some (jobj [], r2)
          else
            match pMembers fuel (c2 :: r2) with
            | some (kvs, r3) => some (jobj kvs, r3)
            | none => none
        | [] => none
      else if c = 'n' then
        match rest with
        | 'u' :: 'l' :: 'l' :: r => some (jnull, r)
        | _ => none
      else if c = 't' then
        match rest with
        | 'r' :: 'u' :: 'e' :: r => some (jbool true, r)
        | _ => none
      else if c = 'f' then
        match rest with
        | 'a' :: 'l' :: 's' :: 'e' :: r => some (jbool false, r)
        | _ => none
      else if c = '-' || isDigit c then pNum (c :: rest)
      else none

/-- Array elements, consuming the closing bracket. -/
def pElems : Nat → List Char → Option (List JVal × List Char)
  | 0, _ => none
  | fuel + 1, l =>
    match pVal fuel l with
    | none => none
    | some (v, r) =>
      match skipWs r with
      | [] => none
      | c :: r2 =>
        if c = ']' then some ([v], r2)
        else if c = ',' then
          match pElems fuel (skipWs r2) with
          | some (xs, r3) => some (v :: xs, r3)
          | none => none
        else none

/-- Object members, consuming the closing brace. -/
def pMembers : Nat → List Char → Option (List (String × JVal) × List Char)
  | 0, _ => none
  | fuel + 1, l =>
    match l with
    | c :: rest =>
      if c = '"' then
        match pStrAux (rest.length + 1) [] rest with
        | some (k, r1) =>
          match skipWs r1 with
          | [] => none
          | c1 :: r2 =>
            if c1 = ':' then
            match pVal fuel (skipWs r2) with
            | some (v, r3) =>
              match skipWs r3 with
              | c2 :: r4 =>
                if c2 = rbrace then some ([(k, v)], r4)
                else if c2 = ',' then
                  match pMembers fuel (skipWs r4) with
                  | some (kvs, r5) => some ((k, v) :: kvs, r5)
                  | none => none
                else none
              | [] => none
            | none => none
            else none
        | none => none
      else none
    | [] => none

end

/-- Python `json.loads`: one document, nothing but whitespace after it. -/
def loads (s : String) : Option JVal :=
  let l := skipWs s.data
  match pVal (l.length + 1) l with
  | some (v, r) => if skipWs r = [] then some v else none
  | none => none

/-- Python `dict.get` on a parsed object's member list: with duplicate keys
the later member wins, as in `dict` construction. -/
def objGet (kvs : List (String × JVal)) (k : String) : Option JVal :=
  match kvs with
  | [] => none
  | (a, v) :: rest =>
    match objGet rest k with
    | some w => some w
    | none => if a = k then some v else none

/-! ### Reader inversion: `loads` recovers what `dumps` printed -/

theorem charToNatOfNatValid (m : Nat) (h : Nat.isValidChar m) :
    (Char.ofNat m).toNat = m := by
  unfold Char.ofNat Char.ofNatAux Char.toNat
  simp only [h, dif_pos]
  simp [UInt32.toNat, BitVec.toNat_ofNat]

theorem charEqOfToNatEq (c c' : Char) (h : c.toNat = c'.toNat) : c = c' := by
  apply Char.eq_of_val_eq
  cases c; cases c'
  simp_all only [Char.toNat]
  rename_i u1 _ u2 _
  cases u1; cases u2
  simp_all only [UInt32.toNat]
  congr 1
  exact BitVec.eq_of_toNat_eq h

theorem charValidToNat (c : Char) : Nat.isValidChar c.toNat := c.valid

theorem validCharOfLtSurr (m : Nat) (h : m < 55296) : Nat.isValidChar m :=
  Or.inl h

theorem digitChar_toNat (n : Nat) (h : n < 10) : (digitChar n).toNat = 48 + n := by
  unfold digitChar
  exact charToNatOfNatValid _ (validCharOfLtSurr _ (by omega))

theorem isDigit_digitChar (n : Nat) (h : n < 10) : isDigit (digitChar n) = true := by
  simp only [isDigit, digitChar_toNat n h]
  simp
  omega

theorem natChars_ne_nil (n : Nat) : natChars n ≠ [] := by
  rw [natChars_eq]
  split <;> simp

theorem natChars_digits (n : Nat) : ∀ c ∈ natChars n, isDigit c = true := by
  induction n using Nat.strong_induction_on with
  | _ n ih =>
    rw [natChars_eq]
    split
    · intro c hc
      simp only [List.mem_singleton] at hc
      subst hc
      exact isDigit_digitChar n (by omega)
    · intro c hc
      rcases List.mem_append.mp hc with h | h
      · exact ih (n / 10) (Nat.div_lt_self (by omega) (by decide)) c h
      · simp only [List.mem_singleton] at h
        subst h
        exact isDigit_digitChar _ (Nat.mod_lt _ (by decide))

theorem natChars_head_ne_zero (n : Nat) (hn : 1 ≤ n) :
    ∀ c, natChars n = c :: (natChars n).tail → c ≠ '0' := by
  induction n using Nat.strong_induction_on with
  | _ n ih =>
    intro c hc
    rw [natChars_eq] at hc
    by_cases h10 : n < 10
    · rw [if_pos h10] at hc
      simp only [List.cons.injEq] at hc
      intro hz
      subst hz
      obtain ⟨h1, _⟩ := hc
      have := congrArg Char.toNat h1
      rw [digitChar_toNat n (by omega)] at this
      have hzero : ('0').toNat = 48 := by decide
      omega
    · rw [if_neg h10] at hc
      have hne := natChars_ne_nil (n / 10)
      obtain ⟨d, t, hd⟩ : ∃ d t, natChars (n / 10) = d :: t := by
        cases hnc : natChars (n / 10) with
        | nil => exact absurd hnc hne
        | cons d t => exact ⟨d, t, rfl⟩
      rw [hd] at hc
      simp only [List.cons_append, List.cons.injEq] at hc
      obtain ⟨h1, _⟩ := hc
      subst h1
      have := ih (n / 10) (Nat.div_lt_self (by omega) (by decide))
      have hq : 1 ≤ n / 10 := Nat.one_le_div_iff (by omega) |>.mpr (by omega)
      exact this hq d (by rw [hd]; rfl)

/-- The digit-run value step function of `pDigitsAux`. -/
def digitStep (a : Nat) (c : Char) : Nat := a * 10 + (c.toNat - 48)

/-- The input after a printed number must not continue the number. -/
def numStop : List Char → Prop
  | [] => True
  | c :: _ => isDigit c = false ∧ c ≠ '.' ∧ c ≠ 'e' ∧ c ≠ 'E'

/-- The remaining input does not begin with another digit. -/
def headNotDigit : List Char → Prop
  | [] => True
  | c :: _ => isDigit c = false

theorem pDigitsAux_append (ds : List Char) :
    ∀ rest acc cnt, (∀ c ∈ ds, isDigit c = true) →
    headNotDigit rest →
    pDigitsAux (ds ++ rest) acc cnt =
      (ds.foldl digitStep acc, cnt + ds.length, rest) := by
  induction ds with
  | nil =>
    intro rest acc cnt _ hrest
    cases rest with
    | nil => simp [pDigitsAux]
    | cons c t =>
      have hc : isDigit c = false := hrest
      simp_all [pDigitsAux]
  | cons d ds ih =>
    intro rest acc cnt hds hrest
    have hd : isDigit d = true := hds d (by simp)
    simp only [List.cons_append, pDigitsAux, hd, if_pos, List.append_eq]
    rw [ih rest _ _ (fun c hc => hds c (by simp [hc])) hrest]
    simp only [List.foldl_cons, List.length_cons, Prod.mk.injEq, digitStep]
    simp
    omega

theorem natChars_foldl (n : Nat) :
    ∀ acc, (natChars n).foldl digitStep acc =
      acc * 10 ^ (natChars n).length + n := by
  induction n using Nat.strong_induction_on with
  | _ n ih =>
    intro acc
    rw [natChars_eq]
    by_cases h10 : n < 10
    · rw [if_pos h10]
      simp [digitStep, digitChar_toNat n (by omega)]
    · rw [if_neg h10]
      rw [List.foldl_append]
      rw [ih (n / 10) (Nat.div_lt_self (by omega) (by decide)) acc]
      simp only [List.foldl_cons, List.foldl_nil, List.length_append,
        List.length_singleton, digitStep]
      rw [digitChar_toNat _ (Nat.mod_lt _ (by decide))]
      have hmod : 48 + n % 10 - 48 = n % 10 := by omega
      rw [hmod]
      rw [pow_succ]
      have := Nat.div_add_mod n 10
      ring_nf
      omega

theorem natChars_length_pos (n : Nat) : 0 < (natChars n).length := by
  cases hnc : natChars n with
  | nil => exact absurd hnc (natChars_ne_nil n)
  | cons c t => simp

theorem natChars_length_le (k : Nat) : ∀ n, n < 10 ^ k → 1 ≤ k →
    (natChars n).length ≤ k := by
  induction k with
  | zero => omega
  | succ k ih =>
    intro n hn _
    rw [natChars_eq]
    by_cases h10 : n < 10
    · simp [if_pos h10]
    · rw [if_neg h10]
      simp only [List.length_append, List.length_singleton]
      have hk : 1 ≤ k := by
        by_contra hk0
        have : k = 0 := by omega
        subst this
        simp at hn
        omega
      have hdiv : n / 10 < 10 ^ k := by
        rw [pow_succ] at hn
        omega
      have := ih (n / 10) hdiv hk
      omega

theorem foldl_digitStep_zeros (k : Nat) :
    ∀ acc, (List.replicate k '0').foldl digitStep acc = acc * 10 ^ k := by
  induction k with
  | zero => intro acc; simp
  | succ k ih =>
    intro acc
    rw [List.replicate_succ, List.foldl_cons, ih]
    have h48 : ('0').toNat = 48 := rfl
    have h0 : digitStep acc '0' = acc * 10 := by
      simp [digitStep, h48]
    rw [h0, pow_succ]
    ring

theorem headNotDigitOfNumStop (rest : List Char) (h : numStop rest) :
    headNotDigit rest := by
  cases rest with
  | nil => trivial
  | cons c t =>
    have h' : isDigit c = false ∧ c ≠ '.' ∧ c ≠ 'e' ∧ c ≠ 'E' := h
    exact h'.1

theorem pIntPart_natChars (n : Nat) (rest : List Char)
    (hrest : headNotDigit rest) :
    pIntPart (natChars n ++ rest) = some (n, rest) := by
  by_cases hn : n = 0
  · subst hn
    have h0 : natChars 0 = ['0'] := by
      rw [natChars_eq]
      norm_num
      decide
    rw [h0]
    simp [pIntPart]
  · obtain ⟨c, t, hct⟩ : ∃ c t, natChars n = c :: t := by
      cases hnc : natChars n with
      | nil => exact absurd hnc (natChars_ne_nil n)
      | cons c t => exact ⟨c, t, rfl⟩
    have hcd : isDigit c = true := natChars_digits n c (by rw [hct]; simp)
    have hc0 : ¬ (c = '0') := natChars_head_ne_zero n (by omega) c (by rw [hct]; rfl)
    rw [hct]
    simp only [List.cons_append, pIntPart, if_neg hc0, hcd, if_pos]
    rw [pDigitsAux_append t rest _ _
      (fun d hd => natChars_digits n d (by rw [hct]; simp [hd])) hrest]
    have hval : t.foldl digitStep (c.toNat - 48) = n := by
      have h1 := natChars_foldl n 0
      rw [hct] at h1
      simp only [List.foldl_cons, digitStep] at h1
      simpa [digitStep] using h1
    rw [hval]

theorem pFrac_none (rest : List Char) (h : numStop rest) : pFrac rest = none := by
  cases rest with
  | nil => rfl
  | cons c t =>
    cases t with
    | nil => rfl
    | cons c2 t2 =>
      simp only [pFrac]
      rw [if_neg]
      rintro ⟨hdot, _⟩
      exact h.2.1 hdot

theorem pFrac_padded (fr e : Nat) (hfr : fr < 10 ^ e) (he : 1 ≤ e)
    (rest : List Char) (hrest : headNotDigit rest) :
    pFrac ('.' :: ((List.replicate (e - (natChars fr).length) '0' ++ natChars fr) ++ rest)) =
      some (fr, e, rest) := by
  obtain ⟨d, ds, hcons⟩ : ∃ d ds,
      List.replicate (e - (natChars fr).length) '0' ++ natChars fr = d :: ds := by
    cases hpf : List.replicate (e - (natChars fr).length) '0' ++ natChars fr with
    | nil =>
      rw [List.append_eq_nil] at hpf
      exact absurd hpf.2 (natChars_ne_nil fr)
    | cons d ds => exact ⟨d, ds, rfl⟩
  have hdigall : ∀ x ∈ List.replicate (e - (natChars fr).length) '0' ++ natChars fr,
      isDigit x = true := by
    intro x hx
    rcases List.mem_append.mp hx with hxp | hxf
    · have hx0 : x = '0' := List.eq_of_mem_replicate hxp
      subst hx0
      decide
    · exact natChars_digits fr x hxf
  have hd : isDigit d = true := hdigall d (by rw [hcons]; simp)
  have hds : ∀ x ∈ ds, isDigit x = true := fun x hx => hdigall x (by rw [hcons]; simp [hx])
  have hlenfrs : (natChars fr).length ≤ e := natChars_length_le e fr hfr he
  have hlen : 1 + ds.length = e := by
    have h1 := congrArg List.length hcons
    simp only [List.length_append, List.length_cons, List.length_replicate] at h1
    omega
  have hval : ds.foldl digitStep (d.toNat - 48) = fr := by
    have h1 : (List.replicate (e - (natChars fr).length) '0' ++
        natChars fr).foldl digitStep 0 = fr := by
      rw [List.foldl_append, foldl_digitStep_zeros, zero_mul, natChars_foldl fr 0]
      simp
    rw [hcons] at h1
    simp only [List.foldl_cons, digitStep] at h1
    simpa [digitStep] using h1
  rw [show ((List.replicate (e - (natChars fr).length) '0' ++ natChars fr) ++ rest)
      = d :: (ds ++ rest) by rw [hcons]; simp]
  simp only [pFrac]
  rw [pDigitsAux_append ds rest _ _ hds hrest]
  rw [hval, hlen]
  simp [hd]

theorem canonNumAux_canonical (m : Int) (e : Nat) (he : 1 ≤ e)
    (hc : e = 1 ∨ ¬ (m % 10 = 0)) : canonNumAux m e = (m, e) := by
  match e, he with
  | 1, _ => rfl
  | (e + 2), _ =>
    have hm : ¬ (m % 10 = 0) := by
      rcases hc with h | h
      · omega
      · exact h
    simp [canonNumAux, hm]

theorem pNum_intChars (n : Int) (rest : List Char) (hrest : numStop rest) :
    pNum (intChars n ++ rest) = some (jint n, rest) := by
  have hnd := headNotDigitOfNumStop rest hrest
  have hfrac : pFrac rest = none := pFrac_none rest hrest
  have hip := pIntPart_natChars n.natAbs rest hnd
  obtain ⟨c, t, hct⟩ : ∃ c t, natChars n.natAbs = c :: t := by
    cases hnc : natChars n.natAbs with
    | nil => exact absurd hnc (natChars_ne_nil _)
    | cons c t => exact ⟨c, t, rfl⟩
  have hcd : isDigit c = true := natChars_digits _ c (by rw [hct]; simp)
  have hcm : ¬ (c = '-') := by
    intro hc
    subst hc
    simp only [isDigit] at hcd
    simp at hcd
  have hback : c :: (t ++ rest) = natChars n.natAbs ++ rest := by rw [hct]; rfl
  by_cases hneg : n < 0
  · have hval : -(|n| : Int) = n := by rw [abs_of_neg hneg]; ring
    simp only [intChars, if_pos hneg, List.cons_append]
    cases rest with
    | nil =>
      simp only [List.append_nil] at hip hback
      simp [pNum, hip, hfrac, hval]
    | cons c2 t2 =>
      obtain ⟨h1, h2, h3, h4⟩ :
          isDigit c2 = false ∧ ¬ (c2 = '.') ∧ ¬ (c2 = 'e') ∧ ¬ (c2 = 'E') := hrest
      simp [pNum, hip, hfrac, hval, h1, h2, h3, h4]
  · have hval : (|n| : Int) = n := abs_of_nonneg (by omega)
    simp only [intChars, if_neg hneg]
    rw [hct, List.cons_append]
    cases rest with
    | nil =>
      simp only [List.append_nil] at hip hback
      simp [pNum, hcm, hback, hip, hfrac, hval]
    | cons c2 t2 =>
      obtain ⟨h1, h2, h3, h4⟩ :
          isDigit c2 = false ∧ ¬ (c2 = '.') ∧ ¬ (c2 = 'e') ∧ ¬ (c2 = 'E') := hrest
      simp [pNum, hcm, hback, hip, hfrac, hval, h1, h2, h3, h4]

theorem pNum_numChars (m : Int) (e : Nat) (he : 1 ≤ e)
    (hc : e = 1 ∨ ¬ (m % 10 = 0)) (rest : List Char) (hrest : numStop rest) :
    pNum (numChars m e ++ rest) = some (jnum m e, rest) := by
  have hfr : m.natAbs % 10 ^ e < 10 ^ e := Nat.mod_lt _ (by positivity)
  have hdotnd : headNotDigit
      ('.' :: ((List.replicate (e - (natChars (m.natAbs % 10 ^ e)).length) '0' ++
        natChars (m.natAbs % 10 ^ e)) ++ rest)) := by
    exact (by decide : isDigit '.' = false)
  have hintpart := pIntPart_natChars (m.natAbs / 10 ^ e)
    ('.' :: ((List.replicate (e - (natChars (m.natAbs % 10 ^ e)).length) '0' ++
      natChars (m.natAbs % 10 ^ e)) ++ rest)) hdotnd
  have hfracpart := pFrac_padded (m.natAbs % 10 ^ e) e hfr he rest
    (headNotDigitOfNumStop rest hrest)
  simp only [List.append_assoc] at hintpart hfracpart
  have hcast : ((m.natAbs / 10 ^ e : Nat) : Int) * 10 ^ e +
      ((m.natAbs % 10 ^ e : Nat) : Int) = (m.natAbs : Int) := by
    have hda := Nat.div_add_mod m.natAbs (10 ^ e)
    rw [Nat.mul_comm] at hda
    exact_mod_cast congrArg (fun x : Nat => (x : Int)) hda
  have hmk : ∀ sg : Bool,
      ((if sg = true then -((m.natAbs : Int)) else (m.natAbs : Int)) = m) →
      mkFloat sg (m.natAbs / 10 ^ e) (m.natAbs % 10 ^ e) e 0 = jnum m e := by
    intro sg hsg
    have hm0 : (if sg then (-1 : Int) else 1) *
        (((m.natAbs / 10 ^ e : Nat) : Int) * 10 ^ e +
          ((m.natAbs % 10 ^ e : Nat) : Int)) = m := by
      cases sg
      · rw [if_neg (by simp)] at hsg
        rw [if_neg (by simp), hcast]
        linarith
      · rw [if_pos rfl] at hsg
        rw [if_pos (by simp), hcast]
        linarith
    simp only [mkFloat, hm0]
    rw [if_neg (by omega : ¬ ((0 : Int) ≤ 0 - (e : Int)))]
    rw [show ((-((0 : Int) - (e : Int))).toNat) = e by omega]
    rw [canonNumAux_canonical m e he hc]
  have hinput : numChars m e ++ rest =
      (if m < 0 then ['-'] else []) ++ (natChars (m.natAbs / 10 ^ e) ++
        ('.' :: ((List.replicate (e - (natChars (m.natAbs % 10 ^ e)).length) '0' ++
          natChars (m.natAbs % 10 ^ e)) ++ rest))) := by
    simp [numChars, List.append_assoc]
  rw [hinput]
  by_cases hneg : m < 0
  · have hsg : (if (true : Bool) = true then -((m.natAbs : Int)) else (m.natAbs : Int)) = m := by
      rw [if_pos rfl]
      omega
    have hmkt := hmk true hsg
    rw [if_pos hneg]
    cases rest with
    | nil =>
      simp only [List.append_nil] at hintpart hfracpart
      simp [pNum, hintpart, hfracpart, hmkt]
    | cons c2 t2 =>
      obtain ⟨h1, h2, h3, h4⟩ :
          isDigit c2 = false ∧ ¬ (c2 = '.') ∧ ¬ (c2 = 'e') ∧ ¬ (c2 = 'E') := hrest
      simp [pNum, hintpart, hfracpart, hmkt, h1, h2, h3, h4]
  · have hsg : (if (false : Bool) = true then -((m.natAbs : Int)) else (m.natAbs : Int)) = m := by
      rw [if_neg (by simp)]
      omega
    have hmkf := hmk false hsg
    rw [if_neg hneg]
    obtain ⟨c, t, hct⟩ : ∃ c t, natChars (m.natAbs / 10 ^ e) = c :: t := by
      cases hnc : natChars (m.natAbs / 10 ^ e) with
      | nil => exact absurd hnc (natChars_ne_nil _)
      | cons c t => exact ⟨c, t, rfl⟩
    have hcd : isDigit c = true := natChars_digits _ c (by rw [hct]; simp)
    have hcm : ¬ (c = '-') := by
      intro hc2
      subst hc2
      simp only [isDigit] at hcd
      simp at hcd
    have hback : c :: (t ++ ('.' :: ((List.replicate
        (e - (natChars (m.natAbs % 10 ^ e)).length) '0' ++
        natChars (m.natAbs % 10 ^ e)) ++ rest))) =
        natChars (m.natAbs / 10 ^ e) ++
        ('.' :: ((List.replicate (e - (natChars (m.natAbs % 10 ^ e)).length) '0' ++
          natChars (m.natAbs % 10 ^ e)) ++ rest)) := by
      rw [hct]
      rfl
    simp only [List.append_assoc] at hback
    rw [List.nil_append, hct, List.cons_append]
    cases rest with
    | nil =>
      simp only [List.append_nil] at hintpart hfracpart hback
      simp [pNum, hcm, hback, hintpart, hfracpart, hmkf]
    | cons c2 t2 =>
      obtain ⟨h1, h2, h3, h4⟩ :
          isDigit c2 = false ∧ ¬ (c2 = '.') ∧ ¬ (c2 = 'e') ∧ ¬ (c2 = 'E') := hrest
      simp [pNum, hcm, hback, hintpart, hfracpart, hmkf, h1, h2, h3, h4]

theorem hexVal_hexDigitChar (d : Nat) (h : d < 16) :
    hexVal (hexDigitChar d) = some d := by
  interval_cases d <;> decide

theorem hexVal_hexDigitChar_mod (x : Nat) : hexVal (hexDigitChar (x % 16)) = some (x % 16) :=
  hexVal_hexDigitChar _ (Nat.mod_lt _ (by decide))

theorem pUnicodeEscape_eval (a b c3 d : Char) (r : List Char) (x y z w : Nat)
    (ha : hexVal a = some x) (hb : hexVal b = some y) (hc : hexVal c3 = some z)
    (hd : hexVal d = some w) :
    pUnicodeEscape (a :: b :: c3 :: d :: r) =
      (if 55296 ≤ hexQuad x y z w ∧ hexQuad x y z w ≤ 56319 then
        pLowSurrogate (hexQuad x y z w) r
      else if 56320 ≤ hexQuad x y z w ∧ hexQuad x y z w ≤ 57343 then none
      else some (Char.ofNat (hexQuad x y z w), r)) := by
  simp only [pUnicodeEscape, ha, hb, hc, hd]

theorem pLowSurrogate_eval (n : Nat) (a2 b2 c2 d2 : Char) (r : List Char)
    (x y z w : Nat)
    (ha : hexVal a2 = some x) (hb : hexVal b2 = some y) (hc : hexVal c2 = some z)
    (hd : hexVal d2 = some w) :
    pLowSurrogate n ('\\' :: 'u' :: a2 :: b2 :: c2 :: d2 :: r) =
      (if 56320 ≤ hexQuad x y z w ∧ hexQuad x y z w ≤ 57343 then
        some (Char.ofNat (65536 + (n - 55296) * 1024 + (hexQuad x y z w - 56320)), r)
      else none) := by
  simp only [pLowSurrogate, ha, hb, hc, hd]
  simp

theorem pStrAux_bs_u (fuel : Nat) (acc X : List Char) :
    pStrAux (fuel + 1) acc ('\\' :: 'u' :: X) =
      (match pUnicodeEscape X with
       | some (ch, r2) => pStrAux fuel (ch :: acc) r2
       | none => none) := rfl

theorem pStrAux_escape_step (c : Char) (fuel : Nat) (acc T : List Char) :
    pStrAux (fuel + 1) acc (escapeChar c ++ T) = pStrAux fuel (c :: acc) T := by
  have hval : c.toNat < 55296 ∨ (57344 ≤ c.toNat ∧ c.toNat < 1114112) := c.valid
  have hOf : Char.ofNat c.toNat = c :=
    charEqOfToNatEq _ _ (charToNatOfNatValid _ c.valid)
  unfold escapeChar
  by_cases h1 : c = '"'
  · rw [if_pos h1]; subst h1; simp [pStrAux, pEscape]
  rw [if_neg h1]
  by_cases h2 : c = '\\'
  · rw [if_pos h2]; subst h2; simp [pStrAux, pEscape]
  rw [if_neg h2]
  by_cases h3 : c.toNat = 8
  · rw [if_pos h3]
    have hc : c = Char.ofNat 8 := charEqOfToNatEq _ _
      (by rw [charToNatOfNatValid 8 (validCharOfLtSurr 8 (by omega))]; exact h3)
    rw [hc]; simp [pStrAux, pEscape]
  rw [if_neg h3]
  by_cases h4 : c.toNat = 9
  · rw [if_pos h4]
    have hc : c = Char.ofNat 9 := charEqOfToNatEq _ _
      (by rw [charToNatOfNatValid 9 (validCharOfLtSurr 9 (by omega))]; exact h4)
    rw [hc]; simp [pStrAux, pEscape]
  rw [if_neg h4]
  by_cases h5 : c.toNat = 10
  · rw [if_pos h5]
    have hc : c = Char.ofNat 10 := charEqOfToNatEq _ _
      (by rw [charToNatOfNatValid 10 (validCharOfLtSurr 10 (by omega))]; exact h5)
    rw [hc]; simp [pStrAux, pEscape]
  rw [if_neg h5]
  by_cases h6 : c.toNat = 12
  · rw [if_pos h6]
    have hc : c = Char.ofNat 12 := charEqOfToNatEq _ _
      (by rw [charToNatOfNatValid 12 (validCharOfLtSurr 12 (by omega))]; exact h6)
    rw [hc]; simp [pStrAux, pEscape]
  rw [if_neg h6]
  by_cases h7 : c.toNat = 13
  · rw [if_pos h7]
    have hc : c = Char.ofNat 13 := charEqOfToNatEq _ _
      (by rw [charToNatOfNatValid 13 (validCharOfLtSurr 13 (by omega))]; exact h7)
    rw [hc]; simp [pStrAux, pEscape]
  rw [if_neg h7]
  by_cases h8 : 32 ≤ c.toNat ∧ c.toNat ≤ 126
  · rw [if_pos h8]
    show pStrAux (fuel + 1) acc (c :: T) = pStrAux fuel (c :: acc) T
    simp only [pStrAux]
    rw [if_neg h1, if_neg h2, if_neg (show ¬ (c.toNat < 32) by omega)]
  rw [if_neg h8]
  by_cases h9 : c.toNat < 65536
  · rw [if_pos h9]
    simp only [hex4, List.cons_append, List.nil_append]
    rw [pStrAux_bs_u]
    simp only [pUnicodeEscape, hexVal_hexDigitChar_mod]
    rw [show hexQuad (c.toNat / 4096 % 16) (c.toNat / 256 % 16) (c.toNat / 16 % 16)
        (c.toNat % 16) = c.toNat from by unfold hexQuad; omega]
    rcases hval with hv | hv
    · rw [if_neg (by omega : ¬ (55296 ≤ c.toNat ∧ c.toNat ≤ 56319)),
        if_neg (by omega : ¬ (56320 ≤ c.toNat ∧ c.toNat ≤ 57343))]
      rw [hOf]
    · rw [if_neg (by omega : ¬ (55296 ≤ c.toNat ∧ c.toNat ≤ 56319)),
        if_neg (by omega : ¬ (56320 ≤ c.toNat ∧ c.toNat ≤ 57343))]
      rw [hOf]
  rw [if_neg h9]
  have hn2 : 57344 ≤ c.toNat ∧ c.toNat < 1114112 := by
    rcases hval with hv | hv
    · omega
    · exact hv
  simp only [hex4, List.cons_append, List.nil_append, List.append_assoc]
  rw [pStrAux_bs_u]
  rw [pUnicodeEscape_eval _ _ _ _ _ _ _ _ _ (hexVal_hexDigitChar_mod _)
    (hexVal_hexDigitChar_mod _) (hexVal_hexDigitChar_mod _) (hexVal_hexDigitChar_mod _)]
  rw [show hexQuad ((55296 + (c.toNat - 65536) / 1024) / 4096 % 16)
      ((55296 + (c.toNat - 65536) / 1024) / 256 % 16)
      ((55296 + (c.toNat - 65536) / 1024) / 16 % 16)
      ((55296 + (c.toNat - 65536) / 1024) % 16) = 55296 + (c.toNat - 65536) / 1024 from by
    unfold hexQuad; omega]
  rw [if_pos (by omega : 55296 ≤ 55296 + (c.toNat - 65536) / 1024 ∧
    55296 + (c.toNat - 65536) / 1024 ≤ 56319)]
  rw [pLowSurrogate_eval _ _ _ _ _ _ _ _ _ _ (hexVal_hexDigitChar_mod _)
    (hexVal_hexDigitChar_mod _) (hexVal_hexDigitChar_mod _) (hexVal_hexDigitChar_mod _)]
  rw [show hexQuad ((56320 + (c.toNat - 65536) % 1024) / 4096 % 16)
      ((56320 + (c.toNat - 65536) % 1024) / 256 % 16)
      ((56320 + (c.toNat - 65536) % 1024) / 16 % 16)
      ((56320 + (c.toNat - 65536) % 1024) % 16) = 56320 + (c.toNat - 65536) % 1024 from by
    unfold hexQuad; omega]
  rw [if_pos (by omega : 56320 ≤ 56320 + (c.toNat - 65536) % 1024 ∧
    56320 + (c.toNat - 65536) % 1024 ≤ 57343)]
  rw [show 65536 + (55296 + (c.toNat - 65536) / 1024 - 55296) * 1024 +
      (56320 + (c.toNat - 65536) % 1024 - 56320) = c.toNat from by omega]
  rw [hOf]

theorem stringMkData (s : String) : String.mk s.data = s := by
  cases s
  rfl

theorem pStrAux_strChars (l : List Char) : ∀ fuel acc rest, l.length < fuel →
    pStrAux fuel acc ((l.map escapeChar).flatten ++ '"' :: rest) =
      some (String.mk (acc.reverse ++ l), rest) := by
  induction l with
  | nil =>
    intro fuel acc rest hf
    cases fuel with
    | zero => omega
    | succ f => simp [pStrAux]
  | cons c t ih =>
    intro fuel acc rest hf
    cases fuel with
    | zero => omega
    | succ f =>
      rw [List.map_cons, List.flatten_cons, List.append_assoc]
      rw [pStrAux_escape_step c f acc _]
      rw [ih f (c :: acc) rest (by simp at hf ⊢; omega)]
      simp

theorem escapeChar_length_pos (c : Char) : 1 ≤ (escapeChar c).length := by
  rcases he : escapeChar c with _ | ⟨d, t⟩
  · exfalso
    unfold escapeChar at he
    simp only [] at he
    split_ifs at he <;> simp [hex4] at he
  · simp

theorem flatten_escape_length (l : List Char) :
    l.length ≤ ((l.map escapeChar).flatten).length := by
  induction l with
  | nil => simp
  | cons c t ih =>
    simp only [List.map_cons, List.flatten_cons, List.length_append, List.length_cons]
    have := escapeChar_length_pos c
    omega

theorem skipWs_cons_not (c : Char) (l : List Char) (h : isJsonWs c = false) :
    skipWs (c :: l) = c :: l := by
  simp [skipWs, List.dropWhile_cons, h]

theorem skipWs_space (l : List Char) : skipWs (' ' :: l) = skipWs l := by
  simp [skipWs, List.dropWhile_cons, show isJsonWs ' ' = true from by decide]

theorem digit_ne (c : Char) (h : isDigit c = true) (d : Char)
    (hd : d.toNat < 48 ∨ 57 < d.toNat) : ¬ c = d := by
  intro he
  subst he
  have hn : 48 ≤ c.toNat ∧ c.toNat ≤ 57 := by simpa [isDigit] using h
  omega

theorem isJsonWs_false_digit (c : Char) (h : isDigit c = true) :
    isJsonWs c = false := by
  have hn : 48 ≤ c.toNat ∧ c.toNat ≤ 57 := by simpa [isDigit] using h
  unfold isJsonWs
  have h1 : ¬ (c = ' ') := by intro he; subst he; revert hn; decide
  have h2 : ¬ (c = '\t') := by intro he; subst he; revert hn; decide
  have h3 : ¬ (c = '\n') := by intro he; subst he; revert hn; decide
  have h4 : ¬ (c = '\r') := by intro he; subst he; revert hn; decide
  simp [h1, h2, h3, h4]

theorem numStop_rsq (r : List Char) : numStop (']' :: r) :=
  ⟨by decide, by decide, by decide, by decide⟩

theorem numStop_comma (r : List Char) : numStop (',' :: r) :=
  ⟨by decide, by decide, by decide, by decide⟩

theorem numStop_rbrace (r : List Char) : numStop (rbrace :: r) :=
  ⟨by decide, by decide, by decide, by decide⟩

theorem jsize_pos (v : JVal) : 1 ≤ JVal.jsize v := by
  cases v <;> simp [JVal.jsize]

theorem dumpChars_head_props (v : JVal) : ∃ c t, JVal.dumpChars v = c :: t ∧
    isJsonWs c = false ∧ ¬ c = ']' ∧ ¬ c = rbrace ∧ ¬ c = ',' := by
  cases v with
  | jnull => exact ⟨'n', _, rfl, by decide, by decide, by decide, by decide⟩
  | jbool b =>
    cases b
    · exact ⟨'f', _, rfl, by decide, by decide, by decide, by decide⟩
    · exact ⟨'t', _, rfl, by decide, by decide, by decide, by decide⟩
  | jstr s => exact ⟨'"', _, rfl, by decide, by decide, by decide, by decide⟩
  | jarr xs => exact ⟨'[', _, rfl, by decide, by decide, by decide, by decide⟩
  | jobj kvs => exact ⟨lbrace, _, rfl, by decide, by decide, by decide, by decide⟩
  | jint n =>
    show ∃ c t, intChars n = c :: t ∧ _
    unfold intChars
    by_cases hneg : n < 0
    · rw [if_pos hneg]
      exact ⟨'-', _, rfl, by decide, by decide, by decide, by decide⟩
    · rw [if_neg hneg]
      obtain ⟨c, t, hct⟩ : ∃ c t, natChars n.natAbs = c :: t := by
        cases hnc : natChars n.natAbs with
        | nil => exact absurd hnc (natChars_ne_nil _)
        | cons c t => exact ⟨c, t, rfl⟩
      have hd : isDigit c = true := natChars_digits _ c (by rw [hct]; simp)
      exact ⟨c, t, hct, isJsonWs_false_digit c hd, digit_ne c hd ']' (by decide),
        digit_ne c hd rbrace (by decide), digit_ne c hd ',' (by decide)⟩
  | jnum m e =>
    show ∃ c t, numChars m e = c :: t ∧ _
    have hshape : numChars m e = (if m < 0 then ['-'] else []) ++
        (natChars (m.natAbs / 10 ^ e) ++ '.' ::
          (List.replicate (e - (natChars (m.natAbs % 10 ^ e)).length) '0' ++
            natChars (m.natAbs % 10 ^ e))) := by
      simp [numChars, List.append_assoc]
    rw [hshape]
    by_cases hneg : m < 0
    · rw [if_pos hneg]
      exact ⟨'-', _, rfl, by decide, by decide, by decide, by decide⟩
    · rw [if_neg hneg]
      obtain ⟨c, t, hct⟩ : ∃ c t, natChars (m.natAbs / 10 ^ e) = c :: t := by
        cases hnc : natChars (m.natAbs / 10 ^ e) with
        | nil => exact absurd hnc (natChars_ne_nil _)
        | cons c t => exact ⟨c, t, rfl⟩
      have hd : isDigit c = true := natChars_digits _ c (by rw [hct]; simp)
      rw [List.nil_append, hct, List.cons_append]
      exact ⟨c, _, rfl, isJsonWs_false_digit c hd, digit_ne c hd ']' (by decide),
        digit_ne c hd rbrace (by decide), digit_ne c hd ',' (by decide)⟩

theorem intChars_head (n : Int) :
    ∃ c t, intChars n = c :: t ∧ (c = '-' ∨ isDigit c = true) := by
  unfold intChars
  by_cases hneg : n < 0
  · rw [if_pos hneg]
    exact ⟨'-', _, rfl, Or.inl rfl⟩
  · rw [if_neg hneg]
    obtain ⟨c, t, hct⟩ : ∃ c t, natChars n.natAbs = c :: t := by
      cases hnc : natChars n.natAbs with
      | nil => exact absurd hnc (natChars_ne_nil _)
      | cons c t => exact ⟨c, t, rfl⟩
    exact ⟨c, t, hct, Or.inr (natChars_digits _ c (by rw [hct]; simp))⟩

theorem numChars_head (m : Int) (e : Nat) :
    ∃ c t, numChars m e = c :: t ∧ (c = '-' ∨ isDigit c = true) := by
  have hshape : numChars m e = (if m < 0 then ['-'] else []) ++
      (natChars (m.natAbs / 10 ^ e) ++ '.' ::
        (List.replicate (e - (natChars (m.natAbs % 10 ^ e)).length) '0' ++
          natChars (m.natAbs % 10 ^ e))) := by
    simp [numChars, List.append_assoc]
  rw [hshape]
  by_cases hneg : m < 0
  · rw [if_pos hneg]
    exact ⟨'-', _, rfl, Or.inl rfl⟩
  · rw [if_neg hneg]
    obtain ⟨c, t, hct⟩ : ∃ c t, natChars (m.natAbs / 10 ^ e) = c :: t := by
      cases hnc : natChars (m.natAbs / 10 ^ e) with
      | nil => exact absurd hnc (natChars_ne_nil _)
      | cons c t => exact ⟨c, t, rfl⟩
    rw [List.nil_append, hct, List.cons_append]
    exact ⟨c, _, rfl, Or.inr (natChars_digits _ c (by rw [hct]; simp))⟩

theorem numHead_discr (c : Char) (h : c = '-' ∨ isDigit c = true) :
    ¬ c = '"' ∧ ¬ c = '[' ∧ ¬ c = lbrace ∧ ¬ c = 'n' ∧ ¬ c = 't' ∧ ¬ c = 'f' ∧
      (c = '-' || isDigit c) = true := by
  rcases h with h | h
  · subst h
    exact ⟨by decide, by decide, by decide, by decide, by decide, by decide, by decide⟩
  · exact ⟨digit_ne c h '"' (by decide), digit_ne c h '[' (by decide),
      digit_ne c h lbrace (by decide), digit_ne c h 'n' (by decide),
      digit_ne c h 't' (by decide), digit_ne c h 'f' (by decide), by simp [h]⟩

/-- The tail of a printed object member list after its first key string. -/
def dropStr : List (String × JVal) → List Char
  | [] => []
  | [(_, v)] => ':' :: ' ' :: v.dumpChars
  | (_, v) :: m :: rest =>
    (':' :: ' ' :: v.dumpChars) ++ ',' :: ' ' :: dumpMembersChars (m :: rest)

theorem dropStr_eq (kv : String × JVal) (t : List (String × JVal)) :
    dumpMembersChars (kv :: t) = strChars kv.1 ++ dropStr (kv :: t) := by
  obtain ⟨k, v⟩ := kv
  cases t with
  | nil => simp [dumpMembersChars, dropStr]
  | cons m t2 => simp [dumpMembersChars, dropStr]

theorem parse_dump (fuel : Nat) :
    (∀ (v : JVal) (rest : List Char), JVal.wf v = true → JVal.jsize v ≤ fuel →
      numStop rest → pVal fuel (JVal.dumpChars v ++ rest) = some (v, rest)) ∧
    (∀ (xs : List JVal) (rest : List Char), wfElems xs = true → xs ≠ [] →
      jsizeElems xs ≤ fuel →
      pElems fuel (dumpElemsChars xs ++ ']' :: rest) = some (xs, rest)) ∧
    (∀ (kvs : List (String × JVal)) (rest : List Char), wfMembers kvs = true →
      kvs ≠ [] → jsizeMembers kvs ≤ fuel →
      pMembers fuel (dumpMembersChars kvs ++ rbrace :: rest) = some (kvs, rest)) := by
  induction fuel using Nat.strong_induction_on with
  | _ fuel ih =>
  refine ⟨?_, ?_, ?_⟩
  · intro v rest hwfv hsz hstop
    have hpos := jsize_pos v
    cases fuel with
    | zero => omega
    | succ f =>
    cases v with
    | jnull =>
      rw [show JVal.dumpChars jnull ++ rest = 'n' :: 'u' :: 'l' :: 'l' :: rest from rfl]
      simp +decide [pVal]
    | jbool b =>
      cases b
      · rw [show JVal.dumpChars (jbool false) ++ rest =
          'f' :: 'a' :: 'l' :: 's' :: 'e' :: rest from rfl]
        simp +decide [pVal]
      · rw [show JVal.dumpChars (jbool true) ++ rest =
          't' :: 'r' :: 'u' :: 'e' :: rest from rfl]
        simp +decide [pVal]
    | jint n =>
      obtain ⟨c, t, hct, hcd⟩ := intChars_head n
      obtain ⟨d1, d2, d3, d4, d5, d6, d7⟩ := numHead_discr c hcd
      rw [show JVal.dumpChars (jint n) ++ rest = c :: (t ++ rest) from by
        rw [show JVal.dumpChars (jint n) = intChars n from rfl, hct]; simp]
      simp only [pVal]
      rw [if_neg d1, if_neg d2, if_neg d3, if_neg d4, if_neg d5, if_neg d6, if_pos d7]
      rw [show c :: (t ++ rest) = intChars n ++ rest from by rw [hct]; simp]
      exact pNum_intChars n rest hstop
    | jnum m e =>
      obtain ⟨c, t, hct, hcd⟩ := numChars_head m e
      obtain ⟨d1, d2, d3, d4, d5, d6, d7⟩ := numHead_discr c hcd
      rw [show JVal.dumpChars (jnum m e) ++ rest = c :: (t ++ rest) from by
        rw [show JVal.dumpChars (jnum m e) = numChars m e from rfl, hct]; simp]
      simp only [pVal]
      rw [if_neg d1, if_neg d2, if_neg d3, if_neg d4, if_neg d5, if_neg d6, if_pos d7]
      rw [show c :: (t ++ rest) = numChars m e ++ rest from by rw [hct]; simp]
      have hwf : 1 ≤ e ∧ (e = 1 ∨ ¬ (m % 10 = 0)) := by
        have := hwfv
        simp only [JVal.wf, Bool.and_eq_true, Bool.or_eq_true, decide_eq_true_eq,
          Bool.not_eq_true', decide_eq_false_iff_not] at this
        obtain ⟨h1, h2⟩ := this
        refine ⟨h1, ?_⟩
        rcases h2 with h | h
        · exact Or.inl h
        · exact Or.inr h
      exact pNum_numChars m e hwf.1 hwf.2 rest hstop
    | jstr s =>
      have hshape : JVal.dumpChars (jstr s) ++ rest =
          '"' :: ((s.data.map escapeChar).flatten ++ '"' :: rest) := by
        rw [show JVal.dumpChars (jstr s) = strChars s from rfl]
        simp [strChars]
      rw [hshape]
      have hlen : s.data.length <
          (List.map (List.length ∘ escapeChar) s.data).sum + (rest.length + 1) + 1 := by
        have h1 := flatten_escape_length s.data
        have h2 : ((List.map escapeChar s.data).flatten).length =
            (List.map (List.length ∘ escapeChar) s.data).sum := by
          simp
        omega
      have hps := pStrAux_strChars s.data
        ((List.map (List.length ∘ escapeChar) s.data).sum + (rest.length + 1) + 1)
        [] rest hlen
      simp only [List.reverse_nil, List.nil_append] at hps
      simp +decide [pVal, hps, stringMkData]
    | jarr xs =>
      cases xs with
      | nil =>
        rw [show JVal.dumpChars (jarr []) ++ rest = '[' :: ']' :: rest from rfl]
        have hsk : skipWs (']' :: rest) = ']' :: rest :=
          skipWs_cons_not ']' rest (by decide)
        simp +decide [pVal, hsk]
      | cons x xs2 =>
        obtain ⟨c0, t0, hc0, hws0, hrsq0, _, _⟩ := dumpChars_head_props x
        obtain ⟨E, hE⟩ : ∃ E, dumpElemsChars (x :: xs2) = JVal.dumpChars x ++ E := by
          cases xs2
          · exact ⟨[], by simp [dumpElemsChars]⟩
          · exact ⟨_, rfl⟩
        have hcons : dumpElemsChars (x :: xs2) ++ ']' :: rest =
            c0 :: (t0 ++ (E ++ ']' :: rest)) := by
          rw [hE, hc0]
          simp
        rw [show JVal.dumpChars (jarr (x :: xs2)) ++ rest =
            '[' :: (dumpElemsChars (x :: xs2) ++ ']' :: rest) from by
          rw [show JVal.dumpChars (jarr (x :: xs2)) =
            '[' :: (dumpElemsChars (x :: xs2) ++ [']']) from rfl]
          simp]
        simp only [pVal]
        rw [if_pos trivial]
        rw [hcons, skipWs_cons_not c0 _ hws0]
        simp only []
        rw [if_neg hrsq0]
        rw [← hcons]
        have hwfe : wfElems (x :: xs2) = true := by simpa [JVal.wf] using hwfv
        have hsze : jsizeElems (x :: xs2) ≤ f := by
          simp only [JVal.jsize] at hsz
          omega
        rw [(ih f (by omega)).2.1 (x :: xs2) rest hwfe (by simp) hsze]
        simp +decide []
    | jobj kvs =>
      cases kvs with
      | nil =>
        rw [show JVal.dumpChars (jobj []) ++ rest = lbrace :: rbrace :: rest from rfl]
        have hsk : skipWs (rbrace :: rest) = rbrace :: rest :=
          skipWs_cons_not rbrace rest (by decide)
        simp +decide [pVal, hsk]
      | cons kv kvs2 =>
        obtain ⟨k, v⟩ := kv
        obtain ⟨R, hR⟩ : ∃ R, dumpMembersChars ((k, v) :: kvs2) = strChars k ++ R := by
          cases kvs2 with
          | nil => exact ⟨_, rfl⟩
          | cons m t =>
            refine ⟨':' :: ' ' :: (JVal.dumpChars v ++ ',' :: ' ' ::
              dumpMembersChars (m :: t)), ?_⟩
            simp [dumpMembersChars]
        have hcons : dumpMembersChars ((k, v) :: kvs2) ++ rbrace :: rest =
            '"' :: (((k.data.map escapeChar).flatten ++ ['"']) ++ (R ++ rbrace :: rest)) := by
          rw [hR, show strChars k = '"' :: ((k.data.map escapeChar).flatten ++ ['"'])
            from rfl]
          simp
        rw [show JVal.dumpChars (jobj ((k, v) :: kvs2)) ++ rest =
            lbrace :: (dumpMembersChars ((k, v) :: kvs2) ++ rbrace :: rest) from by
          rw [show JVal.dumpChars (jobj ((k, v) :: kvs2)) =
            lbrace :: (dumpMembersChars ((k, v) :: kvs2) ++ [rbrace]) from rfl]
          simp]
        simp only [pVal]
        rw [if_neg (by decide : ¬ lbrace = '"'), if_neg (by decide : ¬ lbrace = '['),
          if_pos trivial]
        rw [hcons, skipWs_cons_not '"' _ (by decide)]
        simp only []
        rw [if_neg (by decide : ¬ ('"' : Char) = rbrace)]
        rw [← hcons]
        have hwfm : wfMembers ((k, v) :: kvs2) = true := by
          have := hwfv
          simp only [JVal.wf, Bool.and_eq_true] at this
          exact this.1
        have hszm : jsizeMembers ((k, v) :: kvs2) ≤ f := by
          simp only [JVal.jsize] at hsz
          omega
        rw [(ih f (by omega)).2.2 ((k, v) :: kvs2) rest hwfm (by simp) hszm]
  · intro xs rest hwfx hne hsz
    cases xs with
    | nil => exact absurd rfl hne
    | cons x t =>
      cases fuel with
      | zero =>
        have := jsize_pos x
        simp only [jsizeElems] at hsz
        omega
      | succ f =>
        obtain ⟨hwf1, hwf2⟩ : JVal.wf x = true ∧ wfElems t = true := by
          simpa [wfElems] using hwfx
        cases t with
        | nil =>
          rw [show dumpElemsChars [x] ++ ']' :: rest = JVal.dumpChars x ++ ']' :: rest
            from by simp [dumpElemsChars]]
          simp only [pElems]
          rw [(ih f (by omega)).1 x (']' :: rest) hwf1
            (by simp only [jsizeElems] at hsz; omega) (numStop_rsq rest)]
          simp only []
          rw [skipWs_cons_not ']' rest (by decide)]
          simp +decide []
        | cons y t2 =>
          rw [show dumpElemsChars (x :: y :: t2) ++ ']' :: rest =
              JVal.dumpChars x ++
                (',' :: ' ' :: (dumpElemsChars (y :: t2) ++ ']' :: rest)) from by
            rw [show dumpElemsChars (x :: y :: t2) =
                JVal.dumpChars x ++ ',' :: ' ' :: dumpElemsChars (y :: t2) from by
              simp [dumpElemsChars]]
            simp]
          simp only [pElems]
          rw [(ih f (by omega)).1 x _ hwf1
            (by simp only [jsizeElems] at hsz; have := jsize_pos y; omega)
            (numStop_comma _)]
          simp only []
          rw [skipWs_cons_not ',' _ (by decide)]
          simp only []
          rw [if_neg (by decide : ¬ (',' : Char) = ']'), if_pos trivial]
          rw [skipWs_space]
          obtain ⟨c0, t0, hc0, hws0, _, _, _⟩ := dumpChars_head_props y
          obtain ⟨E, hE⟩ : ∃ E, dumpElemsChars (y :: t2) = JVal.dumpChars y ++ E := by
            cases t2 with
            | nil => exact ⟨[], by simp [dumpElemsChars]⟩
            | cons z t3 =>
              refine ⟨',' :: ' ' :: dumpElemsChars (z :: t3), ?_⟩
              simp [dumpElemsChars]
          have hcons : dumpElemsChars (y :: t2) ++ ']' :: rest =
              c0 :: (t0 ++ (E ++ ']' :: rest)) := by
            rw [hE, hc0]
            simp
          rw [hcons, skipWs_cons_not c0 _ hws0, ← hcons]
          rw [(ih f (by omega)).2.1 (y :: t2) rest hwf2 (by simp)
            (by simp only [jsizeElems] at hsz ⊢; have := jsize_pos x; omega)]
  · intro kvs rest hwfk hne hsz
    cases kvs with
    | nil => exact absurd rfl hne
    | cons kv t =>
      obtain ⟨k, v⟩ := kv
      cases fuel with
      | zero =>
        have := jsize_pos v
        simp only [jsizeMembers] at hsz
        omega
      | succ f =>
        obtain ⟨hwf1, hwf2⟩ : JVal.wf v = true ∧ wfMembers t = true := by
          simpa [wfMembers] using hwfk
        cases t with
        | nil =>
          have hshape : dumpMembersChars [(k, v)] ++ rbrace :: rest =
              '"' :: ((k.data.map escapeChar).flatten ++ '"' ::
                (':' :: ' ' :: (JVal.dumpChars v ++ rbrace :: rest))) := by
            rw [show dumpMembersChars [(k, v)] =
                strChars k ++ ':' :: ' ' :: JVal.dumpChars v from by
              simp [dumpMembersChars]]
            rw [show strChars k =
              '"' :: ((k.data.map escapeChar).flatten ++ ['"']) from rfl]
            simp
          rw [hshape]
          simp only [pMembers]
          have hlen : k.data.length <
              ((k.data.map escapeChar).flatten ++ '"' ::
                (':' :: ' ' :: (JVal.dumpChars v ++ rbrace :: rest))).length + 1 := by
            have := flatten_escape_length k.data
            simp only [List.length_append, List.length_cons]
            omega
          have hps := pStrAux_strChars k.data
            (((k.data.map escapeChar).flatten ++ '"' ::
              (':' :: ' ' :: (JVal.dumpChars v ++ rbrace :: rest))).length + 1)
            [] (':' :: ' ' :: (JVal.dumpChars v ++ rbrace :: rest)) hlen
          simp only [List.reverse_nil, List.nil_append] at hps
          rw [if_pos trivial, hps]
          simp only []
          rw [skipWs_cons_not ':' _ (by decide)]
          simp only []
          rw [if_pos trivial]
          rw [skipWs_space]
          obtain ⟨c0, t0, hc0, hws0, _, _, _⟩ := dumpChars_head_props v
          have hcons : JVal.dumpChars v ++ rbrace :: rest =
              c0 :: (t0 ++ rbrace :: rest) := by
            rw [hc0]
            simp
          rw [hcons, skipWs_cons_not c0 _ hws0, ← hcons]
          rw [(ih f (by omega)).1 v (rbrace :: rest) hwf1
            (by simp only [jsizeMembers] at hsz; omega) (numStop_rbrace rest)]
          simp only []
          rw [skipWs_cons_not rbrace rest (by decide)]
          simp +decide [stringMkData]
        | cons m t2 =>
          have hshape : dumpMembersChars ((k, v) :: m :: t2) ++ rbrace :: rest =
              '"' :: ((k.data.map escapeChar).flatten ++ '"' ::
                (':' :: ' ' :: (JVal.dumpChars v ++ ',' :: ' ' ::
                  (dumpMembersChars (m :: t2) ++ rbrace :: rest)))) := by
            rw [show dumpMembersChars ((k, v) :: m :: t2) =
                strChars k ++ ':' :: ' ' :: JVal.dumpChars v ++ ',' :: ' ' ::
                  dumpMembersChars (m :: t2) from by
              simp [dumpMembersChars]]
            rw [show strChars k =
              '"' :: ((k.data.map escapeChar).flatten ++ ['"']) from rfl]
            simp
          rw [hshape]
          simp only [pMembers]
          have hlen : k.data.length <
              ((k.data.map escapeChar).flatten ++ '"' ::
                (':' :: ' ' :: (JVal.dumpChars v ++ ',' :: ' ' ::
                  (dumpMembersChars (m :: t2) ++ rbrace :: rest)))).length + 1 := by
            have := flatten_escape_length k.data
            simp only [List.length_append, List.length_cons]
            omega
          have hps := pStrAux_strChars k.data
            (((k.data.map escapeChar).flatten ++ '"' ::
              (':' :: ' ' :: (JVal.dumpChars v ++ ',' :: ' ' ::
                (dumpMembersChars (m :: t2) ++ rbrace :: rest)))).length + 1)
            [] (':' :: ' ' :: (JVal.dumpChars v ++ ',' :: ' ' ::
              (dumpMembersChars (m :: t2) ++ rbrace :: rest))) hlen
          simp only [List.reverse_nil, List.nil_append] at hps
          rw [if_pos trivial, hps]
          simp only []
          rw [skipWs_cons_not ':' _ (by decide)]
          simp only []
          rw [if_pos trivial]
          rw [skipWs_space]
          obtain ⟨c0, t0, hc0, hws0, _, _, _⟩ := dumpChars_head_props v
          have hcons : JVal.dumpChars v ++ ',' :: ' ' ::
              (dumpMembersChars (m :: t2) ++ rbrace :: rest) =
              c0 :: (t0 ++ ',' :: ' ' ::
                (dumpMembersChars (m :: t2) ++ rbrace :: rest)) := by
            rw [hc0]
            simp
          rw [hcons, skipWs_cons_not c0 _ hws0, ← hcons]
          rw [(ih f (by omega)).1 v _ hwf1
            (by simp only [jsizeMembers] at hsz; have := jsize_pos v; omega)
            (numStop_comma _)]
          simp only []
          rw [skipWs_cons_not ',' _ (by decide)]
          simp only []
          rw [if_neg (by decide : ¬ (',' : Char) = rbrace), if_pos trivial]
          rw [skipWs_space]
          obtain ⟨m1, m2⟩ := m
          have hcons2 : dumpMembersChars ((m1, m2) :: t2) ++ rbrace :: rest =
              '"' :: (((m1.data.map escapeChar).flatten ++ ['"']) ++
                (dropStr ((m1, m2) :: t2) ++ rbrace :: rest)) := by
            rw [show dumpMembersChars ((m1, m2) :: t2) =
                strChars m1 ++ dropStr ((m1, m2) :: t2) from dropStr_eq (m1, m2) t2]
            rw [show strChars m1 =
              '"' :: ((m1.data.map escapeChar).flatten ++ ['"']) from rfl]
            simp
          rw [hcons2, skipWs_cons_not '"' _ (by decide), ← hcons2]
          rw [(ih f (by omega)).2.2 ((m1, m2) :: t2) rest hwf2 (by simp)
            (by simp only [jsizeMembers] at hsz ⊢; have := jsize_pos v; omega)]

theorem jsize_le_dump_length (n : Nat) :
    (∀ v : JVal, JVal.jsize v ≤ n → JVal.jsize v ≤ (JVal.dumpChars v).length) ∧
    (∀ xs : List JVal, jsizeElems xs ≤ n →
      jsizeElems xs ≤ (dumpElemsChars xs).length + 1) ∧
    (∀ kvs : List (String × JVal), jsizeMembers kvs ≤ n →
      jsizeMembers kvs ≤ (dumpMembersChars kvs).length + 1) := by
  induction n using Nat.strong_induction_on with
  | _ n ih =>
  refine ⟨?_, ?_, ?_⟩
  · intro v hv
    cases v with
    | jnull => simp [JVal.jsize, JVal.dumpChars]
    | jbool b => cases b <;> simp [JVal.jsize, JVal.dumpChars]
    | jint m =>
      have h1 : 1 ≤ (intChars m).length := by
        unfold intChars
        split
        · simp
        · cases hx : natChars m.natAbs with
          | nil => exact absurd hx (natChars_ne_nil _)
          | cons a b => simp [hx]
      simp only [JVal.jsize, JVal.dumpChars]
      omega
    | jnum m e =>
      simp only [JVal.jsize, JVal.dumpChars, numChars, List.length_append,
        List.length_cons]
      omega
    | jstr st => simp [JVal.jsize, JVal.dumpChars, strChars]
    | jarr xs =>
      have hlt : jsizeElems xs < n := by
        simp only [JVal.jsize] at hv
        omega
      have h2 := (ih (jsizeElems xs) hlt).2.1 xs le_rfl
      simp only [JVal.jsize, JVal.dumpChars, List.length_cons, List.length_append]
      simp only [List.length_cons, List.length_nil] at h2 ⊢
      omega
    | jobj kvs =>
      have hlt : jsizeMembers kvs < n := by
        simp only [JVal.jsize] at hv
        omega
      have h2 := (ih (jsizeMembers kvs) hlt).2.2 kvs le_rfl
      simp only [JVal.jsize, JVal.dumpChars, List.length_cons, List.length_append]
      simp only [List.length_cons, List.length_nil] at h2 ⊢
      omega
  · intro xs hxs
    cases xs with
    | nil => simp [jsizeElems, dumpElemsChars]
    | cons x t =>
      have hx : JVal.jsize x < n := by
        have := jsize_pos x
        simp only [jsizeElems] at hxs
        omega
      have h1 := (ih (JVal.jsize x) hx).1 x le_rfl
      cases t with
      | nil =>
        simp only [jsizeElems, dumpElemsChars, List.length_nil]
        omega
      | cons y t2 =>
        have hyt : jsizeElems (y :: t2) < n := by
          have := jsize_pos x
          simp only [jsizeElems] at hxs ⊢
          omega
        have h2 := (ih (jsizeElems (y :: t2)) hyt).2.1 (y :: t2) le_rfl
        rw [show dumpElemsChars (x :: y :: t2) =
          JVal.dumpChars x ++ ',' :: ' ' :: dumpElemsChars (y :: t2) from by
            simp [dumpElemsChars]]
        simp only [jsizeElems, List.length_append, List.length_cons] at h2 ⊢
        omega
  · intro kvs hkvs
    cases kvs with
    | nil => simp [jsizeMembers, dumpMembersChars]
    | cons kv t =>
      obtain ⟨k, v⟩ := kv
      have hx : JVal.jsize v < n := by
        have := jsize_pos v
        simp only [jsizeMembers] at hkvs
        omega
      have h1 := (ih (JVal.jsize v) hx).1 v le_rfl
      cases t with
      | nil =>
        simp only [jsizeMembers]
        rw [show dumpMembersChars [(k, v)] =
          strChars k ++ ':' :: ' ' :: JVal.dumpChars v from by simp [dumpMembersChars]]
        simp only [List.length_append, List.length_cons]
        omega
      | cons m t2 =>
        have hyt : jsizeMembers (m :: t2) < n := by
          have := jsize_pos v
          simp only [jsizeMembers] at hkvs ⊢
          omega
        have h2 := (ih (jsizeMembers (m :: t2)) hyt).2.2 (m :: t2) le_rfl
        rw [show dumpMembersChars ((k, v) :: m :: t2) =
          strChars k ++ ':' :: ' ' :: JVal.dumpChars v ++ ',' :: ' ' ::
            dumpMembersChars (m :: t2) from by simp [dumpMembersChars]]
        simp only [jsizeMembers, List.length_append, List.length_cons] at h2 ⊢
        omega

theorem loads_dumps (v : JVal) (hwf : JVal.wf v = true) :
    loads (JVal.dumps v) = some v := by
  obtain ⟨c0, t0, hc0, hws0, _, _, _⟩ := dumpChars_head_props v
  have hsk : skipWs (JVal.dumpChars v) = JVal.dumpChars v := by
    rw [hc0]
    exact skipWs_cons_not c0 t0 hws0
  have hsz : JVal.jsize v ≤ (JVal.dumpChars v).length + 1 := by
    have := (jsize_le_dump_length (JVal.jsize v)).1 v le_rfl
    omega
  have hp := (parse_dump ((JVal.dumpChars v).length + 1)).1 v [] hwf hsz trivial
  simp only [List.append_nil] at hp
  have hdata : (JVal.dumps v).data = JVal.dumpChars v := rfl
  simp only [loads, hdata, hsk, hp]
  rfl

/-! ## Character-range facts about the printer -/

theorem digit_ascii (c : Char) (h : isDigit c = true) :
    32 ≤ c.toNat ∧ c.toNat ≤ 126 := by
  simp only [isDigit, Bool.and_eq_true, decide_eq_true_eq] at h
  omega

theorem ascii_nonspace (c : Char) (h1 : 33 ≤ c.toNat) (h2 : c.toNat ≤ 126) :
    pyIsSpace c = false := by
  simp only [pyIsSpace, Bool.or_eq_false_iff, decide_eq_false_iff_not,
    Bool.and_eq_false_iff, Bool.and_eq_false_imp]
  omega

theorem hexDigitChar_ascii (n : Nat) (h : n < 16) :
    32 ≤ (hexDigitChar n).toNat ∧ (hexDigitChar n).toNat ≤ 126 := by
  interval_cases n <;> decide

theorem hex4_ascii (n : Nat) : ∀ c ∈ hex4 n, 32 ≤ c.toNat ∧ c.toNat ≤ 126 := by
  intro c hc
  simp only [hex4, List.mem_cons, List.not_mem_nil, or_false] at hc
  rcases hc with rfl | rfl | rfl | rfl <;>
    exact hexDigitChar_ascii _ (Nat.mod_lt _ (by decide))

theorem escapeChar_ascii (c : Char) :
    ∀ d ∈ escapeChar c, 32 ≤ d.toNat ∧ d.toNat ≤ 126 := by
  intro d hd
  simp only [escapeChar] at hd
  repeat' split at hd
  all_goals
    first
    | (simp only [List.mem_cons, List.not_mem_nil, or_false] at hd
       rcases hd with rfl | rfl <;> decide)
    | (rename_i hrange
       simp only [List.mem_cons, List.not_mem_nil, or_false] at hd
       subst hd
       exact hrange)
    | (simp only [List.mem_cons] at hd
       rcases hd with rfl | rfl | hd
       · decide
       · decide
       · exact hex4_ascii _ d hd)
    | (simp only [List.mem_append, List.mem_cons] at hd
       rcases hd with (rfl | rfl | hd) | (rfl | rfl | hd)
       · decide
       · decide
       · exact hex4_ascii _ d hd
       · decide
       · decide
       · exact hex4_ascii _ d hd)

theorem natChars_ascii (n : Nat) :
    ∀ c ∈ natChars n, 32 ≤ c.toNat ∧ c.toNat ≤ 126 :=
  fun c hc => digit_ascii c (natChars_digits n c hc)

theorem intChars_ascii (m : Int) :
    ∀ c ∈ intChars m, 32 ≤ c.toNat ∧ c.toNat ≤ 126 := by
  intro c hc
  unfold intChars at hc
  split at hc
  · rcases List.mem_cons.mp hc with rfl | h
    · decide
    · exact natChars_ascii _ c h
  · exact natChars_ascii _ c hc

theorem numChars_ascii (m : Int) (e : Nat) :
    ∀ c ∈ numChars m e, 32 ≤ c.toNat ∧ c.toNat ≤ 126 := by
  intro c hc
  simp only [numChars, List.mem_append, List.mem_cons, List.mem_replicate] at hc
  rcases hc with (hc | hc) | rfl | hc | hc
  · split at hc
    · rcases List.mem_cons.mp hc with rfl | h
      · decide
      · simp at h
    · simp at hc
  · exact natChars_ascii _ c hc
  · decide
  · rw [hc.2]
    decide
  · exact natChars_ascii _ c hc

theorem dump_ascii (n : Nat) :
    (∀ v : JVal, JVal.jsize v ≤ n →
      ∀ c ∈ JVal.dumpChars v, 32 ≤ c.toNat ∧ c.toNat ≤ 126) ∧
    (∀ xs : List JVal, jsizeElems xs ≤ n →
      ∀ c ∈ dumpElemsChars xs, 32 ≤ c.toNat ∧ c.toNat ≤ 126) ∧
    (∀ kvs : List (String × JVal), jsizeMembers kvs ≤ n →
      ∀ c ∈ dumpMembersChars kvs, 32 ≤ c.toNat ∧ c.toNat ≤ 126) := by
  induction n using Nat.strong_induction_on with
  | _ n ih =>
  refine ⟨?_, ?_, ?_⟩
  · intro v hv c hc
    cases v with
    | jnull =>
      simp only [JVal.dumpChars, List.mem_cons, List.not_mem_nil, or_false] at hc
      rcases hc with rfl | rfl | rfl | rfl <;> decide
    | jbool b =>
      cases b <;>
        simp only [JVal.dumpChars, List.mem_cons, List.not_mem_nil, or_false] at hc
      · rcases hc with rfl | rfl | rfl | rfl | rfl <;> decide
      · rcases hc with rfl | rfl | rfl | rfl <;> decide
    | jint m => exact intChars_ascii m c hc
    | jnum m e => exact numChars_ascii m e c hc
    | jstr st =>
      simp only [JVal.dumpChars, strChars, List.mem_cons, List.mem_append,
        List.mem_flatten, List.mem_map, List.not_mem_nil, or_false] at hc
      rcases hc with rfl | ⟨l, ⟨d, _, rfl⟩, hcl⟩ | rfl
      · decide
      · exact escapeChar_ascii d c hcl
      · decide
    | jarr xs =>
      simp only [JVal.dumpChars, List.mem_cons, List.mem_append,
        List.not_mem_nil, or_false] at hc
      rcases hc with rfl | hc | rfl
      · decide
      · have hlt : jsizeElems xs < n := by
          simp only [JVal.jsize] at hv
          omega
        exact (ih (jsizeElems xs) hlt).2.1 xs le_rfl c hc
      · decide
    | jobj kvs =>
      simp only [JVal.dumpChars, List.mem_cons, List.mem_append,
        List.not_mem_nil, or_false] at hc
      rcases hc with rfl | hc | rfl
      · decide
      · have hlt : jsizeMembers kvs < n := by
          simp only [JVal.jsize] at hv
          omega
        exact (ih (jsizeMembers kvs) hlt).2.2 kvs le_rfl c hc
      · decide
  · intro xs hxs c hc
    cases xs with
    | nil => simp [dumpElemsChars] at hc
    | cons x t =>
      have hx : JVal.jsize x < n := by
        have := jsize_pos x
        simp only [jsizeElems] at hxs
        omega
      cases t with
      | nil =>
        rw [show dumpElemsChars [x] = JVal.dumpChars x from by
          simp [dumpElemsChars]] at hc
        exact (ih (JVal.jsize x) hx).1 x le_rfl c hc
      | cons y t2 =>
        rw [show dumpElemsChars (x :: y :: t2) =
          JVal.dumpChars x ++ ',' :: ' ' :: dumpElemsChars (y :: t2) from by
            simp [dumpElemsChars]] at hc
        simp only [List.mem_append, List.mem_cons] at hc
        rcases hc with hc | rfl | rfl | hc
        · exact (ih (JVal.jsize x) hx).1 x le_rfl c hc
        · decide
        · decide
        · have hyt : jsizeElems (y :: t2) < n := by
            have := jsize_pos x
            simp only [jsizeElems] at hxs ⊢
            omega
          exact (ih (jsizeElems (y :: t2)) hyt).2.1 (y :: t2) le_rfl c hc
  · intro kvs hkvs c hc
    cases kvs with
    | nil => simp [dumpMembersChars] at hc
    | cons kv t =>
      obtain ⟨k, v⟩ := kv
      have hx : JVal.jsize v < n := by
        have := jsize_pos v
        simp only [jsizeMembers] at hkvs
        omega
      have hstr : ∀ d ∈ strChars k, 32 ≤ d.toNat ∧ d.toNat ≤ 126 := by
        intro d hdm
        simp only [strChars, List.mem_cons, List.mem_append, List.mem_flatten,
          List.mem_map, List.not_mem_nil, or_false] at hdm
        rcases hdm with rfl | ⟨l, ⟨e2, _, rfl⟩, hdl⟩ | rfl
        · decide
        · exact escapeChar_ascii e2 d hdl
        · decide
      cases t with
      | nil =>
        rw [show dumpMembersChars [(k, v)] =
          strChars k ++ ':' :: ' ' :: JVal.dumpChars v from by
            simp [dumpMembersChars]] at hc
        simp only [List.mem_append, List.mem_cons] at hc
        rcases hc with hc | rfl | rfl | hc
        · exact hstr c hc
        · decide
        · decide
        · exact (ih (JVal.jsize v) hx).1 v le_rfl c hc
      | cons m t2 =>
        rw [show dumpMembersChars ((k, v) :: m :: t2) =
          strChars k ++ ':' :: ' ' :: JVal.dumpChars v ++ ',' :: ' ' ::
            dumpMembersChars (m :: t2) from by simp [dumpMembersChars]] at hc
        simp only [List.mem_append, List.mem_cons] at hc
        rcases hc with (hc | rfl | rfl | hc) | rfl | rfl | hc
        · exact hstr c hc
        · decide
        · decide
        · exact (ih (JVal.jsize v) hx).1 v le_rfl c hc
        · decide
        · decide
        · have hyt : jsizeMembers (m :: t2) < n := by
            have := jsize_pos v
            simp only [jsizeMembers] at hkvs ⊢
            omega
          exact (ih (jsizeMembers (m :: t2)) hyt).2.2 (m :: t2) le_rfl c hc

/-- Every character of a dumped document is printable ASCII. -/
theorem dumpChars_ascii (v : JVal) :
    ∀ c ∈ JVal.dumpChars v, 32 ≤ c.toNat ∧ c.toNat ≤ 126 :=
  (dump_ascii (JVal.jsize v)).1 v le_rfl

/-! ## JSONL ledger files (`utils.read_jsonl`, `utils.append_jsonl_atomic`) -/

theorem getLastMem (l : List Char) (a : Char) (h : l.getLast? = some a) :
    a ∈ l := by
  rw [← List.head?_reverse] at h
  have hm : a ∈ l.reverse := List.mem_of_mem_head? h
  simpa using hm

theorem digit_nonspace (c : Char) (h : isDigit c = true) : pyIsSpace c = false := by
  simp only [isDigit, Bool.and_eq_true, decide_eq_true_eq] at h
  exact ascii_nonspace c (by omega) (by omega)

theorem natChars_getLast (n : Nat) :
    ∃ c, (natChars n).getLast? = some c ∧ pyIsSpace c = false := by
  cases hL : (natChars n).getLast? with
  | none =>
    rw [List.getLast?_eq_none_iff] at hL
    exact absurd hL (natChars_ne_nil n)
  | some c =>
    exact ⟨c, rfl, digit_nonspace c (natChars_digits n c (getLastMem _ c hL))⟩

theorem dump_last_props (v : JVal) :
    ∃ c, (JVal.dumpChars v).getLast? = some c ∧ pyIsSpace c = false := by
  cases v with
  | jnull => exact ⟨'l', rfl, by decide⟩
  | jbool b => cases b <;> exact ⟨'e', rfl, by decide⟩
  | jint m =>
    obtain ⟨c, hc, hcs⟩ := natChars_getLast m.natAbs
    refine ⟨c, ?_, hcs⟩
    rw [show JVal.dumpChars (jint m) = intChars m from rfl]
    unfold intChars
    split
    · rw [show ('-' :: natChars m.natAbs) = ['-'] ++ natChars m.natAbs from rfl,
        List.getLast?_append_of_ne_nil _ (natChars_ne_nil _)]
      exact hc
    · exact hc
  | jnum m e =>
    obtain ⟨c, hc, hcs⟩ := natChars_getLast (m.natAbs % 10 ^ e)
    refine ⟨c, ?_, hcs⟩
    rw [show JVal.dumpChars (jnum m e) = numChars m e from rfl]
    rw [show numChars m e =
      ((if m < 0 then ['-'] else []) ++ natChars (m.natAbs / 10 ^ e) ++ ['.'] ++
        List.replicate (e - (natChars (m.natAbs % 10 ^ e)).length) '0') ++
        natChars (m.natAbs % 10 ^ e) from by
      simp [numChars]]
    rw [List.getLast?_append_of_ne_nil _ (natChars_ne_nil _)]
    exact hc
  | jstr st =>
    refine ⟨'"', ?_, by decide⟩
    rw [show JVal.dumpChars (jstr st) =
      ('"' :: (st.data.map escapeChar).flatten) ++ ['"'] from by
        rw [show JVal.dumpChars (jstr st) = strChars st from rfl, strChars]
        simp]
    exact List.getLast?_concat _
  | jarr xs =>
    refine ⟨']', ?_, by decide⟩
    rw [show JVal.dumpChars (jarr xs) = ('[' :: dumpElemsChars xs) ++ [']'] from by
      rw [show JVal.dumpChars (jarr xs) = '[' :: (dumpElemsChars xs ++ [']'])
        from rfl]
      simp]
    exact List.getLast?_concat _
  | jobj kvs =>
    refine ⟨rbrace, ?_, by decide⟩
    rw [show JVal.dumpChars (jobj kvs) =
      (lbrace :: dumpMembersChars kvs) ++ [rbrace] from by
        rw [show JVal.dumpChars (jobj kvs) =
          lbrace :: (dumpMembersChars kvs ++ [rbrace]) from rfl]
        simp]
    exact List.getLast?_concat _

theorem stripChars_id (l : List Char)
    (h1 : ∀ c, l.head? = some c → pyIsSpace c = false)
    (h2 : ∀ c, l.getLast? = some c → pyIsSpace c = false) :
    stripChars l = l := by
  unfold stripChars
  have hd : l.dropWhile pyIsSpace = l := by
    cases l with
    | nil => rfl
    | cons a t => rw [List.dropWhile_cons, if_neg (by simp [h1 a rfl])]
  rw [hd]
  have hrev : l.reverse.dropWhile pyIsSpace = l.reverse := by
    cases hl : l.reverse with
    | nil => rfl
    | cons a t =>
      have ha : l.getLast? = some a := by
        rw [← List.head?_reverse, hl]
        rfl
      rw [List.dropWhile_cons, if_neg (by simp [h2 a ha])]
  rw [hrev, List.reverse_reverse]

theorem dump_strip (v : JVal) :
    stripChars (JVal.dumpChars v) = JVal.dumpChars v := by
  obtain ⟨c0, t0, hc0, hws0, _, _, _⟩ := dumpChars_head_props v
  obtain ⟨cl, hcl, hcls⟩ := dump_last_props v
  apply stripChars_id
  · intro c hcx
    rw [hc0] at hcx
    simp only [List.head?_cons, Option.some.injEq] at hcx
    subst hcx
    have hmem : c0 ∈ JVal.dumpChars v := by
      rw [hc0]
      simp
    obtain ⟨ha1, ha2⟩ := dumpChars_ascii v c0 hmem
    have hne : ¬ c0 = ' ' := by
      intro he
      rw [he] at hws0
      exact absurd hws0 (by decide)
    refine ascii_nonspace c0 ?_ ha2
    by_contra hlt
    push_neg at hlt
    exact hne (charEqOfToNatEq c0 ' ' (by change c0.toNat = 32; omega))
  · intro c hcx
    rw [hcl] at hcx
    injection hcx with hcx
    rw [← hcx]
    exact hcls

/-- Translation Python text-mode reading applies to line endings
(universal newlines): CRLF and lone CR both become LF. -/
def univNl : List Char → List Char
  | [] => []
  | [c] => if c = '\r' then ['\n'] else [c]
  | c :: c2 :: rest =>
    if c = '\r' then
      if c2 = '\n' then '\n' :: univNl rest else '\n' :: univNl (c2 :: rest)
    else c :: univNl (c2 :: rest)

theorem univ_no_cr (l : List Char) (h : ∀ c ∈ l, ¬ c = '\r') :
    univNl l = l := by
  induction l with
  | nil => rfl
  | cons c rest ih =>
    have hc := h c (by simp)
    have ih' := ih (fun d hd => h d (List.mem_cons_of_mem c hd))
    cases rest with
    | nil => simp [univNl, hc]
    | cons c2 r2 => simp [univNl, hc, ih']

/-- Splitting a translated text into the lines Python file iteration yields
(the trailing entry is the final unterminated line, possibly empty). -/
def linesAcc : List Char → List Char → List (List Char)
  | acc, [] => [acc.reverse]
  | acc, c :: r =>
    if c = '\n' then acc.reverse :: linesAcc [] r else linesAcc (c :: acc) r

/-- The loop body of `read_jsonl`: strip each line, skip blanks, parse the
rest; a line that fails to parse raises (`none`). -/
def rowsOfLines : List (List Char) → Option (List JVal)
  | [] => some []
  | l :: rest =>
    let t := stripChars l
    if t = [] then rowsOfLines rest
    else
      match loads (String.mk t), rowsOfLines rest with
      | some v, some vs => some (v :: vs)
      | _, _ => none

/-- `utils.read_jsonl`: an absent file reads as `[]`; otherwise the text is
read with universal-newline translation and parsed line by line. -/
def read_jsonl (fs : FS) (p : String) : Option (List JVal) :=
  match FS.get fs p with
  | none => some []
  | some c => rowsOfLines (linesAcc [] (univNl c.data))

/-- `utils.atomic_write_text`: an atomic whole-file replacement. -/
def atomic_write_text (fs : FS) (p c : String) : FS := FS.set fs p c

/-- The serialized suffix `"".join(json.dumps(row) + "\n" for row in rows)`. -/
def jsonlSuffix (rows : List JVal) : List Char :=
  (rows.map (fun r => JVal.dumpChars r ++ ['\n'])).flatten

/-- `utils.append_jsonl_atomic`: read the existing text (with
universal-newline translation), concatenate one JSON line per record, and
atomically rewrite the file. -/
def append_jsonl_atomic (fs : FS) (p : String) (rows : List JVal) : FS :=
  let existing : List Char :=
    match FS.get fs p with
    | none => []
    | some c => univNl c.data
  atomic_write_text fs p (String.mk (existing ++ jsonlSuffix rows))

theorem rowsOfLines_cons (l : List Char) (L : List (List Char)) :
    rowsOfLines (l :: L) =
      if stripChars l = [] then rowsOfLines L
      else
        match loads (String.mk (stripChars l)), rowsOfLines L with
        | some v, some vs => some (v :: vs)
        | _, _ => none := rfl

/-- Appending line lists commutes with consing one more line in front. -/
def optAppend : Option (List JVal) → Option (List JVal) → Option (List JVal)
  | some r1, some r2 => some (r1 ++ r2)
  | _, _ => none

theorem optAppend_cons (l : List Char) (L1 L : List (List Char))
    (Y : Option (List JVal))
    (h : rowsOfLines L = optAppend (rowsOfLines L1) Y) :
    rowsOfLines (l :: L) = optAppend (rowsOfLines (l :: L1)) Y := by
  rw [rowsOfLines_cons, rowsOfLines_cons, h]
  by_cases hs : stripChars l = []
  · simp [hs]
  · simp only [if_neg hs]
    cases hv : loads (String.mk (stripChars l)) with
    | none =>
      cases hL1 : rowsOfLines L1 with
      | none => simp [optAppend]
      | some r1 => cases Y <;> simp [optAppend]
    | some v =>
      cases hL1 : rowsOfLines L1 with
      | none => simp [optAppend]
      | some r1 => cases Y <;> simp [optAppend]

theorem rowsOfLines_split (a : List Char) :
    ∀ acc b, a.getLast? = some '\n' →
    rowsOfLines (linesAcc acc (a ++ b)) =
      optAppend (rowsOfLines (linesAcc acc a)) (rowsOfLines (linesAcc [] b)) := by
  induction a with
  | nil =>
    intro acc b h
    simp at h
  | cons c a' ih =>
    intro acc b h
    by_cases hc : c = '\n'
    · subst hc
      cases a' with
      | nil =>
        rw [show (['\n'] : List Char) ++ b = '\n' :: b from rfl]
        rw [show linesAcc acc ('\n' :: b) = acc.reverse :: linesAcc [] b from by
          simp [linesAcc]]
        rw [show linesAcc acc ['\n'] = [acc.reverse, []] from by simp [linesAcc]]
        apply optAppend_cons
        rw [show rowsOfLines [([] : List Char)] = some [] from rfl]
        cases rowsOfLines (linesAcc [] b) <;> rfl
      | cons d a2 =>
        have h' : (d :: a2).getLast? = some '\n' := by
          rw [List.getLast?_cons_cons] at h
          exact h
        simp only [List.cons_append, linesAcc, if_pos]
        exact optAppend_cons _ _ _ _ (ih [] b h')
    · have ha' : a' ≠ [] := by
        intro he
        subst he
        simp at h
        exact hc h
      have h' : a'.getLast? = some '\n' := by
        cases a' with
        | nil => exact absurd rfl ha'
        | cons d a2 =>
          rw [List.getLast?_cons_cons] at h
          exact h
      simp only [List.cons_append, linesAcc, if_neg hc]
      exact ih (c :: acc) b h'

theorem linesAcc_chunk (l : List Char) (h : ∀ c ∈ l, ¬ c = '\n') :
    ∀ acc b, linesAcc acc (l ++ '\n' :: b) =
      (acc.reverse ++ l) :: linesAcc [] b := by
  induction l with
  | nil =>
    intro acc b
    simp [linesAcc]
  | cons c t ih =>
    intro acc b
    have hc := h c (by simp)
    rw [show (c :: t) ++ '\n' :: b = c :: (t ++ '\n' :: b) from rfl]
    rw [show linesAcc acc (c :: (t ++ '\n' :: b)) =
      linesAcc (c :: acc) (t ++ '\n' :: b) from by simp [linesAcc, hc]]
    rw [ih (fun d hd => h d (List.mem_cons_of_mem c hd)) (c :: acc) b]
    simp

theorem rows_jsonlSuffix (rows : List JVal)
    (h : ∀ r ∈ rows, JVal.wf r = true) :
    rowsOfLines (linesAcc [] (jsonlSuffix rows)) = some rows := by
  induction rows with
  | nil => rfl
  | cons r rs ih =>
    have hnl : ∀ c ∈ JVal.dumpChars r, ¬ c = '\n' := by
      intro c hcm heq
      obtain ⟨ha1, _⟩ := dumpChars_ascii r c hcm
      subst heq
      exact absurd ha1 (by decide)
    rw [show jsonlSuffix (r :: rs) =
      JVal.dumpChars r ++ '\n' :: jsonlSuffix rs from by simp [jsonlSuffix]]
    rw [linesAcc_chunk (JVal.dumpChars r) hnl [] (jsonlSuffix rs)]
    simp only [List.reverse_nil, List.nil_append]
    rw [rowsOfLines_cons, dump_strip r]
    obtain ⟨c0, t0, hc0, _, _, _, _⟩ := dumpChars_head_props r
    rw [if_neg (by rw [hc0]; simp)]
    have hl : loads (String.mk (JVal.dumpChars r)) = some r :=
      loads_dumps r (h r (by simp))
    rw [hl, ih (fun x hx => h x (by simp [hx]))]

theorem jsonlSuffix_no_cr (rows : List JVal) :
    ∀ ch ∈ jsonlSuffix rows, ¬ ch = '\r' := by
  intro ch hch heq
  simp only [jsonlSuffix, List.mem_flatten, List.mem_map] at hch
  obtain ⟨l, ⟨r, _, rfl⟩, hl⟩ := hch
  rcases List.mem_append.mp hl with hm | hm
  · obtain ⟨ha1, _⟩ := dumpChars_ascii r ch hm
    subst heq
    exact absurd ha1 (by decide)
  · subst heq
    exact absurd hm (by decide)

/-- Worker for the `append_jsonl_atomic`/`read_jsonl` round trip. -/
theorem append_roundtrip_aux (fs : FS) (p : String)
    (rows oldRows : List JVal)
    (hwf : ∀ r ∈ rows, JVal.wf r = true)
    (hledger : ∀ c, FS.get fs p = some c →
      (∀ ch ∈ c.data, ¬ ch = '\r') ∧
      (c.data = [] ∨ c.data.getLast? = some '\n'))
    (hold : read_jsonl fs p = some oldRows) :
    FS.get (append_jsonl_atomic fs p rows) p =
      some (String.mk ((match FS.get fs p with
        | none => []
        | some c => c.data) ++ jsonlSuffix rows)) ∧
    read_jsonl (append_jsonl_atomic fs p rows) p = some (oldRows ++ rows) := by
  cases hg : FS.get fs p with
  | none =>
    have happ : append_jsonl_atomic fs p rows =
        FS.set fs p (String.mk ([] ++ jsonlSuffix rows)) := by
      unfold append_jsonl_atomic atomic_write_text
      rw [hg]
    have hold0 : oldRows = [] := by
      unfold read_jsonl at hold
      rw [hg] at hold
      injection hold with hold
      exact hold.symm
    constructor
    · rw [happ, FS.get_set_self]
    · rw [happ]
      unfold read_jsonl
      rw [FS.get_set_self]
      simp only []
      rw [List.nil_append]
      rw [univ_no_cr _ (jsonlSuffix_no_cr rows)]
      rw [rows_jsonlSuffix rows hwf, hold0]
      rfl
  | some c =>
    obtain ⟨hnocr, hterm⟩ := hledger c hg
    have huniv : univNl c.data = c.data := univ_no_cr _ hnocr
    have happ : append_jsonl_atomic fs p rows =
        FS.set fs p (String.mk (c.data ++ jsonlSuffix rows)) := by
      unfold append_jsonl_atomic atomic_write_text
      rw [hg]
      simp only []
      rw [huniv]
    have hnocr2 : ∀ ch ∈ c.data ++ jsonlSuffix rows, ¬ ch = '\r' := by
      intro ch hch
      rcases List.mem_append.mp hch with hm | hm
      · exact hnocr ch hm
      · exact jsonlSuffix_no_cr rows ch hm
    have holdc : rowsOfLines (linesAcc [] c.data) = some oldRows := by
      unfold read_jsonl at hold
      rw [hg] at hold
      simp only [] at hold
      rw [huniv] at hold
      exact hold
    constructor
    · rw [happ, FS.get_set_self]
    · rw [happ]
      unfold read_jsonl
      rw [FS.get_set_self]
      simp only []
      rw [univ_no_cr _ hnocr2]
      rcases hterm with hemp | hlast
      · rw [hemp]
        simp only [List.nil_append]
        rw [rows_jsonlSuffix rows hwf]
        rw [hemp] at holdc
        rw [show rowsOfLines (linesAcc [] ([] : List Char)) = some [] from rfl]
          at holdc
        injection holdc with holdc
        rw [← holdc]
        simp
      · rw [rowsOfLines_split c.data [] (jsonlSuffix rows) hlast]
        rw [holdc, rows_jsonlSuffix rows hwf]
        rfl

/-- A file's text is a well-formed ledger: no raw carriage returns, and
either empty or newline-terminated.  Every file `append_jsonl_atomic` itself
produces satisfies this. -/
def ledgerOk (fs : FS) (p : String) : Prop :=
  ∀ c, FS.get fs p = some c →
    (∀ ch ∈ c.data, ¬ ch = '\r') ∧
    (c.data = [] ∨ c.data.getLast? = some '\n')

/-- C7: `append_jsonl_atomic` is a read-existing/concatenate/atomic-rewrite
round trip: the new file content is the previous content (empty when the file
was absent) followed by one serialized JSON line per appended record, and
`read_jsonl` on the result yields exactly the previously stored records
followed by the appended records in order.  The previous content is required
to be a well-formed ledger text (no raw carriage returns, and either empty or
newline-terminated), which holds for every file this module itself writes. -/
theorem append_jsonl_atomic_roundtrip (fs : FS) (p : String)
    (rows oldRows : List JVal)
    (hwf : ∀ r ∈ rows, JVal.wf r = true)
    (hledger : ledgerOk fs p)
    (hold : read_jsonl fs p = some oldRows) :
    FS.get (append_jsonl_atomic fs p rows) p =
      some (String.mk ((match FS.get fs p with
        | none => []
        | some c => c.data) ++ jsonlSuffix rows)) ∧
    read_jsonl (append_jsonl_atomic fs p rows) p = some (oldRows ++ rows) :=
  append_roundtrip_aux fs p rows oldRows hwf hledger hold

/-- C7 witness: appending one object record to an absent ledger file yields
exactly that record's JSON line, and reading it back yields the record. -/
theorem append_jsonl_atomic_roundtrip_witness :
    FS.get (append_jsonl_atomic ([] : FS) "vault/index/entries.jsonl"
        [JVal.jobj [("a", JVal.jint 1)]]) "vault/index/entries.jsonl" =
      some (String.mk ((match FS.get ([] : FS) "vault/index/entries.jsonl" with
        | none => []
        | some c => c.data) ++ jsonlSuffix [JVal.jobj [("a", JVal.jint 1)]])) ∧
    read_jsonl (append_jsonl_atomic ([] : FS) "vault/index/entries.jsonl"
        [JVal.jobj [("a", JVal.jint 1)]]) "vault/index/entries.jsonl" =
      some (([] : List JVal) ++ [JVal.jobj [("a", JVal.jint 1)]]) :=
  append_jsonl_atomic_roundtrip ([] : FS) "vault/index/entries.jsonl"
    [JVal.jobj [("a", JVal.jint 1)]] []
    (fun r hr => by rw [List.mem_singleton.mp hr]; rfl)
    (fun c hc => nomatch hc)
    rfl

/-! ## Hashing (`hashlib.sha256`, `uuid.uuid5` via SHA-1) and UTF-8 -/

/-- UTF-8 encoding of one scalar value (`str.encode("utf-8")` per character). -/
def utf8Bytes (c : Char) : List Nat :=
  let n := c.toNat
  if n < 128 then [n]
  else if n < 2048 then [192 + n / 64, 128 + n % 64]
  else if n < 65536 then [224 + n / 4096, 128 + n / 64 % 64, 128 + n % 64]
  else [240 + n / 262144, 128 + n / 4096 % 64, 128 + n / 64 % 64, 128 + n % 64]

/-- UTF-8 bytes of a string. -/
def strBytes (s : String) : List Nat := (s.data.map utf8Bytes).flatten

/-- Truncation to a 32-bit word. -/
def w32 (x : Nat) : Nat := x % 4294967296

/-- 32-bit right rotation. -/
def rotr32 (x n : Nat) : Nat := w32 ((x >>> n) ||| (x <<< (32 - n)))

/-- 32-bit left rotation. -/
def rotl32 (x n : Nat) : Nat := w32 ((x <<< n) ||| (x >>> (32 - n)))

/-- 32-bit bitwise complement of a word below `2^32`. -/
def bnot32 (x : Nat) : Nat := 4294967295 - x

/-- Merkle–Damgård padding shared by SHA-1 and SHA-256: `0x80`, zeros to 56
mod 64, then the bit length in eight big-endian bytes. -/
def padBytes (msg : List Nat) : List Nat :=
  let len := msg.length
  let z := (119 - len % 64) % 64
  let bits := 8 * len
  msg ++ 128 :: List.replicate z 0 ++
    [bits / 72057594037927936 % 256, bits / 281474976710656 % 256,
     bits / 1099511627776 % 256, bits / 4294967296 % 256,
     bits / 16777216 % 256, bits / 65536 % 256, bits / 256 % 256, bits % 256]

/-- Split a byte list into 64-byte blocks (the input length is a sufficient
fuel since each step consumes at least one byte). -/
def chunks64 : Nat → List Nat → List (List Nat)
  | 0, _ => []
  | _, [] => []
  | fuel + 1, l => l.take 64 :: chunks64 fuel (l.drop 64)

/-- Big-endian 32-bit words of a byte list. -/
def wordsOfBytes : List Nat → List Nat
  | b0 :: b1 :: b2 :: b3 :: rest =>
    (((b0 * 256 + b1) * 256 + b2) * 256 + b3) :: wordsOfBytes rest
  | _ => []

/-- Big-endian bytes of a 32-bit word. -/
def word4Bytes (w : Nat) : List Nat :=
  [w / 16777216 % 256, w / 65536 % 256, w / 256 % 256, w % 256]

/-- Lowercase hex of a byte list, as `hexdigest` renders it. -/
def bytesHex (bs : List Nat) : String :=
  String.mk ((bs.map (fun b => [hexDigitChar (b / 16 % 16), hexDigitChar (b % 16)])).flatten)

def sha256K : List Nat :=
  [1116352408, 1899447441, 3049323471, 3921009573, 961987163, 1508970993,
   2453635748, 2870763221, 3624381080, 310598401, 607225278, 1426881987,
   1925078388, 2162078206, 2614888103, 3248222580, 3835390401, 4022224774,
   264347078, 604807628, 770255983, 1249150122, 1555081692, 1996064986,
   2554220882, 2821834349, 2952996808, 3210313671, 3336571891, 3584528711,
   113926993, 338241895, 666307205, 773529912, 1294757372, 1396182291,
   1695183700, 1986661051, 2177026350, 2456956037, 2730485921, 2820302411,
   3259730800, 3345764771, 3516065817, 3600352804, 4094571909, 275423344,
   430227734, 506948616, 659060556, 883997877, 958139571, 1322822218,
   1537002063, 1747873779, 1955562222, 2024104815, 2227730452, 2361852424,
   2428436474, 2756734187, 3204031479, 3329325298]

def sha256H0 : List Nat :=
  [1779033703, 3144134277, 1013904242, 2773480762, 1359893119, 2600822924,
   528734635, 1541459225]

def chF (x y z : Nat) : Nat := (x &&& y) ^^^ (bnot32 x &&& z)

def majF (x y z : Nat) : Nat := (x &&& y) ^^^ (x &&& z) ^^^ (y &&& z)

def bigSigma0 (x : Nat) : Nat := rotr32 x 2 ^^^ rotr32 x 13 ^^^ rotr32 x 22

def bigSigma1 (x : Nat) : Nat := rotr32 x 6 ^^^ rotr32 x 11 ^^^ rotr32 x 25

def smallSigma0 (x : Nat) : Nat := rotr32 x 7 ^^^ rotr32 x 18 ^^^ (x >>> 3)

def smallSigma1 (x : Nat) : Nat := rotr32 x 17 ^^^ rotr32 x 19 ^^^ (x >>> 10)

/-- Message-schedule extension: prepend `k` more words to the reversed
schedule. -/
def schedAux : Nat → List Nat → List Nat
  | 0, acc => acc.reverse
  | k + 1, acc =>
    schedAux k (w32 (smallSigma1 (acc.getD 1 0) + acc.getD 6 0 +
      smallSigma0 (acc.getD 14 0) + acc.getD 15 0) :: acc)

/-- The 64-word SHA-256 message schedule of a 16-word block. -/
def schedule256 (ws : List Nat) : List Nat := schedAux 48 ws.reverse

def compressStep (st : List Nat) (kw : Nat × Nat) : List Nat :=
  match st with
  | [a, b, c, d, e, f, g, h] =>
    let t1 := w32 (h + bigSigma1 e + chF e f g + kw.1 + kw.2)
    let t2 := w32 (bigSigma0 a + majF a b c)
    [w32 (t1 + t2), a, b, c, w32 (d + t1), e, f, g]
  | _ => st

def sha256Block (h : List Nat) (block : List Nat) : List Nat :=
  let st := ((sha256K.zip (schedule256 block))).foldl compressStep h
  (h.zip st).map (fun p => w32 (p.1 + p.2))

/-- SHA-256 digest bytes of a byte message. -/
def sha256Bytes (msg : List Nat) : List Nat :=
  let padded := padBytes msg
  let hfin := (chunks64 padded.length padded).foldl
    (fun h b => sha256Block h (wordsOfBytes b)) sha256H0
  (hfin.map word4Bytes).flatten

/-- `utils.sha256_text`: hex digest of the UTF-8 encoded text. -/
def sha256_text (s : String) : String := bytesHex (sha256Bytes (strBytes s))

/-- SHA-1 schedule extension (64 more words). -/
def sched1Aux : Nat → List Nat → List Nat
  | 0, acc => acc.reverse
  | k + 1, acc =>
    sched1Aux k (rotl32 (acc.getD 2 0 ^^^ acc.getD 7 0 ^^^ acc.getD 13 0 ^^^
      acc.getD 15 0) 1 :: acc)

def schedule1 (ws : List Nat) : List Nat := sched1Aux 64 ws.reverse

def sha1F (i b c d : Nat) : Nat :=
  if i < 20 then (b &&& c) ||| (bnot32 b &&& d)
  else if i < 40 then b ^^^ c ^^^ d
  else if i < 60 then (b &&& c) ||| (b &&& d) ||| (c &&& d)
  else b ^^^ c ^^^ d

def sha1K (i : Nat) : Nat :=
  if i < 20 then 1518500249
  else if i < 40 then 1859775393
  else if i < 60 then 2400959708
  else 3395469782

def sha1Step (st : List Nat) (iw : Nat × Nat) : List Nat :=
  match st with
  | [a, b, c, d, e] =>
    [w32 (rotl32 a 5 + sha1F iw.1 b c d + e + sha1K iw.1 + iw.2), a,
     rotl32 b 30, c, d]
  | _ => st

def sha1H0 : List Nat :=
  [1732584193, 4023233417, 2562383102, 271733878, 3285377520]

def sha1Block (h : List Nat) (block : List Nat) : List Nat :=
  let st := (((List.range 80).zip (schedule1 block))).foldl sha1Step h
  (h.zip st).map (fun p => w32 (p.1 + p.2))

/-- SHA-1 digest bytes of a byte message. -/
def sha1Bytes (msg : List Nat) : List Nat :=
  let padded := padBytes msg
  let hfin := (chunks64 padded.length padded).foldl
    (fun h b => sha1Block h (wordsOfBytes b)) sha1H0
  (hfin.map word4Bytes).flatten

/-- The bytes of `uuid.NAMESPACE_URL`. -/
def NAMESPACE_URL : List Nat :=
  [0x6b, 0xa7, 0xb8, 0x11, 0x9d, 0xad, 0x11, 0xd1,
   0x80, 0xb4, 0x00, 0xc0, 0x4f, 0xd4, 0x30, 0xc8]

/-- `str(uuid.uuid5(namespace, name))`: SHA-1 of namespace bytes plus the
UTF-8 name, truncated to 16 bytes, with version 5 and RFC 4122 variant bits
forced, rendered as dashed lowercase hex. -/
def uuid5 (ns : List Nat) (name : String) : String :=
  let d := (sha1Bytes (ns ++ strBytes name)).take 16
  let bs := d.take 6 ++ [(d.getD 6 0 &&& 15) ||| 80, d.getD 7 0,
    (d.getD 8 0 &&& 63) ||| 128] ++ d.drop 9
  let hex := fun (l : List Nat) =>
    (l.map (fun b => [hexDigitChar (b / 16 % 16), hexDigitChar (b % 16)])).flatten
  String.mk (hex (bs.take 4) ++ '-' :: hex ((bs.drop 4).take 2) ++
    '-' :: hex ((bs.drop 6).take 2) ++ '-' :: hex ((bs.drop 8).take 2) ++
    '-' :: hex (bs.drop 10))

/-! ## Staged items (`stage._parse_frontmatter`, `stage.load_stage_item`) -/

/-- First occurrence of the closing delimiter `"\n---"`: the text before it
and the text after it. -/
def findNlDashes : List Char → Option (List Char × List Char)
  | '\n' :: '-' :: '-' :: '-' :: r2 => some ([], r2)
  | c :: rest =>
    match findNlDashes rest with
    | some (pre, post) => some (c :: pre, post)
    | none => none
  | [] => none

/-- The match of `FRONTMATTER_RE = ^---\s*\n(.*?)\n---\s*\n?` (DOTALL)
against the content: the captured frontmatter text and the remainder after
the match, with the backtracking behaviour of the greedy opening `\s*`
against the lazy group (the opening consumes through the last newline of the
initial whitespace run when a closing `"\n---"` follows, and gives one
newline back when the closing delimiter directly abuts that run). -/
def fmSplit (content : List Char) : Option (List Char × List Char) :=
  match content with
  | '-' :: '-' :: '-' :: rest =>
    let run := rest.takeWhile pyIsSpace
    let rest2 := rest.drop run.length
    let rrev := run.reverse
    let tailR := rrev.takeWhile (fun c => ¬ c = '\n')
    if tailR.length = run.length then none
    else
      match findNlDashes (tailR.reverse ++ rest2) with
      | some (pre, post) =>
        some (pre, post.drop (post.takeWhile pyIsSpace).length)
      | none =>
        let rrev2 := (rrev.drop tailR.length).tail
        let midR := rrev2.takeWhile (fun c => ¬ c = '\n')
        if tailR = [] ∧ midR.length < rrev2.length ∧
            rest2.take 3 = ['-', '-', '-'] then
          let post := rest2.drop 3
          some (midR.reverse, post.drop (post.takeWhile pyIsSpace).length)
        else none
  | _ => none

/-- Python dict assignment on an insertion-ordered association list: an
existing key keeps its position and takes the new value. -/
def dictSet : List (String × String) → String → String → List (String × String)
  | [], k, v => [(k, v)]
  | (a, b) :: rest, k, v =>
    if a = k then (k, v) :: rest else (a, b) :: dictSet rest k v

/-- `str.strip('"')`: remove every leading and trailing double quote. -/
def stripQuotes (l : List Char) : List Char :=
  ((l.dropWhile (fun c => c = '"')).reverse.dropWhile (fun c => c = '"')).reverse

/-- One frontmatter line: skip blanks and `#` comments, warn when `':'` is
missing, otherwise record `key.strip() : value.strip().strip('"')`. -/
def fmLineStep (acc : List (String × String) × List String) (line : List Char) :
    List (String × String) × List String :=
  let stripped := stripChars line
  if stripped = [] then acc
  else if stripped.head? = some '#' then acc
  else if ':' ∈ stripped then
    let key := stripped.takeWhile (fun c => ¬ c = ':')
    let value := (stripped.dropWhile (fun c => ¬ c = ':')).tail
    (dictSet acc.1 (String.mk (stripChars key))
      (String.mk (stripQuotes (stripChars value))), acc.2)
  else
    (acc.1, acc.2 ++
      ["frontmatter line ignored (missing ':'): " ++ String.mk stripped])

/-- `stage._parse_frontmatter`: frontmatter mapping, body, warnings. -/
def _parse_frontmatter (content : String) :
    List (String × String) × String × List String :=
  match fmSplit content.data with
  | none => ([], content, [])
  | some (fmRaw, body) =>
    let acc := (splitLinesAux fmRaw []).foldl fmLineStep ([], [])
    (acc.1, String.mk body, acc.2)

/-- `models.StageItem` (the fields the pipeline reads). -/
structure StageItem where
  source_path : String
  source_rel_path : String
  content_hash : String
  created_at : String
  frontmatter : List (String × String)
  body : String
  warnings : List String
  content : String
deriving Repr, DecidableEq

/-- `stage.load_stage_item` on the text read from the staged file; the
resolved absolute path, the inbox-relative path and the mtime-derived
timestamp are passed through unchanged from the file-system metadata. -/
def load_stage_item (source_path source_rel_path created_at : String)
    (raw : String) : StageItem :=
  let fm := _parse_frontmatter raw
  let stripped_body := pyStrip fm.2.1
  { source_path := source_path
    source_rel_path := source_rel_path
    content_hash := sha256_text raw
    created_at := created_at
    frontmatter := fm.1
    body := stripped_body
    warnings := fm.2.2 ++ (if stripped_body = "" then ["body is empty"] else [])
    content := raw }

/-- `stage.resolve_entry_id`. -/
def resolve_entry_id (item : StageItem) : String :=
  uuid5 NAMESPACE_URL item.content_hash

set_option maxRecDepth 10000 in
/-- SHA-256 sanity vector: the empty string. -/
theorem sha256_text_empty : sha256_text "" =
    "e3b0c44298fc1c149afbf4c8996fb92427ae41e4649b934ca495991b7852b855" := by
  decide

set_option maxRecDepth 10000 in
/-- SHA-256 sanity vector: `"abc"`. -/
theorem sha256_text_abc : sha256_text "abc" =
    "ba7816bf8f01cfea414140de5dae2223b00361a396177a9cb410ff61f20015ad" := by
  decide

set_option maxRecDepth 10000 in
/-- UUIDv5 sanity vector: `uuid5(NAMESPACE_URL, "abc")`. -/
theorem uuid5_url_abc : uuid5 NAMESPACE_URL "abc" =
    "68661508-f3c4-55b4-945d-ae2b4dfe5db4" := by
  decide

/-- C5: staged-item identity is a pure function of the file's raw text:
`content_hash` is the SHA-256 hex digest of the raw text and the entry id is
its UUIDv5 under `NAMESPACE_URL`, so two loads of byte-identical text agree on
both regardless of path or timestamp metadata. -/
theorem load_stage_item_identity (p1 rp1 t1 p2 rp2 t2 raw : String) :
    (load_stage_item p1 rp1 t1 raw).content_hash = sha256_text raw ∧
    resolve_entry_id (load_stage_item p1 rp1 t1 raw) =
      uuid5 NAMESPACE_URL (sha256_text raw) ∧
    (load_stage_item p1 rp1 t1 raw).content_hash =
      (load_stage_item p2 rp2 t2 raw).content_hash ∧
    resolve_entry_id (load_stage_item p1 rp1 t1 raw) =
      resolve_entry_id (load_stage_item p2 rp2 t2 raw) :=
  ⟨rfl, rfl, rfl, rfl⟩

/-! ## Vault storage (`storage.py`) and the commit flow (`commit_flow.py`) -/

/-- `storage.CATEGORY_FOLDER_MAP` lookup with its `"references"` default. -/
def category_folder (c : String) : String :=
  if c = "idea" then "ideas"
  else if c = "todo" then "todos"
  else if c = "reference" then "references"
  else if c = "log" then "logs"
  else "references"

/-- `storage.target_entry_relative_path`. -/
def target_entry_relative_path (entry_id category : String) : String :=
  "vault/" ++ category_folder category ++ "/" ++ entry_id ++ ".md"

/-- `storage.target_summary_relative_path`. -/
def target_summary_relative_path (entry_id : String) : String :=
  "vault/summaries/" ++ entry_id ++ ".md"

/-- `models.ClassificationResult`. -/
structure ClassificationResult where
  category : String
  confidence : Int × Nat
  tags : List String
  reasoning : String
deriving Repr, DecidableEq

/-- `models.SummaryResult`. -/
structure SummaryResult where
  short_summary : String
  key_points : List String
  actions : List String
  triggered_by : List String
  redundancy_score : Int × Nat
deriving Repr, DecidableEq

/-- `models.ProposalItem` (floats carried as shortest-decimal pairs, the form
a JSON round trip preserves). -/
structure ProposalItem where
  entry_id : String
  source_stage_path : String
  content_hash : String
  created_at : String
  body : String
  frontmatter : List (String × String)
  warnings : List String
  classification : ClassificationResult
  summary : Option SummaryResult
  target_entry_path : String
  target_summary_path : Option String
  status : String
  invalid_reason : Option String
deriving Repr, DecidableEq

/-- `models.Proposal` (the fields the commit flow reads). -/
structure Proposal where
  proposal_id : String
  created_at : String
  items : List ProposalItem
deriving Repr, DecidableEq

/-- `models.CommitResult`. -/
structure CommitResult where
  proposal_id : String
  git_sha : String
  committed_entries : Nat
  skipped_duplicates : Nat
  invalid_entries : Nat
  message : String
deriving Repr, DecidableEq

/-- `str.replace("\n", " ")`. -/
def pyReplaceNl (s : String) : String :=
  String.mk (s.data.map (fun c => if c = '\n' then ' ' else c))

/-- A value in the fixed frontmatter payload `render_entry_markdown` builds:
a string, a list of strings, or a float. -/
inductive FmVal where
  | s (v : String)
  | l (vs : List String)
  | f (m : Int) (e : Nat)

/-- The lines `storage._render_frontmatter` emits for one key. -/
def fmValLines (k : String) (v : FmVal) : List String :=
  match v with
  | .l vs => (k ++ ":") :: vs.map (fun t => "  - " ++ t)
  | .s t => [k ++ ": " ++ pyReplaceNl t]
  | .f m e => [k ++ ": " ++ String.mk (numChars m e)]

/-- `storage._render_frontmatter` on the fixed payload shape. -/
def _render_frontmatter (kvs : List (String × FmVal)) : String :=
  String.intercalate "\n"
    (["---"] ++ (kvs.map (fun kv => fmValLines kv.1 kv.2)).flatten ++ ["---"])

/-- `storage.render_entry_markdown`. -/
def render_entry_markdown (item : ProposalItem) (proposal_id : String) : String :=
  let fm := _render_frontmatter
    [("entry_id", .s item.entry_id),
     ("category", .s item.classification.category),
     ("tags", .l item.classification.tags),
     ("confidence", .f item.classification.confidence.1
        item.classification.confidence.2),
     ("content_hash", .s item.content_hash),
     ("source_stage_path", .s item.source_stage_path),
     ("created_at", .s item.created_at),
     ("proposal_id", .s proposal_id),
     ("summary_path", .s (item.target_summary_path.getD ""))]
  fm ++ "\n\n" ++ pyStrip item.body ++ "\n"

/-- `storage.render_summary_markdown`. -/
def render_summary_markdown (item : ProposalItem) : String :=
  match item.summary with
  | none => ""
  | some summary =>
    String.intercalate "\n"
      (["# Summary for " ++ item.entry_id, "", summary.short_summary, "",
        "## Key Points"] ++
       (if summary.key_points ≠ [] then
          summary.key_points.map (fun p => "- " ++ p)
        else ["- (none)"]) ++
       ["", "## Actions"] ++
       (if summary.actions ≠ [] then summary.actions.map (fun a => "- " ++ a)
        else ["- (none)"]) ++
       ["", "## Triggered By"] ++
       summary.triggered_by.map (fun t => "- " ++ t) ++
       ["", "Redundancy score: " ++
          String.mk (numChars summary.redundancy_score.1
            summary.redundancy_score.2), ""])

/-- Errors the commit flow can raise. -/
inductive PyErr where
  | io
  | runtime (msg : String)
  | notFound (msg : String)
deriving Repr, DecidableEq

/-- Commit-flow state: the file system plus a counter of durable primitive
operations performed, against which a failure is injected. -/
structure St where
  fs : FS
  tick : Nat
deriving Repr, DecidableEq

/-- One durable primitive operation (an atomic write, an atomic ledger
rewrite, a staged-file move, a git call): it either completes, or — when the
failure schedule names its index — raises with no effect. -/
def wPrim (failAt : Option Nat) (st : St) (f : FS → FS) : Except PyErr St :=
  if failAt = some st.tick then .error .io
  else .ok { fs := f st.fs, tick := st.tick + 1 }

/-- Python `str(...)` of a scalar JSON value (ledger hash values are always
strings in practice; composite values are rendered as their JSON text). -/
def pyStr : JVal → String
  | jstr s => s
  | jnull => "None"
  | jbool true => "True"
  | jbool false => "False"
  | jint n => String.mk (intChars n)
  | jnum m e => String.mk (numChars m e)
  | v => JVal.dumps v

/-- Python truthiness of a JSON value. -/
def jTruthy : JVal → Bool
  | jnull => false
  | jbool b => b
  | jint n => decide (n ≠ 0)
  | jnum m _ => decide (m ≠ 0)
  | jstr s => decide (s ≠ "")
  | jarr [] => false
  | jarr (_ :: _) => true
  | jobj [] => false
  | jobj (_ :: _) => true

/-- `record.get("proposal_id") == proposal_id`: a Python equality between a
JSON value and a string is true exactly for that string. -/
def rowHasPid (r : JVal) (pid : String) : Bool :=
  match r with
  | jobj kvs =>
    match objGet kvs "proposal_id" with
    | some (jstr s) => s == pid
    | _ => false
  | _ => false

/-- `record.get(key)` on a parsed ledger row (rows are JSON objects). -/
def rowGet (r : JVal) (k : String) : Option JVal :=
  match r with
  | jobj kvs => objGet kvs k
  | _ => none

/-- One element of `{str(row.get("content_hash", "")) for row in rows if
row.get("content_hash")}`. -/
def hashOfRow (row : JVal) : Option String :=
  match rowGet row "content_hash" with
  | some v => if jTruthy v then some (pyStr v) else none
  | none => none

def entriesPath : String := "vault/index/entries.jsonl"

def commitsPath : String := "vault/index/commits.jsonl"

/-- The JSON record `apply_proposal_to_vault` appends to the entries ledger
for one committed item. -/
def entryRecord (item : ProposalItem) (proposal_id : String)
    (summary_path : Option String) (now : String) : JVal :=
  jobj [("entry_id", jstr item.entry_id),
        ("proposal_id", jstr proposal_id),
        ("content_hash", jstr item.content_hash),
        ("category", jstr item.classification.category),
        ("tags", jarr (item.classification.tags.map jstr)),
        ("entry_path", jstr item.target_entry_path),
        ("summary_path", match summary_path with
          | none => jnull
          | some p => jstr p),
        ("source_stage_path", jstr item.source_stage_path),
        ("created_at", jstr item.created_at),
        ("committed_at", jstr now)]

/-- Lines 116-122 of `apply_proposal_to_vault`: the optional summary write
for one item, together with the paths recorded as written for the item. -/
def summaryStep (failAt : Option Nat) (st1 : St) (item : ProposalItem) :
    Except PyErr (St × List String × Option String) :=
  match item.summary, item.target_summary_path with
  | some _, some sp =>
    if sp ≠ "" then
      match wPrim failAt st1 (fun f => FS.set f sp
          (render_summary_markdown item)) with
      | .error e => .error e
      | .ok st2 => .ok (st2, [item.target_entry_path, sp], some sp)
    else .ok (st1, [item.target_entry_path], none)
  | _, _ => .ok (st1, [item.target_entry_path], none)

/-- `storage.apply_proposal_to_vault`: walk the proposal items, skipping
non-ready items and already-seen hashes, atomically writing each entry (and
summary) file; a failure propagates with the files written so far still on
disk and the partial accumulators lost to the caller. -/
def apply_proposal_to_vault (failAt : Option Nat) (now : String) (st : St)
    (proposal_id : String) (items : List ProposalItem)
    (existing : List String) :
    Except (PyErr × St) (St × List JVal × List String × Nat × Nat) :=
  match items with
  | [] => .ok (st, [], [], 0, 0)
  | item :: rest =>
    if item.status ≠ "ready" then
      apply_proposal_to_vault failAt now st proposal_id rest existing
    else if item.content_hash ∈ existing then
      match apply_proposal_to_vault failAt now st proposal_id rest existing with
      | .error e => .error e
      | .ok (st', recs, written, committed, skipped) =>
        .ok (st', recs, written, committed, skipped + 1)
    else
      match wPrim failAt st (fun f => FS.set f item.target_entry_path
          (render_entry_markdown item proposal_id)) with
      | .error e => .error (e, st)
      | .ok st1 =>
        match summaryStep failAt st1 item with
        | .error e => .error (e, st1)
        | .ok (st2, writtenHere, summary_path) =>
          match apply_proposal_to_vault failAt now st2 proposal_id rest
              (item.content_hash :: existing) with
          | .error e => .error e
          | .ok (st', recs, written, committed, skipped) =>
            .ok (st', entryRecord item proposal_id summary_path now :: recs,
              writtenHere ++ written, committed + 1, skipped)

/-- Base name of a root-relative path (`Path.name`). -/
def baseName (p : String) : String :=
  match (p.data.reverse.takeWhile (fun c => ¬ c = '/')).reverse with
  | l => String.mk l

/-- The first processed destination probed: `<pid>_<name>`. -/
def processedFirst (pid name : String) : String :=
  "stage/processed/" ++ pid ++ "_" ++ name

/-- The `k`-th disambiguated destination: `<pid>_<k>_<name>`. -/
def processedCand (pid name : String) (k : Nat) : String :=
  "stage/processed/" ++ pid ++ "_" ++ String.mk (natChars k) ++ "_" ++ name

/-- The collision-avoiding destination `move_stage_to_processed` probes:
`<pid>_<name>`, then `<pid>_<counter>_<name>`. -/
def freshDestAux (fs : FS) (pid name : String) : Nat → Nat → String
  | k, 0 => processedCand pid name k
  | k, fuel + 1 =>
    if FS.get fs (processedCand pid name k) = none then processedCand pid name k
    else freshDestAux fs pid name (k + 1) fuel

def freshDest (fs : FS) (pid name : String) : String :=
  if FS.get fs (processedFirst pid name) = none then processedFirst pid name
  else freshDestAux fs pid name 1 (fs.length + 1)

/-- `stage.move_stage_to_processed`: fails with `NotFoundError` when the
staged source is gone, otherwise atomically relocates it to a fresh processed
name. -/
def move_stage_to_processed (failAt : Option Nat) (st : St)
    (source_rel_path proposal_id : String) :
    Except (PyErr × St) (St × String) :=
  match FS.get st.fs source_rel_path with
  | none => .error (.notFound ("Cannot move missing staged file: " ++
      source_rel_path), st)
  | some content =>
    let dest := freshDest st.fs proposal_id (baseName source_rel_path)
    match wPrim failAt st (fun f => FS.set (FS.del f source_rel_path) dest
        content) with
    | .error e => .error (e, st)
    | .ok st1 => .ok (st1, dest)

/-- The staged-file move loop of `commit_proposal` (lines 75-80): each moved
pair `(destination, source)` is recorded for rollback; a failure keeps the
pairs moved so far. -/
def moveLoop (failAt : Option Nat) (st : St) (proposal_id : String) :
    List ProposalItem → Except (PyErr × St × List (String × String))
      (St × List (String × String))
  | [] => .ok (st, [])
  | item :: rest =>
    if item.status ≠ "ready" then moveLoop failAt st proposal_id rest
    else
      match move_stage_to_processed failAt st item.source_stage_path
          proposal_id with
      | .error (e, st') => .error (e, st', [])
      | .ok (st1, dest) =>
        match moveLoop failAt st1 proposal_id rest with
        | .error (e, st', moved) =>
          .error (e, st', (dest, item.source_stage_path) :: moved)
        | .ok (st', moved) => .ok (st', (dest, item.source_stage_path) :: moved)

/-- `commit_flow._restore_file`. -/
def _restore_file (fs : FS) (p : String) (prev : Option String) : FS :=
  match prev with
  | none => FS.del fs p
  | some c => FS.set fs p c

/-- The `except` block of `commit_proposal`: delete the recorded written
paths, restore the entries ledger snapshot, move relocated staged files back
in reverse order. -/
def rollback (fs : FS) (written : List String)
    (moved : List (String × String)) (prevEntries : Option String) : FS :=
  let fs1 := written.foldl (fun f p => FS.del f p) fs
  let fs2 := _restore_file fs1 entriesPath prevEntries
  moved.reverse.foldl (fun f dm =>
    match FS.get f dm.1 with
    | some c => FS.set (FS.del f dm.1) dm.2 c
    | none => f) fs2

/-- The commit record `commit_proposal` appends on success. -/
def commitRecord (proposal_id now git_sha : String)
    (committed skipped invalid : Nat) : JVal :=
  jobj [("proposal_id", jstr proposal_id),
        ("created_at", jstr now),
        ("git_sha", jstr git_sha),
        ("committed_entries", jint committed),
        ("skipped_duplicates", jint skipped),
        ("invalid_entries", jint invalid)]

/-- Lines 70-73 of `commit_proposal`: append the new entry records (if any)
to the entries ledger and record the ledger path as written. -/
def ledgerStep (failAt : Option Nat) (st1 : St) (entry_records : List JVal)
    (written0 : List String) : Except PyErr (St × List String) :=
  if entry_records.isEmpty then .ok (st1, written0)
  else
    match wPrim failAt st1 (fun f =>
        append_jsonl_atomic f entriesPath entry_records) with
    | .error e => .error e
    | .ok st2 => .ok (st2,
        if entriesPath ∈ written0 then written0
        else written0 ++ [entriesPath])

/-- Lines 87-95 of `commit_proposal`: the `git add` (only when something was
written), `git commit` and `git rev-parse` subprocess calls — durable
primitives that change no modelled file. -/
def gitSteps (failAt : Option Nat) (st3 : St) (written : List String) :
    Except PyErr St :=
  match (if written ≠ [] then wPrim failAt st3 id else .ok st3) with
  | .error e => .error e
  | .ok st4 =>
    match wPrim failAt st4 id with
    | .error e => .error e
    | .ok st5 => wPrim failAt st5 id

/-- `commit_flow.commit_proposal`.  The git subprocess calls are durable
primitives that can fail but change no modelled file; `now` and `git_sha`
stand for the wall clock and the commit hash git reports.  On an exception
inside the try block the rollback runs with exactly the locals Python has at
that point: in particular a failure inside `apply_proposal_to_vault` leaves
`written_paths` as the empty list bound at line 59, because the tuple
assignment at line 64 never happens. -/
def commit_proposal (failAt : Option Nat) (now git_sha : String) (fs : FS)
    (proposal : Proposal) ( commit_prefix : String) :
    Except (PyErr × FS) (FS × CommitResult) :=
  if FS.get fs ".git" = none then
    .error (.runtime "No git repository found.", fs)
  else
    match read_jsonl fs commitsPath with
    | none => .error (.runtime "invalid commits ledger", fs)
    | some commit_records =>
      if commit_records.any (fun r => rowHasPid r proposal.proposal_id) then
        .error (.runtime ("Proposal " ++ proposal.proposal_id ++
          " was already committed"), fs)
      else
        match read_jsonl fs entriesPath with
        | none => .error (.runtime "invalid entries ledger", fs)
        | some entryRows =>
          let existing := entryRows.filterMap hashOfRow
          let prev := FS.get fs entriesPath
          let invalid_entries := (proposal.items.filter
            (fun i => i.status = "invalid")).length
          match apply_proposal_to_vault failAt now { fs := fs, tick := 0 }
              proposal.proposal_id proposal.items existing with
          | .error (e, st') => .error (e, rollback st'.fs [] [] prev)
          | .ok (st1, entry_records, written0, committed, skipped) =>
            match ledgerStep failAt st1 entry_records written0 with
            | .error e => .error (e, rollback st1.fs written0 [] prev)
            | .ok (st2, written) =>
              match moveLoop failAt st2 proposal.proposal_id proposal.items with
              | .error (e, st', moved) =>
                .error (e, rollback st'.fs written moved prev)
              | .ok (st3, moved) =>
                let message := commit_prefix ++ " apply proposal " ++
                  proposal.proposal_id ++ " (" ++
                  String.mk (natChars committed) ++ " entries, " ++
                  String.mk (natChars skipped) ++ " duplicates, " ++
                  String.mk (natChars invalid_entries) ++ " invalid)"
                match gitSteps failAt st3 written with
                | .error e => .error (e, rollback st3.fs written moved prev)
                | .ok st6 =>
                  match wPrim failAt st6 (fun f =>
                      append_jsonl_atomic f commitsPath
                        [commitRecord proposal.proposal_id now git_sha
                          committed skipped invalid_entries]) with
                  | .error e => .error (e, rollback st6.fs written moved prev)
                  | .ok st7 =>
                    .ok (st7.fs,
                      { proposal_id := proposal.proposal_id,
                        git_sha := git_sha,
                        committed_entries := committed,
                        skipped_duplicates := skipped,
                        invalid_entries := invalid_entries,
                        message := message })

theorem wPrim_ok_fs (failAt : Option Nat) (st : St) (f : FS → FS) (st' : St)
    (h : wPrim failAt st f = .ok st') : st'.fs = f st.fs := by
  unfold wPrim at h
  split at h
  · exact absurd h (by simp)
  · injection h with h
    rw [← h]

theorem gitSteps_fs (failAt : Option Nat) (st3 : St) (written : List String)
    (st6 : St) (h : gitSteps failAt st3 written = .ok st6) :
    st6.fs = st3.fs := by
  unfold gitSteps at h
  cases hc : (if written ≠ [] then wPrim failAt st3 id else .ok st3) with
  | error e =>
    rw [hc] at h
    exact absurd h (by simp)
  | ok st4 =>
  have h4 : st4.fs = st3.fs := by
    split at hc
    · rw [wPrim_ok_fs failAt st3 id st4 hc]
      rfl
    · injection hc with hc
      rw [hc]
  rw [hc] at h
  simp only [] at h
  cases h5c : wPrim failAt st4 id with
  | error e =>
    rw [h5c] at h
    exact absurd h (by simp)
  | ok st5 =>
  rw [h5c] at h
  simp only [] at h
  rw [wPrim_ok_fs failAt st5 id st6 h, wPrim_ok_fs failAt st4 id st5 h5c, h4]
  rfl

theorem ledgerStep_ok (failAt : Option Nat) (st1 : St) (recs : List JVal)
    (written0 : List String) (st2 : St) (written : List String)
    (h : ledgerStep failAt st1 recs written0 = .ok (st2, written)) :
    if recs.isEmpty then st2 = st1 ∧ written = written0
    else st2.fs = append_jsonl_atomic st1.fs entriesPath recs ∧
      written = (if entriesPath ∈ written0 then written0
        else written0 ++ [entriesPath]) := by
  unfold ledgerStep at h
  by_cases hre : recs.isEmpty
  · rw [if_pos hre] at h
    rw [if_pos hre]
    injection h with h
    injection h with h1 h2
    exact ⟨h1.symm, h2.symm⟩
  · rw [if_neg hre] at h
    rw [if_neg hre]
    cases hw : wPrim failAt st1 (fun f =>
        append_jsonl_atomic f entriesPath recs) with
    | error e =>
      rw [hw] at h
      exact absurd h (by simp)
    | ok st2' =>
    rw [hw] at h
    simp only [] at h
    injection h with h
    injection h with h1 h2
    rw [← h1, ← h2]
    exact ⟨wPrim_ok_fs failAt st1 _ st2' hw, rfl⟩

/-- Unpacking of a successful `commit_proposal` run into its stages. -/
theorem commit_ok_inv (failAt : Option Nat) (now git_sha : String) (fs : FS)
    (proposal : Proposal) (pre : String) (fs' : FS) (res : CommitResult)
    (h : commit_proposal failAt now git_sha fs proposal pre =
      .ok (fs', res)) :
    ∃ (commitRows entryRows : List JVal) (st1 : St) (recs : List JVal)
      (written0 : List String) (committed skipped : Nat) (st2 : St)
      (written : List String) (st3 : St) (moved : List (String × String))
      (st6 : St),
      read_jsonl fs commitsPath = some commitRows ∧
      commitRows.any (fun r => rowHasPid r proposal.proposal_id) = false ∧
      read_jsonl fs entriesPath = some entryRows ∧
      apply_proposal_to_vault failAt now { fs := fs, tick := 0 }
        proposal.proposal_id proposal.items (entryRows.filterMap hashOfRow) =
        .ok (st1, recs, written0, committed, skipped) ∧
      (if recs.isEmpty then st2 = st1 ∧ written = written0
       else st2.fs = append_jsonl_atomic st1.fs entriesPath recs ∧
         written = (if entriesPath ∈ written0 then written0
           else written0 ++ [entriesPath])) ∧
      moveLoop failAt st2 proposal.proposal_id proposal.items =
        .ok (st3, moved) ∧
      st6.fs = st3.fs ∧
      fs' = append_jsonl_atomic st6.fs commitsPath
        [commitRecord proposal.proposal_id now git_sha committed skipped
          ((proposal.items.filter (fun i => i.status = "invalid")).length)] ∧
      res.proposal_id = proposal.proposal_id ∧
      res.committed_entries = committed ∧
      res.skipped_duplicates = skipped := by
  unfold commit_proposal at h
  by_cases hgit : FS.get fs ".git" = none
  · rw [if_pos hgit] at h
    exact absurd h (by simp)
  rw [if_neg hgit] at h
  cases hcr : read_jsonl fs commitsPath with
  | none =>
    rw [hcr] at h
    exact absurd h (by simp)
  | some commitRows =>
  rw [hcr] at h
  simp only [] at h
  by_cases hany : commitRows.any (fun r => rowHasPid r proposal.proposal_id) =
      true
  · rw [if_pos hany] at h
    exact absurd h (by simp)
  rw [if_neg hany] at h
  cases her : read_jsonl fs entriesPath with
  | none =>
    rw [her] at h
    exact absurd h (by simp)
  | some entryRows =>
  rw [her] at h
  simp only [] at h
  cases hap : apply_proposal_to_vault failAt now { fs := fs, tick := 0 }
      proposal.proposal_id proposal.items (entryRows.filterMap hashOfRow) with
  | error e =>
    rw [hap] at h
    exact absurd h (by simp)
  | ok applyRes =>
  obtain ⟨st1, recs, written0, committed, skipped⟩ := applyRes
  rw [hap] at h
  simp only [] at h
  cases hls : ledgerStep failAt st1 recs written0 with
  | error e =>
    rw [hls] at h
    exact absurd h (by simp)
  | ok sw =>
  obtain ⟨st2, written⟩ := sw
  rw [hls] at h
  simp only [] at h
  cases hml : moveLoop failAt st2 proposal.proposal_id proposal.items with
  | error e =>
    obtain ⟨e1, e2, e3⟩ := e
    rw [hml] at h
    exact absurd h (by simp)
  | ok sm =>
  obtain ⟨st3, moved⟩ := sm
  rw [hml] at h
  simp only [] at h
  cases hgs : gitSteps failAt st3 written with
  | error e =>
    rw [hgs] at h
    exact absurd h (by simp)
  | ok st6 =>
  rw [hgs] at h
  simp only [] at h
  cases hfin : wPrim failAt st6 (fun f => append_jsonl_atomic f commitsPath
      [commitRecord proposal.proposal_id now git_sha committed skipped
        ((proposal.items.filter (fun i => i.status = "invalid")).length)]) with
  | error e =>
    rw [hfin] at h
    exact absurd h (by simp)
  | ok st7 =>
  rw [hfin] at h
  simp only [] at h
  obtain ⟨hfs', hres⟩ : st7.fs = fs' ∧
      ({ proposal_id := proposal.proposal_id, git_sha := git_sha,
         committed_entries := committed, skipped_duplicates := skipped,
         invalid_entries :=
           (proposal.items.filter (fun i => i.status = "invalid")).length,
         message := pre ++ " apply proposal " ++ proposal.proposal_id ++
           " (" ++ String.mk (natChars committed) ++ " entries, " ++
           String.mk (natChars skipped) ++ " duplicates, " ++
           String.mk (natChars
             ((proposal.items.filter (fun i => i.status = "invalid")).length))
           ++ " invalid)" } : CommitResult) = res := by
    have h1 := congrArg (fun x => match x with
      | Except.ok (a, _) => a
      | _ => fs') h
    have h2 := congrArg (fun x => match x with
      | Except.ok (_, b) => b
      | _ => res) h
    exact ⟨h1, h2⟩
  refine ⟨commitRows, entryRows, st1, recs, written0, committed, skipped,
    st2, written, st3, moved, st6, rfl, by simpa using hany, rfl, hap,
    ?_, hml, gitSteps_fs failAt st3 written st6 hgs, ?_, ?_, ?_, ?_⟩
  · exact ledgerStep_ok failAt st1 recs written0 st2 written hls
  · rw [← hfs', wPrim_ok_fs failAt st6 _ st7 hfin]
  · rw [← hres]
  · rw [← hres]
  · rw [← hres]

theorem summaryStep_ok (failAt : Option Nat) (st1 : St) (item : ProposalItem)
    (st2 : St) (wh : List String) (sp : Option String)
    (h : summaryStep failAt st1 item = .ok (st2, wh, sp)) :
    (st2.fs = st1.fs ∧ sp = none ∧ wh = [item.target_entry_path]) ∨
    (∃ p, item.target_summary_path = some p ∧ sp = some p ∧
      wh = [item.target_entry_path, p] ∧
      st2.fs = FS.set st1.fs p (render_summary_markdown item)) := by
  unfold summaryStep at h
  cases hs : item.summary with
  | none =>
    rw [hs] at h
    cases htp : item.target_summary_path with
    | none =>
      rw [htp] at h
      injection h with h
      injection h with h1 h2
      injection h2 with h2 h3
      exact Or.inl ⟨h1.symm ▸ rfl, h3.symm, h2.symm⟩
    | some p =>
      rw [htp] at h
      injection h with h
      injection h with h1 h2
      injection h2 with h2 h3
      exact Or.inl ⟨h1.symm ▸ rfl, h3.symm, h2.symm⟩
  | some summ =>
    rw [hs] at h
    cases htp : item.target_summary_path with
    | none =>
      rw [htp] at h
      injection h with h
      injection h with h1 h2
      injection h2 with h2 h3
      exact Or.inl ⟨h1.symm ▸ rfl, h3.symm, h2.symm⟩
    | some p =>
      rw [htp] at h
      simp only [] at h
      by_cases hp : p ≠ ""
      · rw [if_pos hp] at h
        cases hw : wPrim failAt st1 (fun f => FS.set f p
            (render_summary_markdown item)) with
        | error e =>
          rw [hw] at h
          exact absurd h (by simp)
        | ok st2' =>
        rw [hw] at h
        injection h with h
        injection h with h1 h2
        injection h2 with h2 h3
        refine Or.inr ⟨p, rfl, h3.symm, h2.symm, ?_⟩
        rw [← h1]
        exact wPrim_ok_fs failAt st1 _ st2' hw
      · rw [if_neg hp] at h
        injection h with h
        injection h with h1 h2
        injection h2 with h2 h3
        exact Or.inl ⟨h1.symm ▸ rfl, h3.symm, h2.symm⟩

/-- Paths outside every item target (entry and summary) are untouched by
`apply_proposal_to_vault`. -/
theorem apply_frame (failAt : Option Nat) (now pid : String) :
    ∀ (items : List ProposalItem) (st : St) (existing : List String)
      (st' : St) (recs : List JVal) (written : List String)
      (committed skipped : Nat),
    apply_proposal_to_vault failAt now st pid items existing =
      .ok (st', recs, written, committed, skipped) →
    ∀ p, (∀ item ∈ items, item.status = "ready" →
        ¬ p = item.target_entry_path ∧
        ∀ sp, item.target_summary_path = some sp → ¬ p = sp) →
    FS.get st'.fs p = FS.get st.fs p := by
  intro items
  induction items with
  | nil =>
    intro st existing st' recs written committed skipped h p _
    unfold apply_proposal_to_vault at h
    injection h with h
    injection h with h1 h2
    rw [← h1]
  | cons item rest ih =>
    intro st existing st' recs written committed skipped h p hp
    have hprest : ∀ it ∈ rest, it.status = "ready" →
        ¬ p = it.target_entry_path ∧
        ∀ sp, it.target_summary_path = some sp → ¬ p = sp :=
      fun it hit => hp it (by simp [hit])
    unfold apply_proposal_to_vault at h
    by_cases hst : item.status ≠ "ready"
    · rw [if_pos hst] at h
      exact ih st existing st' recs written committed skipped h p hprest
    rw [if_neg hst] at h
    by_cases hdup : item.content_hash ∈ existing
    · rw [if_pos hdup] at h
      cases hrec : apply_proposal_to_vault failAt now st pid rest existing with
      | error e =>
        rw [hrec] at h
        exact absurd h (by simp)
      | ok out =>
        obtain ⟨sta, recsa, writtena, committeda, skippeda⟩ := out
        rw [hrec] at h
        simp only [] at h
        injection h with h
        injection h with h1 h2
        rw [← h1]
        exact ih st existing sta recsa writtena committeda skippeda hrec p
          hprest
    rw [if_neg hdup] at h
    have hpitem := hp item (by simp) (by simpa using hst)
    cases hw : wPrim failAt st (fun f => FS.set f item.target_entry_path
        (render_entry_markdown item pid)) with
    | error e =>
      rw [hw] at h
      exact absurd h (by simp)
    | ok st1 =>
    rw [hw] at h
    simp only [] at h
    cases hss : summaryStep failAt st1 item with
    | error e =>
      rw [hss] at h
      exact absurd h (by simp)
    | ok out =>
    obtain ⟨st2, writtenHere, summary_path⟩ := out
    rw [hss] at h
    simp only [] at h
    cases hrec : apply_proposal_to_vault failAt now st2 pid rest
        (item.content_hash :: existing) with
    | error e =>
      rw [hrec] at h
      exact absurd h (by simp)
    | ok out2 =>
    obtain ⟨sta, recsa, writtena, committeda, skippeda⟩ := out2
    rw [hrec] at h
    simp only [] at h
    injection h with h
    injection h with h1 h2
    rw [← h1]
    have hstep1 : FS.get st1.fs p = FS.get st.fs p := by
      rw [wPrim_ok_fs failAt st _ st1 hw]
      exact FS.get_set_ne st.fs item.target_entry_path _ p hpitem.1
    have hstep2 : FS.get st2.fs p = FS.get st1.fs p := by
      rcases summaryStep_ok failAt st1 item st2 writtenHere summary_path hss
          with ⟨he, _, _⟩ | ⟨q, hq, _, _, he⟩
      · rw [he]
      · rw [he]
        exact FS.get_set_ne st1.fs q _ p (hpitem.2 q hq)
    rw [ih st2 (item.content_hash :: existing) sta recsa writtena committeda
      skippeda hrec p hprest, hstep2, hstep1]

theorem string_eq_of_data (a b : String) (h : a.data = b.data) : a = b := by
  cases a
  cases b
  simp only [] at h
  rw [h]

theorem natChars_inj (a b : Nat) (h : natChars a = natChars b) : a = b := by
  have ha := natChars_foldl a 0
  have hb := natChars_foldl b 0
  rw [h] at ha
  omega

theorem processedCand_inj (pid name : String) (j k : Nat)
    (h : processedCand pid name j = processedCand pid name k) : j = k := by
  unfold processedCand at h
  have hd := congrArg String.data h
  simp only [String.data_append] at hd
  have h1 := List.append_cancel_right hd
  have h2 := List.append_cancel_right h1
  have h3 := List.append_cancel_left h2
  exact natChars_inj j k h3

theorem FS.get_mem_keys (fs : FS) (p c : String) (h : FS.get fs p = some c) :
    p ∈ fs.map Prod.fst := by
  induction fs with
  | nil => simp [FS.get] at h
  | cons e rest ih =>
    obtain ⟨q, v⟩ := e
    by_cases hq : q = p
    · simp [hq]
    · simp only [FS.get, if_neg hq] at h
      simp only [List.map_cons, List.mem_cons]
      exact Or.inr (ih h)

/-- Somewhere among `fs.length + 1` distinct disambiguated candidates there
is a free one. -/
theorem processedCand_free (fs : FS) (pid name : String) :
    ∃ j, 1 ≤ j ∧ j < 1 + (fs.length + 1) ∧
      FS.get fs (processedCand pid name j) = none := by
  by_contra hall
  push_neg at hall
  have hmem : ∀ j, 1 ≤ j → j < 1 + (fs.length + 1) →
      processedCand pid name j ∈ fs.map Prod.fst := by
    intro j h1 h2
    have hne := hall j h1 h2
    cases hg : FS.get fs (processedCand pid name j) with
    | none => exact absurd hg hne
    | some c => exact FS.get_mem_keys fs _ c hg
  have hsub : (List.range' 1 (fs.length + 1)).map
      (processedCand pid name) ⊆ fs.map Prod.fst := by
    intro x hx
    simp only [List.mem_map] at hx
    obtain ⟨j, hj, rfl⟩ := hx
    rw [List.mem_range'_1] at hj
    exact hmem j hj.1 hj.2
  have hnd : ((List.range' 1 (fs.length + 1)).map
      (processedCand pid name)).Nodup := by
    refine List.Nodup.map ?_ ?_
    · intro a b hab
      exact processedCand_inj pid name a b hab
    · exact List.nodup_range' 1 (fs.length + 1) 1 (by decide)
  have hlen : ((List.range' 1 (fs.length + 1)).map
      (processedCand pid name)).length ≤ (fs.map Prod.fst).length := by
    classical
    calc ((List.range' 1 (fs.length + 1)).map (processedCand pid name)).length
        = ((List.range' 1 (fs.length + 1)).map
            (processedCand pid name)).toFinset.card :=
          (List.toFinset_card_of_nodup hnd).symm
      _ ≤ (fs.map Prod.fst).toFinset.card := Finset.card_le_card (fun x hx => by
          simp only [List.mem_toFinset] at hx ⊢
          exact hsub hx)
      _ ≤ (fs.map Prod.fst).length := (fs.map Prod.fst).toFinset_card_le
  simp only [List.length_map] at hlen
  have : (List.range' 1 (fs.length + 1)).length = fs.length + 1 := by simp
  omega

/-- `freshDestAux` returns a free disambiguated name when one exists within
its fuel. -/
theorem freshDestAux_free (fs : FS) (pid name : String) :
    ∀ (fuel k : Nat), (∃ j, k ≤ j ∧ j < k + fuel ∧
      FS.get fs (processedCand pid name j) = none) →
    FS.get fs (freshDestAux fs pid name k fuel) = none ∧
    ∃ j, k ≤ j ∧ freshDestAux fs pid name k fuel = processedCand pid name j := by
  intro fuel
  induction fuel with
  | zero =>
    intro k ⟨j, h1, h2, _⟩
    omega
  | succ f ih =>
    intro k ⟨j, h1, h2, h3⟩
    unfold freshDestAux
    by_cases hk : FS.get fs (processedCand pid name k) = none
    · rw [if_pos hk]
      exact ⟨hk, k, le_rfl, rfl⟩
    · rw [if_neg hk]
      have hjk : ¬ j = k := by
        intro he
        rw [he] at h3
        exact hk h3
      obtain ⟨hfree, j2, hj2, he⟩ := ih (k + 1) ⟨j, by omega, by omega, h3⟩
      exact ⟨hfree, j2, by omega, he⟩

/-- The destination `freshDest` picks never names an existing file, and has
the `<pid>_<name>` / `<pid>_<counter>_<name>` shape. -/
theorem freshDest_spec (fs : FS) (pid name : String) :
    FS.get fs (freshDest fs pid name) = none ∧
    (freshDest fs pid name = processedFirst pid name ∨
      ∃ k, 1 ≤ k ∧ freshDest fs pid name = processedCand pid name k) := by
  unfold freshDest
  by_cases hf : FS.get fs (processedFirst pid name) = none
  · rw [if_pos hf]
    exact ⟨hf, Or.inl rfl⟩
  · rw [if_neg hf]
    obtain ⟨j, hj1, hj2, hj3⟩ := processedCand_free fs pid name
    obtain ⟨hfree, k, hk, he⟩ := freshDestAux_free fs pid name (fs.length + 1) 1
      ⟨j, hj1, hj2, hj3⟩
    exact ⟨hfree, Or.inr ⟨k, hk, he⟩⟩

theorem processedFirst_shape (pid name : String) :
    ∃ x, processedFirst pid name = "stage/processed/" ++ x := by
  refine ⟨pid ++ "_" ++ name, ?_⟩
  apply string_eq_of_data
  simp [processedFirst, String.data_append]

theorem processedCand_shape (pid name : String) (k : Nat) :
    ∃ x, processedCand pid name k = "stage/processed/" ++ x := by
  refine ⟨pid ++ "_" ++ String.mk (natChars k) ++ "_" ++ name, ?_⟩
  apply string_eq_of_data
  simp [processedCand, String.data_append]

theorem freshDest_shape (fs : FS) (pid name : String) :
    ∃ x, freshDest fs pid name = "stage/processed/" ++ x := by
  rcases (freshDest_spec fs pid name).2 with h | ⟨k, _, h⟩
  · rw [h]
    exact processedFirst_shape pid name
  · rw [h]
    exact processedCand_shape pid name k

/-- Unpacking of a successful single staged-file move. -/
theorem move_ok (failAt : Option Nat) (st : St) (src pid : String) (st1 : St)
    (dest : String)
    (h : move_stage_to_processed failAt st src pid = .ok (st1, dest)) :
    ∃ content, FS.get st.fs src = some content ∧
      dest = freshDest st.fs pid (baseName src) ∧
      FS.get st.fs dest = none ∧
      st1.fs = FS.set (FS.del st.fs src) dest content := by
  unfold move_stage_to_processed at h
  cases hg : FS.get st.fs src with
  | none =>
    rw [hg] at h
    exact absurd h (by simp)
  | some content =>
  rw [hg] at h
  simp only [] at h
  cases hw : wPrim failAt st (fun f => FS.set (FS.del f src)
      (freshDest st.fs pid (baseName src)) content) with
  | error e =>
    rw [hw] at h
    exact absurd h (by simp)
  | ok st1' =>
  rw [hw] at h
  injection h with h
  injection h with h1 h2
  refine ⟨content, rfl, h2.symm, ?_, ?_⟩
  · rw [← h2]
    exact (freshDest_spec st.fs pid (baseName src)).1
  · rw [← h1, ← h2]
    exact wPrim_ok_fs failAt st _ st1' hw

/-- C6 error case: a missing staged source fails the move with
`NotFoundError` and no effect. -/
theorem move_notFound (failAt : Option Nat) (st : St) (src pid : String)
    (h : FS.get st.fs src = none) :
    move_stage_to_processed failAt st src pid =
      .error (.notFound ("Cannot move missing staged file: " ++ src), st) := by
  unfold move_stage_to_processed
  rw [h]

/-- A successful move loop relocates exactly the ready items' sources, in
proposal order. -/
theorem moveLoop_sources (failAt : Option Nat) (pid : String) :
    ∀ (items : List ProposalItem) (st st' : St)
      (moved : List (String × String)),
    moveLoop failAt st pid items = .ok (st', moved) →
    moved.map Prod.snd =
      (items.filter (fun i => i.status = "ready")).map
        (fun i => i.source_stage_path) := by
  intro items
  induction items with
  | nil =>
    intro st st' moved h
    unfold moveLoop at h
    injection h with h
    injection h with h1 h2
    rw [← h2]
    rfl
  | cons item rest ih =>
    intro st st' moved h
    unfold moveLoop at h
    by_cases hst : item.status ≠ "ready"
    · rw [if_pos hst] at h
      rw [List.filter_cons_of_neg (by simpa using hst)]
      exact ih st st' moved h
    rw [if_neg hst] at h
    push_neg at hst
    cases hm : move_stage_to_processed failAt st item.source_stage_path pid with
    | error e =>
      obtain ⟨e1, e2⟩ := e
      rw [hm] at h
      exact absurd h (by simp)
    | ok out =>
    obtain ⟨st1, dest⟩ := out
    rw [hm] at h
    simp only [] at h
    cases hr : moveLoop failAt st1 pid rest with
    | error e =>
      obtain ⟨e1, e2, e3⟩ := e
      rw [hr] at h
      exact absurd h (by simp)
    | ok out2 =>
    obtain ⟨st2, moved2⟩ := out2
    rw [hr] at h
    injection h with h
    injection h with h1 h2
    rw [← h2]
    rw [List.filter_cons_of_pos (by simpa using hst)]
    simp only [List.map_cons]
    rw [ih st1 st2 moved2 hr]

/-- Paths that are neither a staged source nor inside the processed area are
untouched by the move loop. -/
theorem moveLoop_frame (failAt : Option Nat) (pid : String) :
    ∀ (items : List ProposalItem) (st st' : St)
      (moved : List (String × String)),
    moveLoop failAt st pid items = .ok (st', moved) →
    ∀ p, (∀ item ∈ items, item.status = "ready" →
        ¬ p = item.source_stage_path) →
      (∀ x, ¬ p = "stage/processed/" ++ x) →
    FS.get st'.fs p = FS.get st.fs p := by
  intro items
  induction items with
  | nil =>
    intro st st' moved h p _ _
    unfold moveLoop at h
    injection h with h
    injection h with h1 h2
    rw [← h1]
  | cons item rest ih =>
    intro st st' moved h p hsrc hproc
    have hsrcrest : ∀ it ∈ rest, it.status = "ready" →
        ¬ p = it.source_stage_path :=
      fun it hit => hsrc it (by simp [hit])
    unfold moveLoop at h
    by_cases hst : item.status ≠ "ready"
    · rw [if_pos hst] at h
      exact ih st st' moved h p hsrcrest hproc
    rw [if_neg hst] at h
    cases hm : move_stage_to_processed failAt st item.source_stage_path pid with
    | error e =>
      obtain ⟨e1, e2⟩ := e
      rw [hm] at h
      exact absurd h (by simp)
    | ok out =>
    obtain ⟨st1, dest⟩ := out
    rw [hm] at h
    simp only [] at h
    cases hr : moveLoop failAt st1 pid rest with
    | error e =>
      obtain ⟨e1, e2, e3⟩ := e
      rw [hr] at h
      exact absurd h (by simp)
    | ok out2 =>
    obtain ⟨st2, moved2⟩ := out2
    rw [hr] at h
    injection h with h
    injection h with h1 h2
    rw [← h1]
    obtain ⟨content, hgc, hdest, hfree, hfs1⟩ :=
      move_ok failAt st item.source_stage_path pid st1 dest hm
    have hpdest : ¬ p = dest := by
      obtain ⟨x, hx⟩ := freshDest_shape st.fs pid (baseName item.source_stage_path)
      rw [hdest, hx]
      exact hproc x
    rw [ih st1 st2 moved2 hr p hsrcrest hproc, hfs1,
      FS.get_set_ne _ dest _ p hpdest, FS.get_del]
    rw [if_neg (hsrc item (by simp) (by simpa using hst))]

theorem append_get_ne (fs : FS) (p : String) (rows : List JVal) (q : String)
    (h : ¬ q = p) :
    FS.get (append_jsonl_atomic fs p rows) q = FS.get fs q := by
  unfold append_jsonl_atomic atomic_write_text
  exact FS.get_set_ne _ p _ q h

theorem read_jsonl_congr (fs1 fs2 : FS) (p : String)
    (h : FS.get fs1 p = FS.get fs2 p) :
    read_jsonl fs1 p = read_jsonl fs2 p := by
  unfold read_jsonl
  rw [h]

theorem ledgerOk_congr (fs1 fs2 : FS) (p : String)
    (h : FS.get fs1 p = FS.get fs2 p) (hok : ledgerOk fs2 p) :
    ledgerOk fs1 p := by
  intro c hc
  exact hok c (h ▸ hc)

theorem string_ne_of_head (a b : String) (ca cb : Char) (ta tb : List Char)
    (ha : a.data = ca :: ta) (hb : b.data = cb :: tb) (hne : ¬ ca = cb) :
    ¬ a = b := by
  intro he
  rw [he, hb] at ha
  injection ha with h1
  exact hne h1.symm

theorem commitsPath_not_processed (x : String) :
    ¬ commitsPath = "stage/processed/" ++ x := by
  apply string_ne_of_head _ _ 'v' 's' _ _ rfl
  · rfl
  · decide

theorem dotgit_not_processed (x : String) :
    ¬ (".git" : String) = "stage/processed/" ++ x := by
  apply string_ne_of_head _ _ '.' 's' _ _ rfl
  · rfl
  · decide

theorem commitRecord_wf (pid now sha : String) (c sk iv : Nat) :
    JVal.wf (commitRecord pid now sha c sk iv) = true := by
  simp [commitRecord, JVal.wf, wfMembers]

theorem commitRecord_pid (pid now sha : String) (c sk iv : Nat) :
    rowHasPid (commitRecord pid now sha c sk iv) pid = true := by
  simp only [commitRecord, rowHasPid, objGet]
  simp

theorem commit_ok_git (failAt : Option Nat) (now git_sha : String) (fs : FS)
    (proposal : Proposal) (pre : String) (fs' : FS) (res : CommitResult)
    (h : commit_proposal failAt now git_sha fs proposal pre =
      .ok (fs', res)) : ¬ FS.get fs ".git" = none := by
  intro hg
  unfold commit_proposal at h
  rw [if_pos hg] at h
  exact absurd h (by simp)

/-- The path conditions on a proposal under which the commit flow touches
only vault entry and summary files, the staged sources and the two ledgers:
every target and source is none of `.git` and the two ledger paths. -/
def proposalPathsOk (proposal : Proposal) : Prop :=
  ∀ item ∈ proposal.items,
    (¬ item.target_entry_path = ".git" ∧
     ¬ item.target_entry_path = entriesPath ∧
     ¬ item.target_entry_path = commitsPath) ∧
    (∀ sp, item.target_summary_path = some sp →
      ¬ sp = ".git" ∧ ¬ sp = entriesPath ∧ ¬ sp = commitsPath) ∧
    (¬ item.source_stage_path = ".git" ∧
     ¬ item.source_stage_path = entriesPath ∧
     ¬ item.source_stage_path = commitsPath)

/-- Through the try-block stages of a successful commit, a path that is no
item target, no summary target, no staged source, not under the processed
area and not the entries ledger keeps its content. -/
theorem commit_stages_get (failAt : Option Nat) (now pid : String)
    (items : List ProposalItem) (existing : List String) (st0 st1 : St)
    (recs : List JVal) (written0 : List String) (committed skipped : Nat)
    (st2 : St) (written : List String) (st3 moved6 : St)
    (moved : List (String × String))
    (hap : apply_proposal_to_vault failAt now st0 pid items existing =
      .ok (st1, recs, written0, committed, skipped))
    (hls : if recs.isEmpty then st2 = st1 ∧ written = written0
       else st2.fs = append_jsonl_atomic st1.fs entriesPath recs ∧
         written = (if entriesPath ∈ written0 then written0
           else written0 ++ [entriesPath]))
    (hml : moveLoop failAt st2 pid items = .ok (st3, moved))
    (h6 : moved6.fs = st3.fs)
    (p : String)
    (hptgt : ∀ item ∈ items, ¬ p = item.target_entry_path ∧
      ∀ sp, item.target_summary_path = some sp → ¬ p = sp)
    (hpsrc : ∀ item ∈ items, ¬ p = item.source_stage_path)
    (hpproc : ∀ x, ¬ p = "stage/processed/" ++ x)
    (hpe : ¬ p = entriesPath) :
    FS.get moved6.fs p = FS.get st0.fs p := by
  have h1 : FS.get st1.fs p = FS.get st0.fs p :=
    apply_frame failAt now pid items st0 existing st1 recs written0 committed
      skipped hap p (fun item hi _ => hptgt item hi)
  have h2 : FS.get st2.fs p = FS.get st1.fs p := by
    by_cases hre : recs.isEmpty
    · rw [if_pos hre] at hls
      rw [hls.1]
    · rw [if_neg hre] at hls
      rw [hls.1]
      exact append_get_ne st1.fs entriesPath recs p hpe
  have h3 : FS.get st3.fs p = FS.get st2.fs p :=
    moveLoop_frame failAt pid items st2 st3 moved hml p
      (fun item hi _ => hpsrc item hi) hpproc
  rw [h6, h3, h2, h1]

/-- Lines 47-49 of `commit_proposal`: a matching ledger record fails the
commit before any side effect. -/
theorem commit_already_error (failAt : Option Nat) (now git_sha : String)
    (fs : FS) (proposal : Proposal) (pre : String) (rows : List JVal)
    (hgit : ¬ FS.get fs ".git" = none)
    (hread : read_jsonl fs commitsPath = some rows)
    (hany : rows.any (fun r => rowHasPid r proposal.proposal_id) = true) :
    commit_proposal failAt now git_sha fs proposal pre =
      .error (.runtime ("Proposal " ++ proposal.proposal_id ++
        " was already committed"), fs) := by
  unfold commit_proposal
  rw [if_neg hgit, hread]
  simp only []
  rw [if_pos hany]

/-- C2: a commit whose proposal id already appears in the commit ledger fails
with the already-committed error and leaves the file system untouched;
consequently a successful commit appends exactly one matching commit record,
and repeating the commit from the resulting state fails without any change,
so the ledger holds exactly one record for the id. -/
theorem commit_idempotent_spec :
    (∀ (failAt : Option Nat) (now git_sha : String) (fs : FS)
      (proposal : Proposal) (pre : String) (rows : List JVal),
      ¬ FS.get fs ".git" = none →
      read_jsonl fs commitsPath = some rows →
      rows.any (fun r => rowHasPid r proposal.proposal_id) = true →
      commit_proposal failAt now git_sha fs proposal pre =
        .error (.runtime ("Proposal " ++ proposal.proposal_id ++
          " was already committed"), fs)) ∧
    (∀ (failAt : Option Nat) (now git_sha : String) (fs : FS)
      (proposal : Proposal) (pre : String) (fs' : FS) (res : CommitResult),
      commit_proposal failAt now git_sha fs proposal pre = .ok (fs', res) →
      proposalPathsOk proposal →
      ledgerOk fs commitsPath →
      ∃ rows, read_jsonl fs commitsPath = some rows ∧
        rows.any (fun r => rowHasPid r proposal.proposal_id) = false ∧
        read_jsonl fs' commitsPath = some (rows ++
          [commitRecord proposal.proposal_id now git_sha res.committed_entries
            res.skipped_duplicates
            ((proposal.items.filter (fun i => i.status = "invalid")).length)]) ∧
        ((rows ++ [commitRecord proposal.proposal_id now git_sha
          res.committed_entries res.skipped_duplicates
          ((proposal.items.filter
            (fun i => i.status = "invalid")).length)]).filter
          (fun r => rowHasPid r proposal.proposal_id)).length = 1 ∧
        ∀ (failAt2 : Option Nat) (now2 git_sha2 pre2 : String),
          commit_proposal failAt2 now2 git_sha2 fs' proposal pre2 =
            .error (.runtime ("Proposal " ++ proposal.proposal_id ++
              " was already committed"), fs')) := by
  constructor
  · exact commit_already_error
  intro failAt now git_sha fs proposal pre fs' res h hpaths hlok
  obtain ⟨rows, entryRows, st1, recs, written0, committed, skipped, st2,
    written, st3, moved, st6, hcr, hany, her, hap, hls, hml, h6, hfs',
    hrespid, hrescom, hresskip⟩ :=
    commit_ok_inv failAt now git_sha fs proposal pre fs' res h
  have hframe : ∀ p : String, ¬ p = entriesPath →
      (∀ item ∈ proposal.items,
        (¬ item.target_entry_path = p) ∧
        (∀ sp, item.target_summary_path = some sp → ¬ sp = p) ∧
        (¬ item.source_stage_path = p)) →
      (∀ x, ¬ p = "stage/processed/" ++ x) →
      FS.get st6.fs p = FS.get fs p := by
    intro p hpe hitems hproc
    exact commit_stages_get failAt now proposal.proposal_id proposal.items
      (entryRows.filterMap hashOfRow) { fs := fs, tick := 0 } st1 recs
      written0 committed skipped st2 written st3 st6 moved hap hls hml h6 p
      (fun item hi => ⟨fun he => (hitems item hi).1 he.symm,
        fun sp hsp he => (hitems item hi).2.1 sp hsp he.symm⟩)
      (fun item hi he => (hitems item hi).2.2 he.symm)
      hproc hpe
  have hgetc : FS.get st6.fs commitsPath = FS.get fs commitsPath := by
    refine hframe commitsPath (by decide) ?_ commitsPath_not_processed
    intro item hi
    exact ⟨(hpaths item hi).1.2.2, fun sp hsp => (hpaths item hi).2.1 sp
      hsp |>.2.2, (hpaths item hi).2.2.2.2⟩
  have hgetg : FS.get st6.fs ".git" = FS.get fs ".git" := by
    refine hframe ".git" (by decide) ?_ dotgit_not_processed
    intro item hi
    exact ⟨(hpaths item hi).1.1, fun sp hsp => (hpaths item hi).2.1 sp
      hsp |>.1, (hpaths item hi).2.2.1⟩
  have hread6 : read_jsonl st6.fs commitsPath = some rows := by
    rw [read_jsonl_congr st6.fs fs commitsPath hgetc]
    exact hcr
  have hlok6 : ledgerOk st6.fs commitsPath :=
    ledgerOk_congr st6.fs fs commitsPath hgetc hlok
  have hrt := append_roundtrip_aux st6.fs commitsPath
    [commitRecord proposal.proposal_id now git_sha committed skipped
      ((proposal.items.filter (fun i => i.status = "invalid")).length)]
    rows
    (by
      intro r hr
      simp only [List.mem_singleton] at hr
      rw [hr]
      exact commitRecord_wf _ _ _ _ _ _)
    hlok6 hread6
  have hread' : read_jsonl fs' commitsPath = some (rows ++
      [commitRecord proposal.proposal_id now git_sha committed skipped
        ((proposal.items.filter (fun i => i.status = "invalid")).length)]) := by
    rw [hfs']
    exact hrt.2
  have hfilter : ∀ r ∈ rows, ¬ (rowHasPid r proposal.proposal_id = true) := by
    intro r hr
    have := List.any_eq_false.mp hany
    exact this r hr
  refine ⟨rows, hcr, hany, ?_, ?_, ?_⟩
  · rw [hrescom, hresskip]
    exact hread'
  · rw [hrescom, hresskip]
    rw [List.filter_append]
    rw [List.filter_eq_nil_iff.mpr hfilter]
    simp [commitRecord_pid]
  · intro failAt2 now2 git_sha2 pre2
    have hgit' : ¬ FS.get fs' ".git" = none := by
      rw [hfs', append_get_ne st6.fs commitsPath _ ".git" (by decide), hgetg]
      exact commit_ok_git failAt now git_sha fs proposal pre fs' res h
    refine commit_already_error failAt2 now2 git_sha2 fs' proposal pre2
      (rows ++ [commitRecord proposal.proposal_id now git_sha committed
        skipped ((proposal.items.filter
          (fun i => i.status = "invalid")).length)])
      hgit' hread' ?_
    rw [List.any_append]
    simp [commitRecord_pid]

set_option maxRecDepth 10000 in
/-- Concrete instance of the already-committed guard. -/
theorem commit_idempotent_witness :
    commit_proposal none "N" "S"
      [(".git", ""), (commitsPath, "\x7b\"proposal_id\": \"p1\"\x7d\n")]
      { proposal_id := "p1", created_at := "t", items := [] } "memo:" =
      .error (.runtime ("Proposal " ++ "p1" ++ " was already committed"),
        [(".git", ""), (commitsPath, "\x7b\"proposal_id\": \"p1\"\x7d\n")]) :=
  commit_idempotent_spec.1 none "N" "S" _ _ "memo:"
    [jobj [("proposal_id", jstr "p1")]] (by decide) rfl (by decide)

/-- C6: during a successful commit every ready item — committed or skipped as
a duplicate — has its staged source moved; a single move fails with
`NotFoundError` when the source is gone, and otherwise relocates the file to
a fresh processed name `<proposal_id>_<name>` (or `<proposal_id>_<counter>_
<name>` on collision), never overwriting an existing processed file. -/
theorem move_to_processed_spec :
    (∀ (failAt : Option Nat) (st : St) (src pid : String),
      FS.get st.fs src = none →
      move_stage_to_processed failAt st src pid =
        .error (.notFound ("Cannot move missing staged file: " ++ src), st)) ∧
    (∀ (failAt : Option Nat) (st : St) (src pid : String) (st1 : St)
      (dest : String),
      move_stage_to_processed failAt st src pid = .ok (st1, dest) →
      FS.get st.fs dest = none ∧
      (dest = processedFirst pid (baseName src) ∨
        ∃ k, 1 ≤ k ∧ dest = processedCand pid (baseName src) k) ∧
      ∃ content, FS.get st.fs src = some content ∧
        st1.fs = FS.set (FS.del st.fs src) dest content) ∧
    (∀ (failAt : Option Nat) (now git_sha : String) (fs : FS)
      (proposal : Proposal) (pre : String) (fs' : FS) (res : CommitResult),
      commit_proposal failAt now git_sha fs proposal pre = .ok (fs', res) →
      ∃ (st2 st3 : St) (moved : List (String × String)),
        moveLoop failAt st2 proposal.proposal_id proposal.items =
          .ok (st3, moved) ∧
        moved.map Prod.snd =
          (proposal.items.filter (fun i => i.status = "ready")).map
            (fun i => i.source_stage_path)) := by
  refine ⟨move_notFound, ?_, ?_⟩
  · intro failAt st src pid st1 dest h
    obtain ⟨content, hgc, hdest, hfree, hfs1⟩ :=
      move_ok failAt st src pid st1 dest h
    refine ⟨hfree, ?_, content, hgc, hfs1⟩
    rcases (freshDest_spec st.fs pid (baseName src)).2 with hsh | ⟨k, hk, hsh⟩
    · exact Or.inl (hdest.trans hsh)
    · exact Or.inr ⟨k, hk, hdest.trans hsh⟩
  · intro failAt now git_sha fs proposal pre fs' res h
    obtain ⟨_, _, _, _, _, _, _, st2, _, st3, moved, _, _, _, _, _, _, hml,
      _, _, _, _, _⟩ := commit_ok_inv failAt now git_sha fs proposal pre fs'
        res h
    exact ⟨st2, st3, moved, hml,
      moveLoop_sources failAt proposal.proposal_id proposal.items st2 st3
        moved hml⟩

/-- Concrete instances of the staged-file move behaviour. -/
theorem move_to_processed_witness :
    move_stage_to_processed none { fs := [(".git", "")], tick := 0 }
      "stage/inbox/x.md" "p" =
      .error (.notFound ("Cannot move missing staged file: " ++
        "stage/inbox/x.md"), { fs := [(".git", "")], tick := 0 }) ∧
    (FS.get ([("stage/inbox/a.md", "A")] : FS) "stage/processed/p_a.md" =
      none ∧
    ("stage/processed/p_a.md" = processedFirst "p"
        (baseName "stage/inbox/a.md") ∨
      ∃ k, 1 ≤ k ∧ "stage/processed/p_a.md" = processedCand "p"
        (baseName "stage/inbox/a.md") k) ∧
    ∃ content, FS.get ([("stage/inbox/a.md", "A")] : FS) "stage/inbox/a.md" =
        some content ∧
      ({ fs := [("stage/processed/p_a.md", "A")], tick := 1 } : St).fs =
        FS.set (FS.del [("stage/inbox/a.md", "A")] "stage/inbox/a.md")
          "stage/processed/p_a.md" content) :=
  ⟨move_to_processed_spec.1 none ⟨[(".git", "")], 0⟩
      "stage/inbox/x.md" "p" rfl,
   move_to_processed_spec.2.1 none ⟨[("stage/inbox/a.md", "A")], 0⟩
      "stage/inbox/a.md" "p" ⟨[("stage/processed/p_a.md", "A")], 1⟩
      "stage/processed/p_a.md" rfl⟩

/-- A minimal ready proposal item used to exhibit the rollback gap. -/
def bugItem (eid src h : String) : ProposalItem :=
  { entry_id := eid, source_stage_path := src, content_hash := h,
    created_at := "2024-01-01T00:00:00+00:00", body := "Body " ++ eid,
    frontmatter := [], warnings := [],
    classification :=
      { category := "todo", confidence := (9, 1), tags := [],
        reasoning := "" },
    summary := none,
    target_entry_path := target_entry_relative_path eid "todo",
    target_summary_path := none, status := "ready", invalid_reason := none }

/-- A pre-commit state with a git repository and two staged files. -/
def bugFs : FS :=
  [(".git", ""), ("stage/inbox/a.md", "A\n"), ("stage/inbox/b.md", "B\n")]

/-- A proposal with two ready items. -/
def bugProposal : Proposal :=
  { proposal_id := "p1", created_at := "t",
    items := [bugItem "e1" "stage/inbox/a.md" "h1",
              bugItem "e2" "stage/inbox/b.md" "h2"] }

set_option maxRecDepth 10000 in
/-- C1: the rollback after a failure inside step 3 does NOT restore the
pre-commit state.  When the write of the second entry file raises, Python
never executes the tuple assignment of line 64, so `written_paths` is still
the empty list bound at line 59 and the except block deletes nothing: the
first entry file written in the same attempt survives the rollback, so the
post-rollback file system differs from the pre-commit one.  Here the vault
file `vault/todos/e1.md` is absent before the commit and still present after
the failed commit returns. -/
theorem commit_rollback_leftover :
    FS.get bugFs "vault/todos/e1.md" = none ∧
    ∃ fsAfter,
      commit_proposal (some 1) "NOW" "SHA" bugFs bugProposal "memo:" =
        .error (.io, fsAfter) ∧
      ¬ FS.get fsAfter "vault/todos/e1.md" = none :=
  ⟨rfl, _, rfl, by decide⟩

theorem wfElems_map_jstr (l : List String) : wfElems (l.map jstr) = true := by
  induction l with
  | nil => rfl
  | cons a t ih => simp [wfElems, JVal.wf, ih]

theorem entryRecord_wf (item : ProposalItem) (pid : String)
    (sp : Option String) (now : String) :
    JVal.wf (entryRecord item pid sp now) = true := by
  cases sp <;>
    simp [entryRecord, JVal.wf, wfMembers, wfElems_map_jstr]

theorem entryRecord_hash (item : ProposalItem) (pid : String)
    (sp : Option String) (now : String) (h : ¬ item.content_hash = "") :
    hashOfRow (entryRecord item pid sp now) = some item.content_hash := by
  cases sp <;>
    simp [entryRecord, hashOfRow, rowGet, objGet, jTruthy, pyStr, h]

theorem entryRecord_get (item : ProposalItem) (pid : String)
    (sp : Option String) (now : String) :
    rowGet (entryRecord item pid sp now) "entry_path" =
      some (jstr item.target_entry_path) ∧
    rowGet (entryRecord item pid sp now) "source_stage_path" =
      some (jstr item.source_stage_path) := by
  cases sp <;> simp [entryRecord, rowGet, objGet]

/-- Dedup behaviour of a successful `apply_proposal_to_vault` run: the new
records carry pairwise distinct hashes none of which was already known, one
record per committed item, and committed plus skipped accounts for every
ready item. -/
theorem apply_ok_records (failAt : Option Nat) (now pid : String) :
    ∀ (items : List ProposalItem) (st : St) (existing : List String)
      (st' : St) (recs : List JVal) (written : List String)
      (committed skipped : Nat),
    apply_proposal_to_vault failAt now st pid items existing =
      .ok (st', recs, written, committed, skipped) →
    (∀ item ∈ items, item.status = "ready" → ¬ item.content_hash = "") →
    (recs.filterMap hashOfRow).Nodup ∧
    (∀ h ∈ recs.filterMap hashOfRow, ¬ h ∈ existing) ∧
    committed = recs.length ∧
    committed + skipped =
      (items.filter (fun i => i.status = "ready")).length ∧
    (∀ r ∈ recs, ∃ item ∈ items, item.status = "ready" ∧
      ∃ sp, r = entryRecord item pid sp now) := by
  intro items
  induction items with
  | nil =>
    intro st existing st' recs written committed skipped h _
    unfold apply_proposal_to_vault at h
    injection h with h
    injection h with h1 h2
    injection h2 with h2 h3
    injection h3 with h3 h4
    injection h4 with h4 h5
    rw [← h2, ← h4, ← h5]
    simp
  | cons item rest ih =>
    intro st existing st' recs written committed skipped h hne
    have hnerest : ∀ it ∈ rest, it.status = "ready" →
        ¬ it.content_hash = "" :=
      fun it hit => hne it (by simp [hit])
    unfold apply_proposal_to_vault at h
    by_cases hst : item.status ≠ "ready"
    · rw [if_pos hst] at h
      obtain ⟨hnd, hdis, hcl, hcount, hmem⟩ :=
        ih st existing st' recs written committed skipped h hnerest
      refine ⟨hnd, hdis, hcl, ?_, ?_⟩
      · rw [List.filter_cons_of_neg (by simpa using hst)]
        exact hcount
      · intro r hr
        obtain ⟨it, hit, hr2, sp, hr3⟩ := hmem r hr
        exact ⟨it, by simp [hit], hr2, sp, hr3⟩
    rw [if_neg hst] at h
    push_neg at hst
    by_cases hdup : item.content_hash ∈ existing
    · rw [if_pos hdup] at h
      cases hrec : apply_proposal_to_vault failAt now st pid rest existing with
      | error e =>
        rw [hrec] at h
        exact absurd h (by simp)
      | ok out =>
      obtain ⟨sta, recsa, writtena, committeda, skippeda⟩ := out
      rw [hrec] at h
      simp only [] at h
      injection h with h
      injection h with h1 h2
      injection h2 with h2 h3
      injection h3 with h3 h4
      injection h4 with h4 h5
      obtain ⟨hnd, hdis, hcl, hcount, hmem⟩ :=
        ih st existing sta recsa writtena committeda skippeda hrec hnerest
      rw [← h2, ← h4, ← h5]
      refine ⟨hnd, hdis, hcl, ?_, ?_⟩
      · rw [List.filter_cons_of_pos (by simpa using hst)]
        simp only [List.length_cons]
        omega
      · intro r hr
        obtain ⟨it, hit, hr2, sp, hr3⟩ := hmem r hr
        exact ⟨it, by simp [hit], hr2, sp, hr3⟩
    rw [if_neg hdup] at h
    cases hw : wPrim failAt st (fun f => FS.set f item.target_entry_path
        (render_entry_markdown item pid)) with
    | error e =>
      rw [hw] at h
      exact absurd h (by simp)
    | ok st1 =>
    rw [hw] at h
    simp only [] at h
    cases hss : summaryStep failAt st1 item with
    | error e =>
      rw [hss] at h
      exact absurd h (by simp)
    | ok out =>
    obtain ⟨st2, writtenHere, summary_path⟩ := out
    rw [hss] at h
    simp only [] at h
    cases hrec : apply_proposal_to_vault failAt now st2 pid rest
        (item.content_hash :: existing) with
    | error e =>
      rw [hrec] at h
      exact absurd h (by simp)
    | ok out2 =>
    obtain ⟨sta, recsa, writtena, committeda, skippeda⟩ := out2
    rw [hrec] at h
    simp only [] at h
    injection h with h
    injection h with h1 h2
    injection h2 with h2 h3
    injection h3 with h3 h4
    injection h4 with h4 h5
    obtain ⟨hnd, hdis, hcl, hcount, hmem⟩ :=
      ih st2 (item.content_hash :: existing) sta recsa writtena committeda
        skippeda hrec hnerest
    have hhash : hashOfRow (entryRecord item pid summary_path now) =
        some item.content_hash :=
      entryRecord_hash item pid summary_path now (hne item (by simp) hst)
    rw [← h2, ← h4, ← h5]
    have hfm : (entryRecord item pid summary_path now :: recsa).filterMap
        hashOfRow = item.content_hash :: recsa.filterMap hashOfRow := by
      simp [List.filterMap_cons, hhash]
    refine ⟨?_, ?_, ?_, ?_, ?_⟩
    · rw [hfm]
      refine List.Nodup.cons ?_ hnd
      intro hmemh
      exact hdis item.content_hash hmemh (by simp)
    · rw [hfm]
      intro h2 hh2
      rcases List.mem_cons.mp hh2 with rfl | hh2
      · exact hdup
      · intro hin
        exact hdis h2 hh2 (by simp [hin])
    · simp only [List.length_cons]
      omega
    · rw [List.filter_cons_of_pos (by simpa using hst)]
      simp only [List.length_cons]
      omega
    · intro r hr
      rcases List.mem_cons.mp hr with rfl | hr
      · exact ⟨item, by simp, hst, summary_path, rfl⟩
      · obtain ⟨it, hit, hr2, sp, hr3⟩ := hmem r hr
        exact ⟨it, by simp [hit], hr2, sp, hr3⟩

theorem entriesPath_not_processed (x : String) :
    ¬ entriesPath = "stage/processed/" ++ x := by
  apply string_ne_of_head _ _ 'v' 's' _ _ rfl
  · rfl
  · decide

/-- C3: the dedup key is global: a successful commit appends records whose
content hashes are pairwise distinct and disjoint from every hash already in
the entries ledger, each committed item yields exactly one record, skipped
duplicates account for the remaining ready items, and hash uniqueness of the
ledger is preserved. -/
theorem content_hash_unique_spec :
    (∀ (failAt : Option Nat) (now pid : String) (items : List ProposalItem)
      (st : St) (existing : List String) (st' : St) (recs : List JVal)
      (written : List String) (committed skipped : Nat),
      apply_proposal_to_vault failAt now st pid items existing =
        .ok (st', recs, written, committed, skipped) →
      (∀ item ∈ items, item.status = "ready" → ¬ item.content_hash = "") →
      (recs.filterMap hashOfRow).Nodup ∧
      (∀ h ∈ recs.filterMap hashOfRow, ¬ h ∈ existing) ∧
      committed = recs.length ∧
      committed + skipped =
        (items.filter (fun i => i.status = "ready")).length ∧
      (∀ r ∈ recs, ∃ item ∈ items, item.status = "ready" ∧
        ∃ sp, r = entryRecord item pid sp now)) ∧
    (∀ (failAt : Option Nat) (now git_sha : String) (fs : FS)
      (proposal : Proposal) (pre : String) (fs' : FS) (res : CommitResult),
      commit_proposal failAt now git_sha fs proposal pre = .ok (fs', res) →
      proposalPathsOk proposal →
      ledgerOk fs entriesPath →
      (∀ item ∈ proposal.items, item.status = "ready" →
        ¬ item.content_hash = "") →
      ∃ entryRows recs,
        read_jsonl fs entriesPath = some entryRows ∧
        read_jsonl fs' entriesPath = some (entryRows ++ recs) ∧
        res.committed_entries = recs.length ∧
        res.committed_entries + res.skipped_duplicates =
          (proposal.items.filter (fun i => i.status = "ready")).length ∧
        (recs.filterMap hashOfRow).Nodup ∧
        (∀ h ∈ recs.filterMap hashOfRow,
          ¬ h ∈ entryRows.filterMap hashOfRow) ∧
        ((entryRows.filterMap hashOfRow).Nodup →
          ((entryRows ++ recs).filterMap hashOfRow).Nodup)) := by
  constructor
  · intro failAt now pid items st existing st' recs written committed skipped
      h hne
    exact apply_ok_records failAt now pid items st existing st' recs written
      committed skipped h hne
  intro failAt now git_sha fs proposal pre fs' res h hpaths hlok hne
  obtain ⟨rows, entryRows, st1, recs, written0, committed, skipped, st2,
    written, st3, moved, st6, hcr, hany, her, hap, hls, hml, h6, hfs',
    hrespid, hrescom, hresskip⟩ :=
    commit_ok_inv failAt now git_sha fs proposal pre fs' res h
  obtain ⟨hnd, hdis, hcl, hcount, hmem⟩ :=
    apply_ok_records failAt now proposal.proposal_id proposal.items
      { fs := fs, tick := 0 } (entryRows.filterMap hashOfRow) st1 recs
      written0 committed skipped hap hne
  have hget1 : FS.get st1.fs entriesPath = FS.get fs entriesPath :=
    apply_frame failAt now proposal.proposal_id proposal.items
      { fs := fs, tick := 0 } (entryRows.filterMap hashOfRow) st1 recs
      written0 committed skipped hap entriesPath
      (fun item hi _ => ⟨fun he => (hpaths item hi).1.2.1 he.symm,
        fun sp hsp he => ((hpaths item hi).2.1 sp hsp).2.1 he.symm⟩)
  have hread2 : read_jsonl st2.fs entriesPath = some (entryRows ++ recs) := by
    by_cases hre : recs.isEmpty
    · rw [if_pos hre] at hls
      rw [hls.1, read_jsonl_congr st1.fs fs entriesPath hget1, her,
        List.isEmpty_iff.mp hre, List.append_nil]
    · rw [if_neg hre] at hls
      rw [hls.1]
      exact (append_roundtrip_aux st1.fs entriesPath recs entryRows
        (fun r hr => by
          obtain ⟨item, _, _, sp, hsp⟩ := hmem r hr
          rw [hsp]
          exact entryRecord_wf item proposal.proposal_id sp now)
        (ledgerOk_congr st1.fs fs entriesPath hget1 hlok)
        (by rw [read_jsonl_congr st1.fs fs entriesPath hget1]; exact her)).2
  have hget3 : FS.get st3.fs entriesPath = FS.get st2.fs entriesPath :=
    moveLoop_frame failAt proposal.proposal_id proposal.items st2 st3 moved
      hml entriesPath
      (fun item hi _ he => (hpaths item hi).2.2.2.1 he.symm)
      entriesPath_not_processed
  have hread' : read_jsonl fs' entriesPath = some (entryRows ++ recs) := by
    rw [hfs', read_jsonl_congr _ st2.fs entriesPath ?_]
    · exact hread2
    · rw [append_get_ne st6.fs commitsPath _ entriesPath (by decide), h6,
        hget3]
  refine ⟨entryRows, recs, her, hread', by rw [hrescom]; exact hcl,
    by rw [hrescom, hresskip]; exact hcount, hnd, hdis, ?_⟩
  intro hondup
  rw [List.filterMap_append]
  rw [List.nodup_append]
  exact ⟨hondup, hnd, fun a ha hb => hdis a hb ha⟩

/-- A ready proposal item for the dedup witness. -/
def witItem : ProposalItem :=
  { entry_id := "e9", source_stage_path := "stage/inbox/z.md",
    content_hash := "h9", created_at := "t", body := "B",
    frontmatter := [], warnings := [],
    classification :=
      { category := "todo", confidence := (9, 1), tags := [],
        reasoning := "" },
    summary := none,
    target_entry_path := target_entry_relative_path "e9" "todo",
    target_summary_path := none, status := "ready", invalid_reason := none }

set_option maxRecDepth 10000 in
/-- Concrete instance of the dedup bookkeeping. -/
theorem content_hash_unique_witness :
    (([entryRecord witItem "p9" none "NOW"]).filterMap hashOfRow).Nodup ∧
    (∀ h ∈ ([entryRecord witItem "p9" none "NOW"]).filterMap hashOfRow,
      ¬ h ∈ ([] : List String)) ∧
    1 = ([entryRecord witItem "p9" none "NOW"]).length ∧
    1 + 0 = (([witItem]).filter (fun i => i.status = "ready")).length ∧
    (∀ r ∈ [entryRecord witItem "p9" none "NOW"], ∃ item ∈ [witItem],
      item.status = "ready" ∧ ∃ sp, r = entryRecord item "p9" sp "NOW") :=
  content_hash_unique_spec.1 none "NOW" "p9" [witItem] ⟨[], 0⟩ [] _ _ _ 1 0
    rfl (by decide)

theorem dropWhile_head_not (p : Char → Bool) (l : List Char) :
    ∀ c, (l.dropWhile p).head? = some c → p c = false := by
  induction l with
  | nil =>
    intro c hc
    simp at hc
  | cons a t ih =>
    intro c hc
    rw [List.dropWhile_cons] at hc
    by_cases hpa : p a = true
    · rw [if_pos hpa] at hc
      exact ih c hc
    · rw [if_neg hpa] at hc
      injection hc with hc
      rw [← hc]
      exact Bool.eq_false_iff.mpr hpa

theorem stripChars_idem (l : List Char) :
    stripChars (stripChars l) = stripChars l := by
  apply stripChars_id
  · intro c hc
    rw [show stripChars l =
      ((l.dropWhile pyIsSpace).reverse.dropWhile pyIsSpace).reverse
      from rfl, List.head?_reverse] at hc
    obtain ⟨u, hu⟩ : (l.dropWhile pyIsSpace).reverse.dropWhile pyIsSpace <:+
        (l.dropWhile pyIsSpace).reverse := List.dropWhile_suffix pyIsSpace
    by_cases hm : (l.dropWhile pyIsSpace).reverse.dropWhile pyIsSpace = []
    · rw [hm] at hc
      simp at hc
    · have h2 : (u ++ (l.dropWhile pyIsSpace).reverse.dropWhile
          pyIsSpace).getLast? = some c := by
        rw [List.getLast?_append_of_ne_nil u hm]
        exact hc
      rw [hu, List.getLast?_reverse] at h2
      exact dropWhile_head_not pyIsSpace l c h2
  · intro c hc
    rw [show stripChars l =
      ((l.dropWhile pyIsSpace).reverse.dropWhile pyIsSpace).reverse
      from rfl] at hc
    rw [← List.head?_reverse, List.reverse_reverse] at hc
    exact dropWhile_head_not pyIsSpace (l.dropWhile pyIsSpace).reverse c hc

theorem pyStrip_idem (s : String) : pyStrip (pyStrip s) = pyStrip s := by
  unfold pyStrip
  rw [show (String.mk (stripChars s.data)).data = stripChars s.data from rfl,
    stripChars_idem]

/-- Lines 39-44 of `proposal.build_proposal`: the status and invalid reason
assigned to one item from its (already stripped) body. -/
def proposal_item_status (body : String) : String × Option String :=
  if pyStrip body = "" then ("invalid", some "empty body")
  else ("ready", none)

theorem mk_eq_empty (l : List Char) : String.mk l = "" ↔ l = [] := by
  constructor
  · intro h
    have := congrArg String.data h
    simpa using this
  · intro h
    rw [h]

theorem status_invalid_iff (body : String) :
    (proposal_item_status body).1 = "invalid" ↔ pyStrip body = "" := by
  unfold proposal_item_status
  by_cases h : pyStrip body = ""
  · simp [h]
  · simp [h]

/-- C4: an item's status is `invalid` exactly when its body is empty or
whitespace-only after frontmatter extraction (with the reason recorded), and
a successful commit neither writes such an item's target file, nor appends a
ledger record for anything but ready items, nor moves the invalid item's
staged source. -/
theorem invalid_items_spec :
    (∀ (p rp t raw : String),
      ((proposal_item_status (load_stage_item p rp t raw).body).1 =
          "invalid" ↔
        stripChars ((_parse_frontmatter raw).2.1).data = []) ∧
      ((proposal_item_status (load_stage_item p rp t raw).body).1 =
          "invalid" →
        (proposal_item_status (load_stage_item p rp t raw).body).2 =
          some "empty body") ∧
      (¬ (proposal_item_status (load_stage_item p rp t raw).body).1 =
          "invalid" →
        (proposal_item_status (load_stage_item p rp t raw).body).1 =
          "ready" ∧
        (proposal_item_status (load_stage_item p rp t raw).body).2 = none)) ∧
    (∀ (failAt : Option Nat) (now git_sha : String) (fs : FS)
      (proposal : Proposal) (pre : String) (fs' : FS) (res : CommitResult)
      (inv_item : ProposalItem),
      commit_proposal failAt now git_sha fs proposal pre = .ok (fs', res) →
      proposalPathsOk proposal →
      inv_item ∈ proposal.items →
      inv_item.status = "invalid" →
      (∀ item ∈ proposal.items, item.status = "ready" →
        ¬ inv_item.target_entry_path = item.target_entry_path ∧
        (∀ sp, item.target_summary_path = some sp →
          ¬ inv_item.target_entry_path = sp) ∧
        ¬ inv_item.target_entry_path = item.source_stage_path ∧
        ¬ inv_item.source_stage_path = item.source_stage_path) →
      (∀ x, ¬ inv_item.target_entry_path = "stage/processed/" ++ x) →
      FS.get fs' inv_item.target_entry_path =
        FS.get fs inv_item.target_entry_path ∧
      (∀ (st2 st3 : St) (moved : List (String × String)),
        moveLoop failAt st2 proposal.proposal_id proposal.items =
          .ok (st3, moved) →
        ¬ inv_item.source_stage_path ∈ moved.map Prod.snd) ∧
      (ledgerOk fs entriesPath →
        (∀ item ∈ proposal.items, item.status = "ready" →
          ¬ item.content_hash = "") →
        ∃ entryRows recs,
          read_jsonl fs entriesPath = some entryRows ∧
          read_jsonl fs' entriesPath = some (entryRows ++ recs) ∧
          ∀ r ∈ recs,
            ¬ rowGet r "entry_path" =
              some (jstr inv_item.target_entry_path) ∧
            ¬ rowGet r "source_stage_path" =
              some (jstr inv_item.source_stage_path))) := by
  constructor
  · intro p rp t raw
    have hbody : (load_stage_item p rp t raw).body =
        pyStrip (_parse_frontmatter raw).2.1 := rfl
    refine ⟨?_, ?_, ?_⟩
    · rw [status_invalid_iff, hbody, pyStrip_idem]
      rw [show pyStrip (_parse_frontmatter raw).2.1 =
        String.mk (stripChars ((_parse_frontmatter raw).2.1).data) from rfl]
      exact mk_eq_empty _
    · intro h
      rw [status_invalid_iff] at h
      unfold proposal_item_status
      rw [if_pos h]
    · intro h
      rw [status_invalid_iff] at h
      unfold proposal_item_status
      rw [if_neg h]
      exact ⟨rfl, rfl⟩
  intro failAt now git_sha fs proposal pre fs' res inv_item h hpaths hmem
    hinv hdist hproc
  obtain ⟨rows, entryRows, st1, recs, written0, committed, skipped, st2,
    written, st3, moved, st6, hcr, hany, her, hap, hls, hml, h6, hfs',
    hrespid, hrescom, hresskip⟩ :=
    commit_ok_inv failAt now git_sha fs proposal pre fs' res h
  refine ⟨?_, ?_, ?_⟩
  · have hpe : ¬ inv_item.target_entry_path = entriesPath :=
      (hpaths inv_item hmem).1.2.1
    have hpc : ¬ inv_item.target_entry_path = commitsPath :=
      (hpaths inv_item hmem).1.2.2
    have hstage : FS.get st6.fs inv_item.target_entry_path =
        FS.get fs inv_item.target_entry_path := by
      have h1 : FS.get st1.fs inv_item.target_entry_path =
          FS.get fs inv_item.target_entry_path :=
        apply_frame failAt now proposal.proposal_id proposal.items
          { fs := fs, tick := 0 } (entryRows.filterMap hashOfRow) st1 recs
          written0 committed skipped hap inv_item.target_entry_path
          (fun item hi hst => ⟨(hdist item hi hst).1,
            (hdist item hi hst).2.1⟩)
      have h2 : FS.get st2.fs inv_item.target_entry_path =
          FS.get st1.fs inv_item.target_entry_path := by
        by_cases hre : recs.isEmpty
        · rw [if_pos hre] at hls
          rw [hls.1]
        · rw [if_neg hre] at hls
          rw [hls.1]
          exact append_get_ne st1.fs entriesPath recs _ hpe
      have h3 : FS.get st3.fs inv_item.target_entry_path =
          FS.get st2.fs inv_item.target_entry_path :=
        moveLoop_frame failAt proposal.proposal_id proposal.items st2 st3
          moved hml inv_item.target_entry_path
          (fun item hi hst => (hdist item hi hst).2.2.1) hproc
      rw [h6, h3, h2, h1]
    rw [hfs', append_get_ne st6.fs commitsPath _ _ hpc, hstage]
  · intro st2' st3' moved' hml'
    rw [moveLoop_sources failAt proposal.proposal_id proposal.items st2'
      st3' moved' hml']
    intro hin
    simp only [List.mem_map, List.mem_filter] at hin
    obtain ⟨item, ⟨hitem, hready⟩, heq⟩ := hin
    exact (hdist item hitem (by simpa using hready)).2.2.2 heq.symm
  · intro hlok hne
    obtain ⟨hnd, hdis, hcl, hcount, hmem⟩ :=
      apply_ok_records failAt now proposal.proposal_id proposal.items
        { fs := fs, tick := 0 } (entryRows.filterMap hashOfRow) st1 recs
        written0 committed skipped hap hne
    have hget1 : FS.get st1.fs entriesPath = FS.get fs entriesPath :=
      apply_frame failAt now proposal.proposal_id proposal.items
        { fs := fs, tick := 0 } (entryRows.filterMap hashOfRow) st1 recs
        written0 committed skipped hap entriesPath
        (fun item hi _ => ⟨fun he => (hpaths item hi).1.2.1 he.symm,
          fun sp hsp he => ((hpaths item hi).2.1 sp hsp).2.1 he.symm⟩)
    have hread2 : read_jsonl st2.fs entriesPath =
        some (entryRows ++ recs) := by
      by_cases hre : recs.isEmpty
      · rw [if_pos hre] at hls
        rw [hls.1, read_jsonl_congr st1.fs fs entriesPath hget1, her,
          List.isEmpty_iff.mp hre, List.append_nil]
      · rw [if_neg hre] at hls
        rw [hls.1]
        exact (append_roundtrip_aux st1.fs entriesPath recs entryRows
          (fun r hr => by
            obtain ⟨item, _, _, sp, hsp⟩ := hmem r hr
            rw [hsp]
            exact entryRecord_wf item proposal.proposal_id sp now)
          (ledgerOk_congr st1.fs fs entriesPath hget1 hlok)
          (by rw [read_jsonl_congr st1.fs fs entriesPath hget1]
              exact her)).2
    have hget3 : FS.get st3.fs entriesPath = FS.get st2.fs entriesPath :=
      moveLoop_frame failAt proposal.proposal_id proposal.items st2 st3
        moved hml entriesPath
        (fun item hi _ he => (hpaths item hi).2.2.2.1 he.symm)
        entriesPath_not_processed
    have hread3 : read_jsonl fs' entriesPath =
        some (entryRows ++ recs) := by
      rw [hfs', read_jsonl_congr _ st2.fs entriesPath ?_]
      · exact hread2
      · rw [append_get_ne st6.fs commitsPath _ entriesPath (by decide), h6,
          hget3]
    refine ⟨entryRows, recs, her, hread3, ?_⟩
    intro r hr
    obtain ⟨item, hitem, hready, sp, hsp⟩ := hmem r hr
    have hd := hdist item hitem hready
    rw [hsp]
    obtain ⟨hg1, hg2⟩ := entryRecord_get item proposal.proposal_id sp now
    constructor
    · rw [hg1]
      intro he
      injection he with he1
      injection he1 with he2
      exact hd.1 he2.symm
    · rw [hg2]
      intro he
      injection he with he1
      injection he1 with he2
      exact hd.2.2.2 he2.symm

/-- A ready and an invalid item in one proposal, for the invalid-item
witness. -/
def invItemW : ProposalItem :=
  { entry_id := "ei", source_stage_path := "stage/inbox/i.md",
    content_hash := "hi", created_at := "t", body := "  ",
    frontmatter := [], warnings := [],
    classification :=
      { category := "todo", confidence := (1, 1), tags := [],
        reasoning := "" },
    summary := none,
    target_entry_path := "vault/todos/ei.md",
    target_summary_path := none, status := "invalid",
    invalid_reason := some "empty body" }

def readyItemW : ProposalItem :=
  { entry_id := "er", source_stage_path := "stage/inbox/a.md",
    content_hash := "hr", created_at := "t", body := "B",
    frontmatter := [], warnings := [],
    classification :=
      { category := "todo", confidence := (9, 1), tags := [],
        reasoning := "" },
    summary := none,
    target_entry_path := "vault/todos/er.md",
    target_summary_path := none, status := "ready",
    invalid_reason := none }

def invFs : FS := [(".git", ""), ("stage/inbox/a.md", "A\n")]

def invProp : Proposal :=
  { proposal_id := "p2", created_at := "t",
    items := [readyItemW, invItemW] }

def invFsAfter : FS :=
  match commit_proposal none "NOW" "SHA" invFs invProp "memo:" with
  | .ok (f, _) => f
  | _ => []

def invResAfter : CommitResult :=
  match commit_proposal none "NOW" "SHA" invFs invProp "memo:" with
  | .ok (_, r) => r
  | _ => { proposal_id := "", git_sha := "", committed_entries := 0,
           skipped_duplicates := 0, invalid_entries := 0, message := "" }

set_option maxRecDepth 40000 in
/-- Concrete instances of the invalid-item guarantees. -/
theorem invalid_items_witness :
    ((proposal_item_status
        (load_stage_item "/a" "s" "t" "note body").body).1 = "ready" ∧
      (proposal_item_status
        (load_stage_item "/a" "s" "t" "note body").body).2 = none) ∧
    FS.get invFsAfter invItemW.target_entry_path =
      FS.get invFs invItemW.target_entry_path ∧
    (∀ (st2 st3 : St) (moved : List (String × String)),
      moveLoop none st2 invProp.proposal_id invProp.items =
        .ok (st3, moved) →
      ¬ invItemW.source_stage_path ∈ moved.map Prod.snd) ∧
    (∃ entryRows recs,
      read_jsonl invFs entriesPath = some entryRows ∧
      read_jsonl invFsAfter entriesPath = some (entryRows ++ recs) ∧
      ∀ r ∈ recs,
        ¬ rowGet r "entry_path" = some (jstr invItemW.target_entry_path) ∧
        ¬ rowGet r "source_stage_path" =
          some (jstr invItemW.source_stage_path)) := by
  have app := invalid_items_spec.2 none "NOW" "SHA" invFs invProp "memo:"
    invFsAfter invResAfter invItemW rfl
    (by
      intro item hi
      rcases List.mem_cons.mp hi with rfl | hi2
      · exact ⟨by decide, (fun sp hsp => nomatch hsp), by decide⟩
      rcases List.mem_cons.mp hi2 with rfl | hi3
      · exact ⟨by decide, (fun sp hsp => nomatch hsp), by decide⟩
      · exact absurd hi3 (List.not_mem_nil _))
    (by decide) (by decide)
    (by
      intro item hi hready
      rcases List.mem_cons.mp hi with rfl | hi2
      · exact ⟨by decide, (fun sp hsp => nomatch hsp), by decide, by decide⟩
      rcases List.mem_cons.mp hi2 with rfl | hi3
      · exact absurd hready (by decide)
      · exact absurd hi3 (List.not_mem_nil _))
    (fun x => string_ne_of_head _ _ 'v' 's' _ _ rfl rfl (by decide))
  exact ⟨(invalid_items_spec.1 "/a" "s" "t" "note body").2.2 (by decide),
    app.1, app.2.1,
    app.2.2 (fun c hc => nomatch hc) (by decide)⟩

/-! ## The proposal store (`proposal.latest_proposal_id`) -/

/-- Python string `<`: code-point lexicographic order (also the order of
`sorted` on the equal-directory `Path` objects the store compares). -/
def pyStrLt : List Char → List Char → Bool
  | [], [] => false
  | [], _ :: _ => true
  | _ :: _, [] => false
  | x :: xs, y :: ys =>
    if x.toNat < y.toNat then true
    else if y.toNat < x.toNat then false
    else pyStrLt xs ys

theorem pyStrLt_irrefl : ∀ a, pyStrLt a a = false := by
  intro a
  induction a with
  | nil => rfl
  | cons x xs ih => simp [pyStrLt, ih]

theorem pyStrLt_asymm : ∀ a b, pyStrLt a b = true → pyStrLt b a = false := by
  intro a
  induction a with
  | nil =>
    intro b hb
    cases b with
    | nil => exact absurd hb (by decide)
    | cons y ys => rfl
  | cons x xs ih =>
    intro b hb
    cases b with
    | nil => simp [pyStrLt] at hb
    | cons y ys =>
      simp only [pyStrLt] at hb ⊢
      by_cases hxy : x.toNat < y.toNat
      · rw [if_neg (by omega : ¬ y.toNat < x.toNat), if_pos hxy]
      · by_cases hyx : y.toNat < x.toNat
        · rw [if_neg hxy, if_pos hyx] at hb
          exact absurd hb (by decide)
        · rw [if_neg hxy, if_neg hyx] at hb
          rw [if_neg hyx, if_neg hxy]
          exact ih ys hb

theorem pyStrLe_trans : ∀ a b c, pyStrLt b a = false → pyStrLt c b = false →
    pyStrLt c a = false := by
  intro a
  induction a with
  | nil =>
    intro b c h1 h2
    cases c with
    | nil => rfl
    | cons z zs => rfl
  | cons x xs ih =>
    intro b c h1 h2
    cases b with
    | nil => simp [pyStrLt] at h1
    | cons y ys =>
      cases c with
      | nil => simp [pyStrLt] at h2
      | cons z zs =>
        simp only [pyStrLt] at h1 h2 ⊢
        by_cases hyx : y.toNat < x.toNat
        · rw [if_pos hyx] at h1
          exact absurd h1 (by decide)
        by_cases hzy : z.toNat < y.toNat
        · rw [if_pos hzy] at h2
          exact absurd h2 (by decide)
        have hzx : ¬ z.toNat < x.toNat := by omega
        rw [if_neg hzx]
        by_cases hxz : x.toNat < z.toNat
        · rw [if_pos hxz]
        · have hxy : ¬ x.toNat < y.toNat := by omega
          have hyz : ¬ y.toNat < z.toNat := by omega
          rw [if_neg hyx, if_neg hxy] at h1
          rw [if_neg hzy, if_neg hyz] at h2
          rw [if_neg hxz]
          exact ih ys zs h1 h2

theorem pyStrLt_append_same (s : List Char) : ∀ a b, a.length = b.length →
    pyStrLt (a ++ s) (b ++ s) = pyStrLt a b := by
  intro a
  induction a with
  | nil =>
    intro b hb
    cases b with
    | nil => simp [pyStrLt_irrefl, pyStrLt]
    | cons y ys => simp at hb
  | cons x xs ih =>
    intro b hb
    cases b with
    | nil => simp at hb
    | cons y ys =>
      simp only [List.cons_append, pyStrLt]
      by_cases hxy : x.toNat < y.toNat
      · rw [if_pos hxy, if_pos hxy]
      · rw [if_neg hxy, if_neg hxy]
        by_cases hyx : y.toNat < x.toNat
        · rw [if_pos hyx, if_pos hyx]
        · rw [if_neg hyx, if_neg hyx]
          exact ih ys (by simpa using hb)

/-- The maximum of a list of file names in Python string order (the last
element of `sorted(...)`). -/
def maxName : List String → Option String
  | [] => none
  | n :: rest =>
    match maxName rest with
    | none => some n
    | some m => some (if pyStrLt n.data m.data then m else n)

theorem maxName_spec : ∀ (names : List String) (m : String),
    maxName names = some m →
    m ∈ names ∧ ∀ n ∈ names, pyStrLt m.data n.data = false := by
  intro names
  induction names with
  | nil =>
    intro m hm
    exact absurd hm (by unfold maxName; simp)
  | cons n rest ih =>
    intro m hm
    unfold maxName at hm
    cases hr : maxName rest with
    | none =>
      rw [hr] at hm
      injection hm with hm
      subst hm
      have hrest : rest = [] := by
        cases rest with
        | nil => rfl
        | cons a t =>
          unfold maxName at hr
          cases ht : maxName t <;> rw [ht] at hr <;> simp at hr
      subst hrest
      exact ⟨by simp, by
        intro k hk
        rcases List.mem_cons.mp hk with rfl | hk2
        · exact pyStrLt_irrefl k.data
        · exact absurd hk2 (List.not_mem_nil k)⟩
    | some m2 =>
      rw [hr] at hm
      injection hm with hm
      obtain ⟨hmem2, hall2⟩ := ih m2 hr
      by_cases hlt : pyStrLt n.data m2.data = true
      · rw [if_pos hlt] at hm
        subst hm
        refine ⟨by simp [hmem2], ?_⟩
        intro k hk
        rcases List.mem_cons.mp hk with rfl | hk2
        · exact pyStrLt_asymm k.data m2.data hlt
        · exact hall2 k hk2
      · rw [if_neg hlt] at hm
        subst hm
        refine ⟨by simp, ?_⟩
        intro k hk
        rcases List.mem_cons.mp hk with rfl | hk2
        · exact pyStrLt_irrefl k.data
        · exact pyStrLe_trans k.data m2.data n.data (hall2 k hk2)
            (Bool.eq_false_iff.mpr hlt)

/-- `directory.glob("*.json")` membership: a file of the proposals directory
itself whose name ends in `.json`, returning that name. -/
def isProposalJson (p : String) : Option String :=
  if p.data.take 16 = (".memo/proposals/").data then
    if '/' ∈ p.data.drop 16 then none
    else if 5 ≤ (p.data.drop 16).length ∧
        (p.data.drop 16).drop ((p.data.drop 16).length - 5) =
          (".json").data then
      some (String.mk (p.data.drop 16))
    else none
  else none

/-- `Path.stem`: the file name with its last suffix removed (a name that is
all suffix, such as `.json`, keeps itself). -/
def pathStem (n : String) : String :=
  if n.data.length = 5 then n else String.mk (n.data.take (n.data.length - 5))

/-- `proposal.latest_proposal_id`: the stem of the lexicographically last
saved proposal file, `none` when none exist. -/
def latest_proposal_id (fs : FS) : Option String :=
  match maxName ((fs.map Prod.fst).filterMap isProposalJson) with
  | none => none
  | some n => some (pathStem n)

/-- `proposal.load_latest_proposal`, observed through the id it resolves:
`NotFoundError` when no proposals have been saved. -/
def load_latest_proposal_id (fs : FS) : Except PyErr String :=
  match latest_proposal_id fs with
  | none => .error (.notFound "No proposals found")
  | some pid => .ok pid

theorem isProposalJson_suffix (p n : String) (h : isProposalJson p = some n) :
    5 ≤ n.data.length ∧
    n.data.drop (n.data.length - 5) = (".json").data := by
  unfold isProposalJson at h
  split at h
  · split at h
    · exact absurd h (by simp)
    · split at h
      · injection h with h
        rename_i hcond
        rw [← h]
        exact hcond
      · exact absurd h (by simp)
  · exact absurd h (by simp)

theorem isProposalJson_path (p n : String) (h : isProposalJson p = some n) :
    p = String.mk ((".memo/proposals/").data ++ n.data) := by
  unfold isProposalJson at h
  split at h
  · split at h
    · exact absurd h (by simp)
    · split at h
      · injection h with h
        rename_i h16 _ _
        apply string_eq_of_data
        rw [← h]
        show p.data = (".memo/proposals/").data ++ p.data.drop 16
        rw [← h16, List.take_append_drop]
      · exact absurd h (by simp)
  · exact absurd h (by simp)

theorem pathStem_long (n : String) (L : Nat) (hL : n.data.length = L + 6) :
    (pathStem n).data = n.data.take (L + 1) := by
  unfold pathStem
  rw [if_neg (by omega : ¬ n.data.length = 5)]
  show n.data.take (n.data.length - 5) = n.data.take (L + 1)
  rw [hL]
  rw [show L + 6 - 5 = L + 1 from by omega]

theorem names_decomp (names : List String) (L : Nat)
    (hsrc : ∀ n ∈ names, ∃ p, isProposalJson p = some n)
    (hlen : ∀ n ∈ names, n.data.length = L + 6) :
    ∀ n ∈ names, n.data = (pathStem n).data ++ (".json").data ∧
      (pathStem n).data.length = L + 1 := by
  intro n hn
  obtain ⟨p, hp⟩ := hsrc n hn
  obtain ⟨h5, hsuf⟩ := isProposalJson_suffix p n hp
  have hL := hlen n hn
  rw [pathStem_long n L hL]
  constructor
  · have := List.take_append_drop (L + 1) n.data
    rw [show n.data.length - 5 = L + 1 from by omega] at hsuf
    rw [← hsuf, this]
  · rw [List.length_take, hL]
    omega

/-- C9: `load_latest_proposal` fails with `NotFoundError("No proposals
found")` when no proposal files have been saved; otherwise it resolves the
proposal id that is the stem of some saved proposal file and is greatest in
lexicographic order among all saved proposal ids (the saved ids all have the
same length, as the generator emits a fixed-width timestamp-prefixed id, so
file-name order agrees with id order). -/
theorem load_latest_spec (fs : FS) (L : Nat)
    (hlen : ∀ n ∈ (fs.map Prod.fst).filterMap isProposalJson,
      n.data.length = L + 6) :
    ((fs.map Prod.fst).filterMap isProposalJson = [] →
      load_latest_proposal_id fs = .error (.notFound "No proposals found")) ∧
    (∀ pid, load_latest_proposal_id fs = .ok pid →
      ∃ n ∈ (fs.map Prod.fst).filterMap isProposalJson,
        String.mk ((".memo/proposals/").data ++ n.data) ∈ fs.map Prod.fst ∧
        pathStem n = pid ∧
        ∀ n2 ∈ (fs.map Prod.fst).filterMap isProposalJson,
          pyStrLt pid.data (pathStem n2).data = false) := by
  constructor
  · intro hnil
    unfold load_latest_proposal_id latest_proposal_id
    rw [hnil]
    rfl
  · intro pid hok
    unfold load_latest_proposal_id latest_proposal_id at hok
    cases hm : maxName ((fs.map Prod.fst).filterMap isProposalJson) with
    | none => rw [hm] at hok; exact absurd hok (by simp)
    | some m =>
      rw [hm] at hok
      injection hok with hok
      obtain ⟨hmem, hall⟩ := maxName_spec _ m hm
      have hsrc : ∀ n ∈ (fs.map Prod.fst).filterMap isProposalJson,
          ∃ p, isProposalJson p = some n := by
        intro n hn
        obtain ⟨p, _, hp⟩ := List.mem_filterMap.mp hn
        exact ⟨p, hp⟩
      have hdec := names_decomp _ L hsrc hlen
      refine ⟨m, hmem, ?_, hok, ?_⟩
      · obtain ⟨p, hpmem, hp⟩ := List.mem_filterMap.mp hmem
        rw [← isProposalJson_path p m hp]
        exact hpmem
      · intro n2 hn2
        obtain ⟨hm1, hl1⟩ := hdec m hmem
        obtain ⟨hm2, hl2⟩ := hdec n2 hn2
        have := hall n2 hn2
        rw [hm1, hm2, pyStrLt_append_same _ _ _ (hl1.trans hl2.symm)] at this
        rw [← hok]
        exact this

/-- C9 witness: with no files, load reports `NotFoundError`; with two saved
proposals `a` and `b`, the resolved id is `b`, the stem of a saved file, and
neither saved id exceeds it. -/
theorem load_latest_witness :
    load_latest_proposal_id ([] : FS) =
      .error (.notFound "No proposals found") ∧
    (∃ n ∈ (([((".memo/proposals/a.json" : String), ("x" : String)),
        ((".memo/proposals/b.json" : String), ("y" : String))] :
          FS).map Prod.fst).filterMap isProposalJson,
      String.mk ((".memo/proposals/").data ++ n.data) ∈
        ([((".memo/proposals/a.json" : String), ("x" : String)),
          ((".memo/proposals/b.json" : String), ("y" : String))] :
            FS).map Prod.fst ∧
      pathStem n = "b" ∧
      ∀ n2 ∈ (([((".memo/proposals/a.json" : String), ("x" : String)),
          ((".memo/proposals/b.json" : String), ("y" : String))] :
            FS).map Prod.fst).filterMap isProposalJson,
        pyStrLt ("b" : String).data (pathStem n2).data = false) := by
  constructor
  · exact (load_latest_spec ([] : FS) 0 (by intro n hn; simp at hn)).1 rfl
  · exact (load_latest_spec
      [((".memo/proposals/a.json" : String), ("x" : String)),
       ((".memo/proposals/b.json" : String), ("y" : String))] 0
      (by decide)).2 "b" rfl

/-! ## The classifier (`classify.py`) -/

/-- `config.TaxonomyConfig`. -/
structure TaxonomyConfig where
  core_categories : List String
  allow_custom_tags : Bool
deriving Repr, DecidableEq

/-- `str.lower` on an ASCII character (the classifier keywords and the
witness inputs are ASCII). -/
def pyLowerChar (c : Char) : Char :=
  if 65 ≤ c.toNat ∧ c.toNat ≤ 90 then Char.ofNat (c.toNat + 32) else c

/-- Python `keyword in text`: substring containment. -/
def isSubstr (pat : List Char) : List Char → Bool
  | [] => pat.isEmpty
  | c :: rest => pat.isPrefixOf (c :: rest) || isSubstr pat rest

def TODO_KEYWORDS : List String :=
  ["todo", "to-do", "task", "next", "follow up", "action item", "deadline",
   "due", "must", "need to", "should"]

def IDEA_KEYWORDS : List String :=
  ["idea", "brainstorm", "concept", "proposal", "hypothesis", "what if",
   "could we", "maybe", "experiment"]

def REFERENCE_KEYWORDS : List String :=
  ["reference", "link", "documentation", "doc", "api", "guide", "source",
   "citation", "how-to"]

def LOG_KEYWORDS : List String :=
  ["today", "yesterday", "update", "status", "progress", "retrospective",
   "done", "completed", "blocked"]

/-- `classify._keyword_score`: one point per keyword contained in the text. -/
def _keyword_score (text : List Char) (keywords : List String) : Nat :=
  (keywords.filter (fun k => isSubstr k.data text)).length

def isAlphaCh (c : Char) : Bool :=
  (65 ≤ c.toNat && c.toNat ≤ 90) || (97 ≤ c.toNat && c.toNat ≤ 122)

/-- Regex `\w` on a character. -/
def isWordCh (c : Char) : Bool := isAlphaCh c || isDigit c || c = '_'

/-- `CHECKBOX_RE` matched at one `^` position:
`\s*[-*]\s*\[[ xX]\]` (nothing after a greedy `\s*` is whitespace, so the
greedy skip needs no backtracking). -/
def cbAfter (l : List Char) : Bool :=
  match l.dropWhile pyIsSpace with
  | c :: rest =>
    if c = '-' ∨ c = '*' then
      match rest.dropWhile pyIsSpace with
      | '[' :: d :: ']' :: _ => d = ' ' || d = 'x' || d = 'X'
      | _ => false
    else false
  | [] => false

def cbScanAux : List Char → Bool
  | [] => false
  | c :: rest => (if c = '\n' then cbAfter rest else false) || cbScanAux rest

/-- `CHECKBOX_RE.search` with `re.MULTILINE`: try each start of line. -/
def checkboxSearch (l : List Char) : Bool := cbAfter l || cbScanAux l

/-- `URL_RE.search`: `https?://` anywhere. -/
def urlSearch : List Char → Bool
  | [] => false
  | c :: rest =>
    ("http://").data.isPrefixOf (c :: rest) ||
    ("https://").data.isPrefixOf (c :: rest) || urlSearch rest

/-- `DATE_RE` matched at one position: `\d{4}-\d{2}-\d{2}\b` (the leading
`\b` is the caller's charge). -/
def dateAt : List Char → Bool
  | a :: b :: c :: d :: '-' :: e :: f :: '-' :: g :: h :: rest =>
    isDigit a && isDigit b && isDigit c && isDigit d && isDigit e &&
    isDigit f && isDigit g && isDigit h &&
    (match rest with | [] => true | r :: _ => !isWordCh r)
  | _ => false

def dateScanAux : Option Char → List Char → Bool
  | _, [] => false
  | prev, c :: rest =>
    ((match prev with | none => true | some p => !isWordCh p) &&
      dateAt (c :: rest)) || dateScanAux (some c) rest

/-- `DATE_RE.search`: `\b\d{4}-\d{2}-\d{2}\b` anywhere. -/
def dateSearch (l : List Char) : Bool := dateScanAux none l

/-- `classify._compute_scores`: the four category counts, in the `Counter`'s
insertion order (which `most_common` keeps on ties). -/
def _compute_scores (text : List Char) : List (String × Nat) :=
  let lowered := text.map pyLowerChar
  let ideaS := _keyword_score lowered IDEA_KEYWORDS +
    (if text.contains '?' &&
        (isSubstr ("could").data lowered || isSubstr ("maybe").data lowered ||
          isSubstr ("what if").data lowered) then 1 else 0)
  let todoS := _keyword_score lowered TODO_KEYWORDS +
    (if checkboxSearch text then 3 else 0)
  let refS := _keyword_score lowered REFERENCE_KEYWORDS +
    (if urlSearch text then 2 else 0)
  let logS := _keyword_score lowered LOG_KEYWORDS +
    (if dateSearch text then 1 else 0)
  [("idea", ideaS), ("todo", todoS), ("reference", refS), ("log", logS)]

/-- Stable descending insertion for `Counter.most_common`: an element goes
after every earlier element whose count is at least as large. -/
def insertDesc (x : String × Nat) : List (String × Nat) → List (String × Nat)
  | [] => [x]
  | y :: ys => if y.2 ≤ x.2 then x :: y :: ys else y :: insertDesc x ys

/-- `Counter.most_common()`: counts descending, ties in insertion order. -/
def most_common : List (String × Nat) → List (String × Nat)
  | [] => []
  | x :: xs => insertDesc x (most_common xs)

/-- Python `round(top / max(total, 1), 3)` scaled by 1000: round half to
even on the exact quotient. -/
def pyRound3 (top total : Nat) : Nat :=
  let d := max total 1
  let n := 1000 * top
  let f := n / d
  let r := n % d
  if 2 * r < d then f
  else if d < 2 * r then f + 1
  else if f % 2 = 0 then f else f + 1

/-- A thousandth-scaled value as a shortest-decimal mantissa/exponent pair
(how `repr` shows an exact three-decimal float). -/
def decNormAux : Nat → Int → Nat → Int × Nat
  | 0, m, e => (m, e)
  | fuel + 1, m, e =>
    if e = 0 ∨ ¬ m % 10 = 0 then (m, e) else decNormAux fuel (m / 10) (e - 1)

def decNorm (m : Nat) : Int × Nat := decNormAux 3 (Int.ofNat m) 3

/-- `classify.classify_item`, lines 111–129: the category, confidence
(scaled by 1000) and reasoning the lexical scoring selects, before the
taxonomy check. `_compute_scores` always returns four entries, so the empty
match arm is unreachable. -/
def _score_choice (content : String) : String × Nat × String :=
  let scores := _compute_scores content.data
  let sorted_scores := most_common scores
  match sorted_scores with
  | (top_category, top_score) :: rest =>
    let second_score := match rest with | (_, s) :: _ => s | [] => 0
    let total := (scores.map Prod.snd).sum
    if top_score = 0 then
      ("reference", 250, "no strong lexical signal; defaulted to reference")
    else
      let confidence := pyRound3 top_score total
      if top_score - second_score ≤ 1 then
        (top_category, min confidence 450,
          "ambiguous lexical signal across categories")
      else
        (top_category, confidence,
          "dominant lexical signal in " ++ top_category)
  | [] => ("reference", 250, "")

def isTagChar (c : Char) : Bool :=
  isAlphaCh c || isDigit c || c = '_' || c = '-'

/-- The negative lookbehind `(?<!\w)`: no previous character, or one that is
not a word character. -/
def prevOk : Option Char → Bool
  | none => true
  | some p => !isWordCh p

/-- `HASHTAG_RE.findall`: `(?<!\w)#([A-Za-z][A-Za-z0-9_-]{1,40})`. No tag
character is `#`, so scanning every position finds exactly the
non-overlapping matches. -/
def hashtagScanAux : Option Char → List Char → List (List Char)
  | _, [] => []
  | prev, c :: rest =>
    (if c = '#' ∧ prevOk prev then
      match rest with
      | d :: e :: rest3 =>
        if isAlphaCh d ∧ isTagChar e then
          [d :: e :: (rest3.takeWhile isTagChar).take 39]
        else []
      | _ => []
    else []) ++ hashtagScanAux (some c) rest

/-- Sorted-set insertion for `sorted(tags)`. -/
def insertStr (x : String) : List String → List String
  | [] => [x]
  | y :: ys => if pyStrLt x.data y.data then x :: y :: ys else y :: insertStr x ys

def sortStrs (l : List String) : List String := l.foldr insertStr []

/-- `classify._extract_tags` (a set built up, returned sorted). -/
def _extract_tags (item : StageItem) (category : String)
    (allow_custom_tags : Bool) : List String :=
  let tags := [category]
  let tags := if category = "todo" then
      let lowered := item.body.data.map pyLowerChar
      let tags := if isSubstr ("urgent").data lowered ||
          isSubstr ("asap").data lowered then tags ++ ["priority"] else tags
      if isSubstr ("deadline").data lowered ||
          isSubstr ("due").data lowered then tags ++ ["deadline"] else tags
    else tags
  let tags := if allow_custom_tags then
      tags ++ (hashtagScanAux none item.content.data).map
        (fun t => String.mk (t.map pyLowerChar))
    else tags
  sortStrs tags.dedup

/-- `classify.classify_item`: the scoring choice, then the taxonomy check of
lines 131–134 forcing an out-of-taxonomy category to `reference` with
confidence capped at 0.35. -/
def classify_item (item : StageItem) (taxonomy : TaxonomyConfig) :
    ClassificationResult :=
  let choice := _score_choice item.content
  if choice.1 ∈ taxonomy.core_categories then
    { category := choice.1,
      tags := _extract_tags item choice.1 taxonomy.allow_custom_tags,
      confidence := decNorm choice.2.1,
      reasoning := choice.2.2 }
  else
    { category := "reference",
      tags := _extract_tags item "reference" taxonomy.allow_custom_tags,
      confidence := decNorm (min choice.2.1 350),
      reasoning := "category outside configured taxonomy; defaulted to reference" }

theorem decNormAux_val : ∀ (fuel : Nat) (m : Int) (e : Nat),
    (decNormAux fuel m e).1 * 10 ^ e = m * 10 ^ (decNormAux fuel m e).2 := by
  intro fuel
  induction fuel with
  | zero => intro m e; rfl
  | succ k ih =>
    intro m e
    unfold decNormAux
    split
    · rfl
    · rename_i hcond
      push_neg at hcond
      obtain ⟨he, hm⟩ := hcond
      obtain ⟨el, rfl⟩ : ∃ el, e = el + 1 := ⟨e - 1, by omega⟩
      simp only [Nat.add_sub_cancel]
      rw [show (decNormAux k (m / 10) el).1 * 10 ^ (el + 1) =
        ((decNormAux k (m / 10) el).1 * 10 ^ el) * 10 from by ring]
      rw [ih (m / 10) el]
      rw [show m / 10 * 10 ^ (decNormAux k (m / 10) el).2 * 10 =
        (m / 10 * 10) * 10 ^ (decNormAux k (m / 10) el).2 from by ring]
      rw [show m / 10 * 10 = m from by omega]

theorem decNorm_le (m bound : Nat) (h : m ≤ bound) :
    (decNorm m).1 * 1000 ≤ (bound : Int) * 10 ^ (decNorm m).2 := by
  have hv := decNormAux_val 3 (Int.ofNat m) 3
  unfold decNorm
  calc (decNormAux 3 (Int.ofNat m) 3).1 * 1000
      = (decNormAux 3 (Int.ofNat m) 3).1 * 10 ^ 3 := by norm_num
    _ = (Int.ofNat m) * 10 ^ (decNormAux 3 (Int.ofNat m) 3).2 := hv
    _ ≤ (bound : Int) * 10 ^ (decNormAux 3 (Int.ofNat m) 3).2 := by
        apply mul_le_mul_of_nonneg_right
        · rw [Int.ofNat_eq_coe]
          exact_mod_cast h
        · positivity

def itemW8 : StageItem :=
  { source_path := "inbox/c.md", source_rel_path := "c.md",
    content_hash := "h", created_at := "t", frontmatter := [], body := "",
    warnings := [], content := "" }

def taxW8 : TaxonomyConfig :=
  { core_categories := ["todo"], allow_custom_tags := false }

/-- C8 counterexample: with `core_categories = ["todo"]` and contentless
input, the scoring defaults to `reference`, the taxonomy check then forces
`reference` again, and the returned category is not in the configured
allowed set — the fallback category need not itself be allowed. -/
theorem classify_taxonomy_counterexample :
    taxW8.core_categories = ["todo"] ∧
    (classify_item itemW8 taxW8).category ∉ taxW8.core_categories := by
  refine ⟨rfl, ?_⟩
  decide

/-- C8 (amended: the returned category is a core category or the fixed
fallback `reference`, not always a member of the configured allowed set):
whenever the category selected by the lexical scoring is outside
`taxonomy.core_categories`, `classify_item` forces the category to
`reference` and caps the confidence at 0.35. -/
theorem classify_taxonomy_fallback (item : StageItem)
    (taxonomy : TaxonomyConfig) :
    ((classify_item item taxonomy).category ∈ taxonomy.core_categories ∨
      (classify_item item taxonomy).category = "reference") ∧
    ((_score_choice item.content).1 ∉ taxonomy.core_categories →
      (classify_item item taxonomy).category = "reference" ∧
      (classify_item item taxonomy).confidence.1 * 1000 ≤
        350 * 10 ^ (classify_item item taxonomy).confidence.2) := by
  unfold classify_item
  by_cases hmem : (_score_choice item.content).1 ∈ taxonomy.core_categories
  · rw [if_pos hmem]
    exact ⟨Or.inl hmem, fun hn => absurd hmem hn⟩
  · rw [if_neg hmem]
    refine ⟨Or.inr rfl, fun _ => ⟨rfl, ?_⟩⟩
    exact decNorm_le _ 350 (min_le_right _ _)

/-- C8 witness: on the counterexample input the fallback fires — category
`reference`, confidence at most 0.35. -/
theorem classify_taxonomy_fallback_witness :
    ((classify_item itemW8 taxW8).category ∈ taxW8.core_categories ∨
      (classify_item itemW8 taxW8).category = "reference") ∧
    ((classify_item itemW8 taxW8).category = "reference" ∧
      (classify_item itemW8 taxW8).confidence.1 * 1000 ≤
        350 * 10 ^ (classify_item itemW8 taxW8).confidence.2) :=
  ⟨(classify_taxonomy_fallback itemW8 taxW8).1,
   (classify_taxonomy_fallback itemW8 taxW8).2 (by decide)⟩

/-! ## The summarizer (`summarize.py`) -/

/-- `str.lower` on a string. -/
def pyLower (s : String) : String := String.mk (s.data.map pyLowerChar)

/-- `str.split()` with no separator: whitespace runs, empties dropped. -/
def pySplitWsAux : List Char → List Char → List (List Char)
  | [], cur => if cur.isEmpty then [] else [cur.reverse]
  | c :: rest, cur =>
    if pyIsSpace c then
      if cur.isEmpty then pySplitWsAux rest []
      else cur.reverse :: pySplitWsAux rest []
    else pySplitWsAux rest (c :: cur)

def pySplitWs (l : List Char) : List (List Char) := pySplitWsAux l []

/-- The lookbehind `(?<=[.!?])` of `SENTENCE_SPLIT_RE`, read off the
reversed chars consumed since the last separator (right after a separator
the previous character is whitespace, never `.!?`). -/
def sentBoundary : List Char → Bool
  | p :: _ => p = '.' || p = '!' || p = '?'
  | [] => false

/-- `re.split` on `(?<=[.!?])\s+`: cut at each whitespace run that follows
a sentence-ending mark (fuelled; one unit per consumed character). -/
def sentSplitAux : Nat → List Char → List Char → List (List Char)
  | 0, cur, l => [cur.reverse ++ l]
  | _ + 1, cur, [] => [cur.reverse]
  | fuel + 1, cur, c :: rest =>
    if pyIsSpace c && sentBoundary cur then
      cur.reverse :: sentSplitAux fuel [] (rest.dropWhile pyIsSpace)
    else sentSplitAux fuel (c :: cur) rest

/-- `summarize._extract_sentences`. -/
def _extract_sentences (text : String) : List String :=
  let normalized := String.intercalate " " ((pySplitWs text.data).map String.mk)
  if normalized.data.isEmpty then []
  else ((sentSplitAux normalized.data.length [] normalized.data).map
    (fun seg => pyStrip (String.mk seg))).filter (fun s => ¬ s.data.isEmpty)

/-- One attempt of `BULLET_RE` (`^\s*[-*]\s+(.+)$`, MULTILINE) at a `^`
position: the greedy `\s*` must reach the bullet character exactly (any
shorter run leaves whitespace where `[-*]` is required), the `\s+` needs a
run of length at least one, and `(.+)$` needs a following character that is
not a newline — when everything after the run is exhausted, the engine
backs up to the last non-newline whitespace character of the run. Returns
the capture and the rest of the input after the match. -/
def bulletMatchAt (l : List Char) : Option (List Char × List Char) :=
  match l.dropWhile pyIsSpace with
  | b :: r2 =>
    if b = '-' ∨ b = '*' then
      let run := r2.takeWhile pyIsSpace
      let rest2 := r2.dropWhile pyIsSpace
      if run.isEmpty then none
      else if rest2.isEmpty then
        match (run.drop 1).reverse.dropWhile (fun c => c = '\n') with
        | [] => none
        | h :: t => some ([h], (run.drop 1).drop (t.length + 1))
      else
        some (rest2.takeWhile (fun c => ¬ c = '\n'),
          rest2.dropWhile (fun c => ¬ c = '\n'))
    else none
  | [] => none

/-- `BULLET_RE.findall`: scan every `^` position, skipping matched spans. -/
def bulletScan : Nat → Bool → List Char → List (List Char)
  | 0, _, _ => []
  | fuel + 1, lineStart, l =>
    match (if lineStart then bulletMatchAt l else none) with
    | some (cap, rest) => cap :: bulletScan fuel false rest
    | none => match l with
      | [] => []
      | c :: rest => bulletScan fuel (c = '\n') rest

def bulletFindall (l : List Char) : List (List Char) :=
  bulletScan (l.length + 1) true l

/-- `summarize._extract_key_points`. -/
def _extract_key_points (text : String) : List String :=
  let bullets := (bulletFindall text.data).map (fun c => pyStrip (String.mk c))
  if ¬ bullets.isEmpty then bullets.take 5
  else
    let sentences := _extract_sentences text
    if sentences.isEmpty then [] else sentences.take 5

def ACTION_KEYWORDS : List String :=
  ["do", "build", "write", "ship", "fix", "review", "plan", "draft", "call",
   "email"]

/-- `ACTION_RE.match` on one line (no newline inside): optional bullet,
optional checkbox, then a keyword at a word boundary with at least one more
character; each optional piece and greedy `\s*` is forced, since whitespace
can satisfy neither `[-*]` nor `\[` nor a keyword letter. Returns the
capture (the keyword and everything after it). -/
def actionMatch (line : List Char) : Option (List Char) :=
  let r1 := line.dropWhile pyIsSpace
  let r2 := match r1 with
    | c :: t => if c = '-' ∨ c = '*' then t else r1
    | [] => r1
  let r3 := r2.dropWhile pyIsSpace
  let r4 := match r3 with
    | '[' :: d :: ']' :: t =>
      if d = ' ' ∨ d = 'x' ∨ d = 'X' then t.dropWhile pyIsSpace else r3
    | _ => r3
  if ACTION_KEYWORDS.any (fun kw =>
      kw.data.isPrefixOf (r4.map pyLowerChar) &&
      (match r4.drop kw.data.length with
        | [] => false
        | c :: _ => !isWordCh c)) then
    some r4
  else none

/-- `re.match` then `re.sub` of `^\s*[-*]\s*\[[ xX]\]\s+` on one line:
when the line starts with a checkbox, the rest of the line after it. -/
def checkboxRest (line : List Char) : Option (List Char) :=
  match line.dropWhile pyIsSpace with
  | c :: t =>
    if c = '-' ∨ c = '*' then
      match t.dropWhile pyIsSpace with
      | '[' :: d :: ']' :: t2 =>
        if (d = ' ' ∨ d = 'x' ∨ d = 'X') ∧
            (match t2 with | e :: _ => pyIsSpace e | [] => false) = true then
          some (t2.dropWhile pyIsSpace)
        else none
      | _ => none
    else none
  | [] => none

/-- The case-insensitive `seen`-set dedup loop of `_extract_actions`. -/
def dedupCaseAux : List String → List String → List String
  | _, [] => []
  | seen, a :: rest =>
    if pyLower a ∈ seen then dedupCaseAux seen rest
    else a :: dedupCaseAux (pyLower a :: seen) rest

/-- `summarize._extract_actions`. -/
def _extract_actions (text : String) : List String :=
  let actions := (pySplitlines text).flatMap (fun line =>
    match actionMatch line.data with
    | some cap => [pyStrip (String.mk cap)]
    | none =>
      match checkboxRest line.data with
      | some rest =>
        let cleaned := pyStrip (String.mk rest)
        if cleaned.data.isEmpty then [] else [cleaned]
      | none => [])
  (dedupCaseAux [] actions).take 8

/-- Python `round(x, 3)` on a decimal mantissa/exponent pair: half to even
at the third decimal. -/
def pyRoundPair (p : Int × Nat) : Int × Nat :=
  if p.2 ≤ 3 then p
  else
    let d : Int := (10 : Int) ^ (p.2 - 3)
    let q := p.1 / d
    let r := p.1 % d
    (if 2 * r < d then q
     else if d < 2 * r then q + 1
     else if q % 2 = 0 then q else q + 1, 3)

/-- `summarize.build_summary`. -/
def build_summary (item : StageItem) (category : String)
    (triggered_by : List String) (redundancy_score : Int × Nat) :
    SummaryResult :=
  let sentences := _extract_sentences item.body
  let short_sentences := sentences.take 3
  let short_summary :=
    String.mk ((String.intercalate " " short_sentences).data.take 500)
  let key_points := _extract_key_points item.body
  let actions := if category = "todo" ∨ category = "idea" then
      _extract_actions item.body
    else []
  { short_summary := short_summary, key_points := key_points,
    actions := actions, triggered_by := triggered_by,
    redundancy_score := pyRoundPair redundancy_score }

theorem dedupCaseAux_spec : ∀ (l seen : List String),
    (∀ a ∈ dedupCaseAux seen l, pyLower a ∉ seen) ∧
    (dedupCaseAux seen l).Pairwise (fun a b => ¬ pyLower a = pyLower b) := by
  intro l
  induction l with
  | nil =>
    intro seen
    exact ⟨by intro a ha; exact absurd ha (by simp [dedupCaseAux]),
      by simp [dedupCaseAux]⟩
  | cons a rest ih =>
    intro seen
    unfold dedupCaseAux
    by_cases hm : pyLower a ∈ seen
    · rw [if_pos hm]
      exact ih seen
    · rw [if_neg hm]
      obtain ⟨h1, h2⟩ := ih (pyLower a :: seen)
      constructor
      · intro b hb
        rcases List.mem_cons.mp hb with rfl | hb2
        · exact hm
        · intro hbs
          exact h1 b hb2 (List.mem_cons_of_mem _ hbs)
      · refine List.Pairwise.cons ?_ h2
        intro b hb heq
        exact h1 b hb (by rw [← heq]; exact List.mem_cons_self _ _)

theorem take_length_le {α : Type} (l : List α) (n : Nat) :
    (l.take n).length ≤ n := by
  rw [List.length_take]
  exact min_le_left _ _

/-- C10: the built summary obeys the fixed caps: `short_summary` is the
join of the first at most three extracted sentences cut to 500 characters,
`key_points` has at most 5 entries, `actions` has at most 8 entries with
pairwise distinct lowercasings (the case-insensitive dedup), and `actions`
is empty unless the category is `todo` or `idea`. -/
theorem build_summary_caps (item : StageItem) (category : String)
    (triggered_by : List String) (redundancy_score : Int × Nat) :
    (build_summary item category triggered_by redundancy_score).short_summary
      = String.mk ((String.intercalate " "
          ((_extract_sentences item.body).take 3)).data.take 500) ∧
    (build_summary item category triggered_by
      redundancy_score).short_summary.data.length ≤ 500 ∧
    (build_summary item category triggered_by
      redundancy_score).key_points.length ≤ 5 ∧
    (build_summary item category triggered_by
      redundancy_score).actions.length ≤ 8 ∧
    (build_summary item category triggered_by
      redundancy_score).actions.Pairwise
        (fun a b => ¬ pyLower a = pyLower b) ∧
    (¬ (category = "todo" ∨ category = "idea") →
      (build_summary item category triggered_by
        redundancy_score).actions = []) := by
  refine ⟨rfl, take_length_le _ _, ?_, ?_, ?_, ?_⟩
  · show (_extract_key_points item.body).length ≤ 5
    simp only [_extract_key_points]
    split
    · exact take_length_le _ _
    · split
      · simp
      · exact take_length_le _ _
  · show (if category = "todo" ∨ category = "idea" then
        _extract_actions item.body else []).length ≤ 8
    split
    · exact take_length_le _ _
    · simp
  · show (if category = "todo" ∨ category = "idea" then
        _extract_actions item.body else []).Pairwise
          (fun a b => ¬ pyLower a = pyLower b)
    split
    · exact List.Pairwise.sublist (List.take_sublist _ _)
        (dedupCaseAux_spec _ []).2
    · exact List.Pairwise.nil
  · intro hcat
    show (if category = "todo" ∨ category = "idea" then
        _extract_actions item.body else []) = []
    rw [if_neg hcat]

def itemW10 : StageItem :=
  { source_path := "inbox/s.md", source_rel_path := "s.md",
    content_hash := "h", created_at := "t", frontmatter := [],
    body := "Ship v2. Then rest! Also this? And more.\n- [x] Ship it now\n- [ ] ship IT now\ndo the needful",
    warnings := [], content := "" }

/-- C10 witness: a concrete item with sentences, checkbox bullets and a
duplicate action, summarized under category `log`, where every cap holds
and the gate forces `actions` empty. -/
theorem build_summary_caps_witness :
    (build_summary itemW10 "log" ["long_entry"] (12345, 5)).short_summary
      = String.mk ((String.intercalate " "
          ((_extract_sentences itemW10.body).take 3)).data.take 500) ∧
    (build_summary itemW10 "log" ["long_entry"]
      (12345, 5)).short_summary.data.length ≤ 500 ∧
    (build_summary itemW10 "log" ["long_entry"]
      (12345, 5)).key_points.length ≤ 5 ∧
    (build_summary itemW10 "log" ["long_entry"]
      (12345, 5)).actions.length ≤ 8 ∧
    (build_summary itemW10 "log" ["long_entry"] (12345, 5)).actions.Pairwise
      (fun a b => ¬ pyLower a = pyLower b) ∧
    (build_summary itemW10 "log" ["long_entry"] (12345, 5)).actions = [] :=
  ⟨(build_summary_caps itemW10 "log" ["long_entry"] (12345, 5)).1,
   (build_summary_caps itemW10 "log" ["long_entry"] (12345, 5)).2.1,
   (build_summary_caps itemW10 "log" ["long_entry"] (12345, 5)).2.2.1,
   (build_summary_caps itemW10 "log" ["long_entry"] (12345, 5)).2.2.2.1,
   (build_summary_caps itemW10 "log" ["long_entry"] (12345, 5)).2.2.2.2.1,
   (build_summary_caps itemW10 "log" ["long_entry"] (12345, 5)).2.2.2.2.2
     (by decide)⟩

end Memo